import Mathlib

/-!
# Finite-element mass operator (pbat/fem/MassMatrix.h, pbat/fem/ShapeFunctions.h)

A shallow embedding of the matrix-free mass operator and of the shape-function
routines it uses.

Conventions of the embedding.

* `Scalar` (a C++ `double`) is modelled by the rationals: all statements are about
  exact arithmetic.
* A dense Eigen matrix is its run-time shape together with its coefficient function.
  Coefficients are addressed by natural numbers; the shape decides which of them
  exist. A sparse matrix is modelled by its shape and coefficients, its storage
  scheme is left out.
* `throw std::invalid_argument` is `Failure.invalidArgument`; a failing `eigen_assert`
  is `Failure.assertion`.
* A method that mutates an argument or the operator takes the old value and returns the
  new one next to its outcome, so that what a failing call leaves behind can be stated.
* `tbb::parallel_for` over elements is run as a sequential loop: every iteration
  writes a block of its own.
* `dims` is a C++ `int` and is an integer here. Where it is used as a loop bound or in an
  index it is taken as the natural number `dims.toNat`: a loop `for (d = 0; d < dims; ++d)`
  has `dims.toNat` iterations, and inside it `dims` is that number. Index arithmetic does
  not overflow for matrices that fit in memory and is modelled without bounds.
* Coefficient access outside the shape of a matrix is undefined in Eigen and is not
  given a meaning: statements about coefficients assume the mesh invariant, under which
  every access is inside the shape.
* In the pointwise gradient routine a fixed-size Eigen matrix `Matrix<r, c>` is a matrix
  over `Fin r` and `Fin c`. Eigen's `fullPivLu().solve` and `ldlt().solve` are taken in
  exact arithmetic on invertible systems (`exactSolve`).
* A sparse matrix that is filled by `insert` records which coefficients are stored:
  Eigen's `insert` asserts that the position is inside the shape and not stored yet.
-/

namespace pbat
namespace fem

/-! ## Scalars, failures, loops -/

/-- Scalars of the library, in exact arithmetic. -/
abbrev Scalar := ℚ

/-- The two ways a call can fail: a thrown `std::invalid_argument`, or a failed
`eigen_assert` inside Eigen. -/
inductive Failure where
  | invalidArgument
  | assertion
deriving DecidableEq

/-- The loop `for (i = 0; i < n; ++i) body(i)` on a state: iteration `n` runs on
the state left by iterations `0 .. n-1`. -/
def forEach {σ : Type} : Nat → (Nat → σ → σ) → σ → σ
  | 0, _, s => s
  | n + 1, body, s => body n (forEach n body s)

/-- The loop `for (i = 0; i < n; ++i) body(i)` whose body may fail: the first
failure ends the loop, with the state as the failing iteration left it. -/
def forLoop {σ : Type} :
    Nat → (Nat → σ → Except Failure Unit × σ) → σ → Except Failure Unit × σ
  | 0, _, s => (Except.ok (), s)
  | n + 1, body, s =>
    match forLoop n body s with
    | (Except.ok _, s') => body n s'
    | (Except.error f, s') => (Except.error f, s')

/-! ## Matrices -/

/-- Dense matrix of scalars with run-time shape (`MatrixX`, `Eigen::Ref<MatrixX const>`). -/
structure MatrixX where
  rows : Nat
  cols : Nat
  coeff : Nat → Nat → Scalar

/-- Dense vector of scalars with run-time size (`VectorX`). -/
structure VectorX where
  size : Nat
  coeff : Nat → Scalar

/-- Dense matrix of indices with run-time shape (`IndexMatrixX`). The entries of a
connectivity matrix are node indices, hence natural numbers. -/
structure IndexMatrixX where
  rows : Nat
  cols : Nat
  coeff : Nat → Nat → Nat

/-- Sparse compressed-column matrix (`CSCMatrix`), as its shape and coefficients. -/
structure CSCMatrix where
  rows : Nat
  cols : Nat
  coeff : Nat → Nat → Scalar

/-- Sparse compressed-row matrix (`CSRMatrix`) while it is filled by `insert`: its shape,
its coefficients, and which coefficients are stored. -/
structure CSRMatrix where
  rows : Nat
  cols : Nat
  coeff : Nat → Nat → Scalar
  stored : Nat → Nat → Bool

/-- One entry of a triplet list (`Eigen::Triplet<Scalar, SparseIndex>`). -/
structure Triplet where
  row : Nat
  col : Nat
  value : Scalar

/-- Number of coefficients, `m.size()`. -/
def MatrixX.size (m : MatrixX) : Nat := m.rows * m.cols

/-- The matrix `MatrixX::Zero(r, c)`; also what `setZero(r, c)` leaves. -/
def MatrixX.Zero (r c : Nat) : MatrixX :=
  { rows := r, cols := c, coeff := fun _ _ => 0 }

/-- The matrix `MatrixX::Constant(r, c, v)`. -/
def MatrixX.Constant (r c : Nat) (v : Scalar) : MatrixX :=
  { rows := r, cols := c, coeff := fun _ _ => v }

/-- Column assignment `m.col(g) = v`. -/
def MatrixX.setCol (m : MatrixX) (g : Nat) (v : Nat → Scalar) : MatrixX :=
  { m with coeff := fun r c => if c = g then v r else m.coeff r c }

/-- Coefficient update `m(r, c) += v`. -/
def MatrixX.addCoeff (m : MatrixX) (r c : Nat) (v : Scalar) : MatrixX :=
  { m with coeff := fun r' c' => if r' = r ∧ c' = c then m.coeff r' c' + v else m.coeff r' c' }

/-- Block update `m.block<nr, nc>(r0, c0) += B`. -/
def MatrixX.blockAdd (m : MatrixX) (r0 c0 nr nc : Nat) (B : Nat → Nat → Scalar) : MatrixX :=
  { m with
    coeff := fun r c =>
      if r0 ≤ r ∧ r < r0 + nr ∧ c0 ≤ c ∧ c < c0 + nc then m.coeff r c + B (r - r0) (c - c0)
      else m.coeff r c }

/-- Column update `m.col(e) += v`. -/
def MatrixX.addCol (m : MatrixX) (e : Nat) (v : Nat → Scalar) : MatrixX :=
  { m with coeff := fun r c => if c = e then m.coeff r c + v r else m.coeff r c }

/-- Column `p` of a matrix, `m.col(p)`, as a vector of coefficients. -/
def MatrixX.col (m : MatrixX) (p : Nat) : Nat → Scalar := fun k => m.coeff k p

/-- Dense vector of indices with run-time size (`IndexVectorX`). -/
structure IndexVectorX where
  size : Nat
  coeff : Nat → Nat

/-- The vector left by `VectorX m(n); m.setZero();`. -/
def VectorX.Zero (n : Nat) : VectorX :=
  { size := n, coeff := fun _ => 0 }

/-- Coefficient update `m(i) += v`. -/
def VectorX.addCoeff (m : VectorX) (i : Nat) (v : Scalar) : VectorX :=
  { m with coeff := fun i' => if i' = i then m.coeff i' + v else m.coeff i' }

/-- Sum of the values of the triplets that sit at position `(r, c)`. -/
def tripletSum (r c : Nat) (ts : List Triplet) : Scalar :=
  ((ts.filter (fun t => t.row = r ∧ t.col = c)).map Triplet.value).sum

/-- The matrix `Mmat(rows, cols); Mmat.setFromTriplets(...)`: the coefficient at a
position is the sum of the triplets given for it. -/
def setFromTriplets (rows cols : Nat) (ts : List Triplet) : CSCMatrix :=
  { rows := rows, cols := cols, coeff := fun r c => tripletSum r c ts }

/-- The empty sparse matrix `CSRMatrix N(m, n)`. -/
def CSRMatrix.Zero (m n : Nat) : CSRMatrix :=
  { rows := m, cols := n, coeff := fun _ _ => 0, stored := fun _ _ => false }

/-- The matrix after the coefficient `(r, c)` is stored with value `v`. -/
def CSRMatrix.inserted (N : CSRMatrix) (r c : Nat) (v : Scalar) : CSRMatrix :=
  { N with
    coeff := fun r' c' => if r' = r ∧ c' = c then v else N.coeff r' c'
    stored := fun r' c' => if r' = r ∧ c' = c then true else N.stored r' c' }

/-- Effect of `N.insert(r, c) = v`. Eigen's `insert` asserts that the position is inside
the shape and that the coefficient is not stored yet. -/
def CSRMatrix.insert (N : CSRMatrix) (r c : Nat) (v : Scalar) :
    Except Failure Unit × CSRMatrix :=
  if ¬ (r < N.rows ∧ c < N.cols) then (Except.error Failure.assertion, N)
  else if N.stored r c then (Except.error Failure.assertion, N)
  else (Except.ok (), N.inserted r c v)

/-- Eigen's `v.reshaped(r, c)` of a column of `n` coefficients is only allowed when
`r * c = n` (an `eigen_assert` of the reshaped expression). -/
def reshapedSizeOk (n r c : Nat) : Bool := r * c == n

/-- Position in the column of coefficient `(i, j)` of its column-major reshape with
`r` rows. -/
def reshapedAt (r i j : Nat) : Nat := i + r * j

/-! ## Element trait and mesh -/

/-- One quadrature rule of an element (`ElementType::QuadratureType<Order>`): `kPoints`
points stored flat as consecutive `(kDims+1)`-vectors, and their weights. -/
structure QuadratureRule where
  kDims : Nat
  kPoints : Nat
  points : Nat → Scalar
  weights : Nat → Scalar

/-- The static description of a reference element (concept `CElement`). -/
structure Element where
  kOrder : Int
  kDims : Nat
  kNodes : Nat
  N : (Nat → Scalar) → Nat → Scalar
  GradN : (Nat → Scalar) → Nat → Nat → Scalar
  Vertices : List Nat
  QuadratureType : Int → QuadratureRule

/-- A finite element mesh (concept `CMesh`): node positions `X` and connectivity `E`. -/
structure Mesh where
  X : MatrixX
  E : IndexMatrixX

/-- The mesh invariant: `E` has one row per element node and every entry of `E` is a
column of `X`. -/
def Mesh.Valid (el : Element) (mesh : Mesh) : Prop :=
  mesh.E.rows = el.kNodes ∧
    ∀ i, i < el.kNodes → ∀ e, e < mesh.E.cols → mesh.E.coeff i e < mesh.X.cols

/-! ## ShapeFunctions.h -/

/-- Reference coordinates of quadrature point `g`: the rule's points reshaped to
`(kDims+1) x kPoints`, bottom `kDims` rows. -/
def quadraturePoint (rule : QuadratureRule) (g : Nat) : Nat → Scalar :=
  fun k => rule.points (reshapedAt (rule.kDims + 1) (k + 1) g)

/-- Shape functions at the quadrature points, `ShapeFunctions<TElement, QuadratureOrder>()`. -/
def ShapeFunctions (el : Element) (QuadratureOrder : Int) : MatrixX :=
  let rule := el.QuadratureType QuadratureOrder
  forEach rule.kPoints (fun g Ng => Ng.setCol g (el.N (quadraturePoint rule g)))
    (MatrixX.Zero el.kNodes rule.kPoints)

/-- Effect of the loops of `ShapeFunctionMatrix<QuadratureOrder>(mesh)` on the matrix
`N`: for every element `e`, quadrature point `g` and local node `i`,
`N.insert(e * numberOfQuadPoints + g, nodes(i)) = Ng(i, g)`. -/
def ShapeFunctionMatrix.fill (el : Element) (QuadratureOrder : Int) (mesh : Mesh)
    (N : CSRMatrix) : Except Failure Unit × CSRMatrix :=
  let Ng := ShapeFunctions el QuadratureOrder
  let numberOfElements := mesh.E.cols
  let numberOfQuadPoints := Ng.cols
  forLoop numberOfElements
    (fun e N =>
      let nodes := fun i => mesh.E.coeff i e
      forLoop numberOfQuadPoints
        (fun g N =>
          let row := e * numberOfQuadPoints + g
          forLoop Ng.rows (fun i N => N.insert row (nodes i) (Ng.coeff i g)) N)
        N)
    N

/-- The shape function matrix at the quadrature points of a mesh,
`ShapeFunctionMatrix<QuadratureOrder>(mesh)`. -/
def ShapeFunctionMatrix (el : Element) (QuadratureOrder : Int) (mesh : Mesh) :
    Except Failure CSRMatrix :=
  let Ng := ShapeFunctions el QuadratureOrder
  let numberOfNodes := mesh.X.cols
  let numberOfElements := mesh.E.cols
  let numberOfQuadPoints := Ng.cols
  let m := numberOfQuadPoints * numberOfElements
  let n := numberOfNodes
  match ShapeFunctionMatrix.fill el QuadratureOrder mesh (CSRMatrix.Zero m n) with
  | (Except.ok _, N) => Except.ok N
  | (Except.error f, _) => Except.error f

/-- Shape functions at reference points, `ShapeFunctionsAt<TElement>(Xi)`: one column per
column of `Xi`. -/
def ShapeFunctionsAt (el : Element) (Xi : MatrixX) : Except Failure MatrixX :=
  if Xi.rows ≠ el.kDims then Except.error Failure.invalidArgument
  else
    Except.ok
      (forEach Xi.cols (fun i N => N.setCol i (el.N (Xi.col i)))
        (MatrixX.Zero el.kNodes Xi.cols))

/-- Shape functions at points of a mesh, `ShapeFunctionsAt(mesh, eg, Xg, bXgInReferenceSpace)`.
The solver `ReferencePositions` of `Jacobian.h`, which maps points of the domain to
reference points, is a parameter. -/
def ShapeFunctionsAtMesh (el : Element)
    (ReferencePositions : Mesh → IndexVectorX → MatrixX → MatrixX)
    (mesh : Mesh) (eg : IndexVectorX) (Xg : MatrixX) (bXgInReferenceSpace : Bool) :
    Except Failure MatrixX :=
  if bXgInReferenceSpace then ShapeFunctionsAt el Xg
  else ShapeFunctionsAt el (ReferencePositions mesh eg Xg)

/-- Shape functions integrated on each element,
`IntegratedShapeFunctions<QuadratureOrder>(mesh, detJe)`. -/
def IntegratedShapeFunctions (el : Element) (QuadratureOrder : Int) (mesh : Mesh)
    (detJe : MatrixX) : Except Failure MatrixX :=
  let rule := el.QuadratureType QuadratureOrder
  let kQuadPts := rule.kPoints
  let numberOfElements := mesh.E.cols
  if ¬ (detJe.rows = kQuadPts ∧ detJe.cols = numberOfElements) then
    Except.error Failure.invalidArgument
  else
    let kNodesPerElement := el.kNodes
    let Ng := ShapeFunctions el QuadratureOrder
    let wg := rule.weights
    Except.ok
      (forEach numberOfElements
        (fun e N =>
          forEach rule.kPoints
            (fun g N => N.addCol e (fun i => (wg g * detJe.coeff g e) * Ng.coeff i g))
            N)
        (MatrixX.Zero kNodesPerElement numberOfElements))

/-- The gradient `TElement::GradN(Xi)` as a fixed-size matrix with one row per node and
`kDims` columns. -/
def Element.gradN (el : Element) (kDims : Nat) (Xi : Nat → Scalar) :
    Matrix (Fin el.kNodes) (Fin kDims) Scalar :=
  fun i k => el.GradN Xi i k

/-- The solution `X` of `A * X = B` that Eigen's `A.fullPivLu().solve(B)` and
`A.ldlt().solve(B)` return, in exact arithmetic, for an invertible `A`: the adjugate of
`A` times `B`, divided by the determinant. What Eigen returns for a singular `A` is not
modelled. -/
def exactSolve {n m : Nat} (A : Matrix (Fin n) (Fin n) Scalar)
    (B : Matrix (Fin n) (Fin m) Scalar) : Matrix (Fin n) (Fin m) Scalar :=
  (A.det)⁻¹ • (A.adjugate * B)

/-- The Jacobian `J` of `ShapeFunctionGradients`: `X` times the reference gradient of the
affine element. -/
def ShapeFunctionGradients.J (el affine : Element) (kOutputDims : Nat) (Xi : Nat → Scalar)
    (X : Matrix (Fin kOutputDims) (Fin affine.kNodes) Scalar) :
    Matrix (Fin kOutputDims) (Fin el.kDims) Scalar :=
  X * affine.gradN el.kDims Xi

/-- Gradients of the shape functions at the reference point `Xi` of the element with
vertices `X`, `ShapeFunctionGradients<TElement>(Xi, X)`. The element `affine` is
`TElement::AffineBaseType`, which is `TElement` itself when the element is linear:
then `J = X * GN`, as in the first branch of the source. `kOutputDims` is the number of
rows of `X`. -/
def ShapeFunctionGradients (el affine : Element) (kOutputDims : Nat) (Xi : Nat → Scalar)
    (X : Matrix (Fin kOutputDims) (Fin affine.kNodes) Scalar) :
    Matrix (Fin el.kNodes) (Fin kOutputDims) Scalar :=
  let GN := el.gradN el.kDims Xi
  let J := ShapeFunctionGradients.J el affine kOutputDims Xi X
  if bIsJacobianSquare : el.kDims = kOutputDims then
    (exactSolve (fun a b => J.transpose (Fin.cast bIsJacobianSquare.symm a) b)
      (fun a i => GN.transpose (Fin.cast bIsJacobianSquare.symm a) i)).transpose
  else
    let JTJ := J.transpose * J
    (J * exactSolve JTJ GN.transpose).transpose

/-! ## MassMatrix.h -/

/-- State of a `MassMatrix<TMesh, QuadratureOrder>`. The element type and the
quadrature order are template parameters and are passed to every operation. -/
structure MassMatrix where
  mesh : Mesh
  detJe : MatrixX
  Me : MatrixX
  dims : Int

/-- Polynomial order of the mass matrix, `kOrder = 2 * ElementType::kOrder`. -/
def MassMatrix.kOrder (el : Element) : Int := 2 * el.kOrder

/-- Value of `InputDimensions()`. -/
def MassMatrix.InputDimensions (M : MassMatrix) : Int := M.dims * (M.mesh.X.cols : Int)

/-- Value of `OutputDimensions()`. -/
def MassMatrix.OutputDimensions (M : MassMatrix) : Int := M.InputDimensions

/-- Outcome of `CheckValidState()`. -/
def MassMatrix.CheckValidState (el : Element) (QuadratureOrder : Int) (M : MassMatrix) :
    Except Failure Unit :=
  let numberOfElements := M.mesh.E.cols
  let kExpectedDetJeRows := (el.QuadratureType QuadratureOrder).kPoints
  let expectedDetJeCols := numberOfElements
  if ¬ (M.detJe.rows = kExpectedDetJeRows ∧ M.detJe.cols = expectedDetJeCols) then
    Except.error Failure.invalidArgument
  else if M.dims < 1 then
    Except.error Failure.invalidArgument
  else
    Except.ok ()

/-- The weighted outer products `NgOuterNg[g] = wg(g) * (N.col(g) * N.col(g)^T)`. -/
def NgOuterNg (el : Element) (QuadratureOrder : Int) (g i j : Nat) : Scalar :=
  let N := ShapeFunctions el QuadratureOrder
  let wg := (el.QuadratureType QuadratureOrder).weights
  wg g * (N.coeff i g * N.coeff j g)

/-- The assembly loops of `ComputeElementMassMatrices`: `Me.setZero(...)`, then for
every element `e` and quadrature point `g`,
`me += (rho(g, e) * detJe(g, e)) * NgOuterNg[g]` on the block of `e`. -/
def MassMatrix.elementMassMatrices (el : Element) (QuadratureOrder : Int)
    (rho detJe : MatrixX) (numberOfElements : Nat) : MatrixX :=
  let kNodesPerElement := el.kNodes
  let kQuadPtsPerElement := (el.QuadratureType QuadratureOrder).kPoints
  forEach numberOfElements
    (fun e Me =>
      forEach kQuadPtsPerElement
        (fun g Me =>
          Me.blockAdd 0 (e * kNodesPerElement) kNodesPerElement kNodesPerElement
            (fun i j => (rho.coeff g e * detJe.coeff g e) * NgOuterNg el QuadratureOrder g i j))
        Me)
    (MatrixX.Zero kNodesPerElement (kNodesPerElement * numberOfElements))

/-- Effect of `ComputeElementMassMatrices(rho)`: the outcome and the operator after
the call. -/
def MassMatrix.ComputeElementMassMatrices (el : Element) (QuadratureOrder : Int)
    (rho : MatrixX) (M : MassMatrix) : Except Failure Unit × MassMatrix :=
  match M.CheckValidState el QuadratureOrder with
  | Except.error f => (Except.error f, M)
  | Except.ok _ =>
    let numberOfElements := M.mesh.E.cols
    let kQuadPtsPerElement := (el.QuadratureType QuadratureOrder).kPoints
    if ¬ (rho.cols = numberOfElements ∧ rho.rows = kQuadPtsPerElement) then
      (Except.error Failure.invalidArgument, M)
    else
      (Except.ok (),
        { M with
          Me := MassMatrix.elementMassMatrices el QuadratureOrder rho M.detJe numberOfElements })

/-- The constructor taking a density per quadrature point: the operator, or the
failure that leaves no operator. -/
def MassMatrix.construct (el : Element) (QuadratureOrder : Int) (mesh : Mesh)
    (detJe : MatrixX) (rho : MatrixX) (dims : Int) : Except Failure MassMatrix :=
  match MassMatrix.ComputeElementMassMatrices el QuadratureOrder rho
      { mesh := mesh, detJe := detJe, Me := MatrixX.Zero 0 0, dims := dims } with
  | (Except.ok _, M) => Except.ok M
  | (Except.error f, _) => Except.error f

/-- The constructor taking a uniform density. -/
def MassMatrix.constructUniform (el : Element) (QuadratureOrder : Int) (mesh : Mesh)
    (detJe : MatrixX) (rho : Scalar) (dims : Int) : Except Failure MassMatrix :=
  MassMatrix.construct el QuadratureOrder mesh detJe
    (MatrixX.Constant (el.QuadratureType QuadratureOrder).kPoints mesh.E.cols rho) dims

/-- Element mass block `Me.block<kNodes, kNodes>(0, e * kNodes)`. -/
def MassMatrix.block (el : Element) (M : MassMatrix) (e : Nat) (i j : Nat) : Scalar :=
  M.Me.coeff i (e * el.kNodes + j)

/-- Coefficient `(d, j)` of the product `xe * me` in `Apply`, where
`xe = x.col(c).reshaped(dims, x.size() / dims)(all, nodes)` gathers the columns of the
reshaped column of `x` at the nodes of element `e`. -/
def MassMatrix.elementProduct (el : Element) (M : MassMatrix) (x : MatrixX) (c e : Nat)
    (d j : Nat) : Scalar :=
  let dims := M.dims.toNat
  let nodes := fun i => M.mesh.E.coeff i e
  let me := M.block el e
  ∑ i in Finset.range el.kNodes, x.coeff (reshapedAt dims d (nodes i)) c * me i j

/-- The update `ye += xe * me` in `Apply`, where
`ye = y.col(c).reshaped(dims, y.size() / dims)(all, nodes)`: the product is evaluated
into a temporary, which is then added coefficient by coefficient to the columns of the
reshaped column of `y` at the nodes of element `e`. -/
def MassMatrix.addElementProduct (el : Element) (M : MassMatrix) (x : MatrixX) (c e : Nat)
    (y : MatrixX) : MatrixX :=
  let dims := M.dims.toNat
  let nodes := fun i => M.mesh.E.coeff i e
  forEach el.kNodes
    (fun j y =>
      forEach dims
        (fun d y => y.addCoeff (reshapedAt dims d (nodes j)) c (M.elementProduct el x c e d j))
        y)
    y

/-- Body of the element loop of `Apply` for column `c` and element `e`: the columns `c`
of `y` and of `x` are reshaped to `dims x (size() / dims)`, where `size()` counts the
coefficients of the whole matrix, and then `ye += xe * me`. It runs after
`CheckValidState`, so `dims >= 1`. -/
def MassMatrix.applyElement (el : Element) (M : MassMatrix) (x : MatrixX) (c e : Nat)
    (y : MatrixX) : Except Failure Unit × MatrixX :=
  let dims := M.dims.toNat
  if ¬ reshapedSizeOk y.rows dims (y.size / dims) then (Except.error Failure.assertion, y)
  else if ¬ reshapedSizeOk x.rows dims (x.size / dims) then (Except.error Failure.assertion, y)
  else (Except.ok (), M.addElementProduct el x c e y)

/-- Effect of `Apply(x, y)`: the outcome and `y` after the call. The operator is
not touched (`Apply` is a `const` method). -/
def MassMatrix.Apply (el : Element) (QuadratureOrder : Int) (M : MassMatrix)
    (x y : MatrixX) : Except Failure Unit × MatrixX :=
  match M.CheckValidState el QuadratureOrder with
  | Except.error f => (Except.error f, y)
  | Except.ok _ =>
    let numberOfDofs := M.InputDimensions
    if (x.rows : Int) ≠ numberOfDofs ∨ (y.rows : Int) ≠ numberOfDofs ∨ x.cols ≠ y.cols then
      (Except.error Failure.invalidArgument, y)
    else
      let numberOfElements := M.mesh.E.cols
      forLoop y.cols
        (fun c y => forLoop numberOfElements (fun e y => M.applyElement el x c e y) y) y

/-- The triplets emitted by `ToMatrix()`, in order. -/
def MassMatrix.triplets (el : Element) (M : MassMatrix) : List Triplet :=
  let dims := M.dims.toNat
  forEach M.mesh.E.cols
    (fun e ts =>
      let nodes := fun i => M.mesh.E.coeff i e
      let me := M.block el e
      forEach el.kNodes
        (fun j ts =>
          forEach el.kNodes
            (fun i ts =>
              forEach dims
                (fun d ts =>
                  ts ++ [{ row := dims * nodes i + d, col := dims * nodes j + d,
                           value := me i j }])
                ts)
            ts)
        ts)
    []

/-- Result of `ToMatrix()`. -/
def MassMatrix.ToMatrix (el : Element) (QuadratureOrder : Int) (M : MassMatrix) :
    Except Failure CSCMatrix :=
  match M.CheckValidState el QuadratureOrder with
  | Except.error f => Except.error f
  | Except.ok _ =>
    Except.ok
      (setFromTriplets M.OutputDimensions.toNat M.InputDimensions.toNat (M.triplets el))

/-- Result of `ToLumpedMasses()`. There is no state check; a negative size given to
`VectorX m(...)` fails an `eigen_assert`. -/
def MassMatrix.ToLumpedMasses (el : Element) (M : MassMatrix) : Except Failure VectorX :=
  if M.InputDimensions < 0 then Except.error Failure.assertion
  else
    let dims := M.dims.toNat
    Except.ok
      (forEach M.mesh.E.cols
        (fun e m =>
          let nodes := fun i => M.mesh.E.coeff i e
          let me := M.block el e
          forEach el.kNodes
            (fun j m =>
              forEach el.kNodes
                (fun i m => forEach dims (fun d m => m.addCoeff (dims * nodes i + d) (me i j)) m)
                m)
            m)
        (VectorX.Zero M.InputDimensions.toNat))

/-! ## Reference formulas

The quantities the operator is specified by, written as finite sums. -/

/-- The element mass integral as the specification writes it: the sum over the
quadrature points `g` of `weight_g * rho(g,e) * detJe(g,e) * N_i(xi_g) * N_j(xi_g)`. -/
def massBlockFormula (el : Element) (QuadratureOrder : Int) (rho detJe : MatrixX)
    (e i j : Nat) : Scalar :=
  let rule := el.QuadratureType QuadratureOrder
  ∑ g in Finset.range rule.kPoints,
    rule.weights g * rho.coeff g e * detJe.coeff g e *
      el.N (quadraturePoint rule g) i * el.N (quadraturePoint rule g) j

/-- The conditions under which construction goes through: `detJe` and `rho` have one
row per quadrature point of the rule and one column per element, and `dims >= 1`. -/
def constructible (el : Element) (Q : Int) (mesh : Mesh) (detJe rho : MatrixX)
    (dims : Int) : Prop :=
  (detJe.rows = (el.QuadratureType Q).kPoints ∧ detJe.cols = mesh.E.cols) ∧ 1 ≤ dims ∧
    (rho.rows = (el.QuadratureType Q).kPoints ∧ rho.cols = mesh.E.cols)

instance (el : Element) (Q : Int) (mesh : Mesh) (detJe rho : MatrixX) (dims : Int) :
    Decidable (constructible el Q mesh detJe rho dims) := by
  unfold constructible
  infer_instance

instance (el : Element) (mesh : Mesh) : Decidable (Mesh.Valid el mesh) := by
  unfold Mesh.Valid
  infer_instance

/-- The scalar mass matrix: entry `(a, b)` is the sum of `Me_e(i, j)` over the elements
`e` and local indices `i, j` with `E(i,e) = a` and `E(j,e) = b`. -/
def scalarMass (el : Element) (M : MassMatrix) (a b : Nat) : Scalar :=
  ∑ e in Finset.range M.mesh.E.cols, ∑ j in Finset.range el.kNodes,
    ∑ i in Finset.range el.kNodes,
      if M.mesh.E.coeff i e = a ∧ M.mesh.E.coeff j e = b then M.block el e i j else 0

/-- The product `A * x` of a sparse matrix with column `c` of a dense matrix, at row `r`. -/
def CSCMatrix.mulCol (A : CSCMatrix) (x : MatrixX) (c r : Nat) : Scalar :=
  ∑ s in Finset.range A.cols, A.coeff r s * x.coeff s c

/-- Sum of row `r` of a sparse matrix. -/
def CSCMatrix.rowSum (A : CSCMatrix) (r : Nat) : Scalar :=
  ∑ s in Finset.range A.cols, A.coeff r s

/-- Sum of all coefficients of a vector. -/
def VectorX.total (m : VectorX) : Scalar :=
  ∑ r in Finset.range m.size, m.coeff r

/-- The nodes of every element are pairwise distinct. -/
def Mesh.DistinctNodes (el : Element) (mesh : Mesh) : Prop :=
  ∀ e, e < mesh.E.cols → ∀ i, i < el.kNodes → ∀ j, j < el.kNodes →
    mesh.E.coeff i e = mesh.E.coeff j e → i = j

instance (el : Element) (mesh : Mesh) : Decidable (Mesh.DistinctNodes el mesh) := by
  unfold Mesh.DistinctNodes
  infer_instance

/-- The matrix that the loops of `ShapeFunctionMatrix` leave when no `insert` fails. -/
def ShapeFunctionMatrix.filled (el : Element) (QuadratureOrder : Int) (mesh : Mesh)
    (N : CSRMatrix) : CSRMatrix :=
  forEach mesh.E.cols
    (fun e N =>
      forEach (el.QuadratureType QuadratureOrder).kPoints
        (fun g N =>
          forEach el.kNodes
            (fun i N =>
              N.inserted (e * (el.QuadratureType QuadratureOrder).kPoints + g)
                (mesh.E.coeff i e) ((ShapeFunctions el QuadratureOrder).coeff i g))
            N)
        N)
    N

/-- Partition of unity at the quadrature points of the rule of order `Q`. -/
def partitionOfUnity (el : Element) (Q : Int) : Prop :=
  ∀ g, g < (el.QuadratureType Q).kPoints →
    ∑ i in Finset.range el.kNodes, el.N (quadraturePoint (el.QuadratureType Q) g) i = 1

/-! ## A concrete element and mesh

A two-node line element with the midpoint rule for orders up to one and Simpson's
rule above, and a mesh of two such elements on three nodes. -/

/-- Midpoint rule on the unit segment: one point, in barycentric form. -/
def midpointRule : QuadratureRule :=
  { kDims := 1, kPoints := 1,
    points := fun k => [1 / 2, 1 / 2].getD k 0,
    weights := fun g => [1].getD g 0 }

/-- Simpson's rule on the unit segment: three points, in barycentric form. -/
def simpsonRule : QuadratureRule :=
  { kDims := 1, kPoints := 3,
    points := fun k => [1, 0, 1 / 2, 1 / 2, 0, 1].getD k 0,
    weights := fun g => [1 / 6, 2 / 3, 1 / 6].getD g 0 }

/-- The linear line element: `N = (1 - xi, xi)`. -/
def lineElement : Element :=
  { kOrder := 1, kDims := 1, kNodes := 2,
    N := fun xi i => if i = 0 then 1 - xi 0 else if i = 1 then xi 0 else 0,
    GradN := fun _ i _ => if i = 0 then -1 else if i = 1 then 1 else 0,
    Vertices := [0, 1],
    QuadratureType := fun order => if order ≤ 1 then midpointRule else simpsonRule }

/-- Two line elements `(0, 1)` and `(1, 2)` on the nodes `0, 1, 2`. -/
def lineMesh : Mesh :=
  { X := { rows := 1, cols := 3, coeff := fun _ a => (a : Scalar) },
    E := { rows := 2, cols := 2, coeff := fun i e => i + e } }

/-- Unit Jacobian determinants for `lineMesh` and Simpson's rule. -/
def lineDetJe : MatrixX := MatrixX.Constant 3 2 1

/-- A density per quadrature point for `lineMesh` and Simpson's rule. -/
def lineRho : MatrixX := { rows := 3, cols := 2, coeff := fun g e => (g : Scalar) + 2 * e + 1 }

/-- The operator constructed on `lineMesh` with `lineDetJe`, `lineRho` and `dims = 2`. -/
def lineOperator : MassMatrix :=
  { mesh := lineMesh, detJe := lineDetJe,
    Me := MassMatrix.elementMassMatrices lineElement 2 lineRho lineDetJe 2, dims := 2 }

/-- A column vector with one coefficient per degree of freedom of `lineOperator`. -/
def lineX : MatrixX := { rows := 6, cols := 1, coeff := fun r _ => (r : Scalar) + 1 }

/-- A second column vector with one coefficient per degree of freedom. -/
def lineY : MatrixX := { rows := 6, cols := 1, coeff := fun r _ => 10 * (r : Scalar) }

/-- Jacobian determinants shaped for the midpoint rule on `lineMesh`. -/
def midpointDetJe : MatrixX := MatrixX.Constant 1 2 1

/-- A density shaped for the midpoint rule on `lineMesh`. -/
def midpointRho : MatrixX := MatrixX.Constant 1 2 1

/-- The operator constructed on `lineMesh` with quadrature order 1. -/
def midpointOperator : MassMatrix :=
  { mesh := lineMesh, detJe := midpointDetJe,
    Me := MassMatrix.elementMassMatrices lineElement 1 midpointRho midpointDetJe 2, dims := 1 }

/-- Two copies of `lineX` side by side. -/
def lineX2 : MatrixX := { rows := 6, cols := 2, coeff := fun r _ => (r : Scalar) + 1 }

/-- Two copies of `lineY` side by side. -/
def lineY2 : MatrixX := { rows := 6, cols := 2, coeff := fun r _ => 10 * (r : Scalar) }

/-- A column vector with one coefficient too few for `lineOperator`. -/
def shortX : MatrixX := { rows := 5, cols := 1, coeff := fun r _ => (r : Scalar) + 1 }


/-! ## Sequences of calls on an operator -/

/-- One call on an operator: a recomputation with a density, an `Apply` with its two
operands, a `ToMatrix` or a `ToLumpedMasses`. -/
inductive MassMatrix.Call where
  | computeElementMassMatrices (rho : MatrixX)
  | apply (x y : MatrixX)
  | toMatrix
  | toLumpedMasses

/-- The operator after one call, whether the call succeeds or fails.
`ComputeElementMassMatrices` leaves the state it returns; `Apply`, `ToMatrix` and
`ToLumpedMasses` are `const` methods and leave the operator alone. -/
def MassMatrix.afterCall (el : Element) (QuadratureOrder : Int) (M : MassMatrix) :
    MassMatrix.Call → MassMatrix
  | MassMatrix.Call.computeElementMassMatrices rho =>
    (M.ComputeElementMassMatrices el QuadratureOrder rho).2
  | MassMatrix.Call.apply _ _ => M
  | MassMatrix.Call.toMatrix => M
  | MassMatrix.Call.toLumpedMasses => M

/-- The operator after a sequence of calls, made in order. -/
def MassMatrix.afterCalls (el : Element) (QuadratureOrder : Int) (M : MassMatrix)
    (calls : List MassMatrix.Call) : MassMatrix :=
  calls.foldl (MassMatrix.afterCall el QuadratureOrder) M

/-- The invariant of the element mass block cache: `Me` has one row per element node
and one column per element node and element, and every block is symmetric. -/
def MassMatrix.MeInvariant (el : Element) (M : MassMatrix) : Prop :=
  M.Me.rows = el.kNodes ∧ M.Me.cols = el.kNodes * M.mesh.E.cols ∧
    ∀ e, e < M.mesh.E.cols → ∀ i, i < el.kNodes → ∀ j, j < el.kNodes →
      M.Me.coeff i (e * el.kNodes + j) = M.Me.coeff j (e * el.kNodes + i)

/-- A density of the wrong shape for `lineOperator`: two rows for a rule of three points. -/
def shortRho : MatrixX := MatrixX.Constant 2 2 1

/-- The state of `lineOperator` after its public member `dims` is set to `0`. -/
def zeroDimsOperator : MassMatrix := { lineOperator with dims := 0 }


/-- A sequence of calls on `lineOperator`: a failed recomputation, an `Apply`, a
successful recomputation with another density, a `ToMatrix` and a `ToLumpedMasses`. -/
def lineCalls : List MassMatrix.Call :=
  [MassMatrix.Call.computeElementMassMatrices shortRho,
    MassMatrix.Call.apply lineX lineY,
    MassMatrix.Call.computeElementMassMatrices lineDetJe,
    MassMatrix.Call.toMatrix, MassMatrix.Call.toLumpedMasses]



/-! ## The linear triangle -/

/-- A polynomial of degree at most two in the reference coordinates `(xi, eta)`:
`c00 + c10 xi + c01 eta + c20 xi^2 + c11 xi eta + c02 eta^2`. -/
structure Quadratic where
  c00 : Scalar
  c10 : Scalar
  c01 : Scalar
  c20 : Scalar
  c11 : Scalar
  c02 : Scalar

/-- Value of the polynomial at a point. -/
def Quadratic.eval (p : Quadratic) (xi eta : Scalar) : Scalar :=
  p.c00 + p.c10 * xi + p.c01 * eta + p.c20 * xi ^ 2 + p.c11 * (xi * eta) + p.c02 * eta ^ 2

/-- Integral of the polynomial over the reference triangle `0 <= xi, 0 <= eta,
xi + eta <= 1`, on which `1, xi, eta, xi^2, xi eta, eta^2` integrate to
`1/2, 1/6, 1/6, 1/12, 1/24, 1/12`. -/
def Quadratic.integral (p : Quadratic) : Scalar :=
  p.c00 / 2 + p.c10 / 6 + p.c01 / 6 + p.c20 / 12 + p.c11 / 24 + p.c02 / 12

/-- The rule integrates every polynomial of degree at most two exactly over the reference
triangle. -/
def exactToDegreeTwo (rule : QuadratureRule) : Prop :=
  ∀ p : Quadratic,
    ∑ g in Finset.range rule.kPoints,
        rule.weights g * p.eval (quadraturePoint rule g 0) (quadraturePoint rule g 1) =
      p.integral

/-- The mass matrix of the linear triangle on the reference triangle:
`(1/24) * [[2,1,1],[1,2,1],[1,1,2]]`. -/
def goldenTriangleMass (i j : Nat) : Scalar :=
  (1 / 24) * (if i = j then 2 else 1)

/-- The three-point rule of the triangle with points `(1/6, 1/6)`, `(2/3, 1/6)`,
`(1/6, 2/3)` and weights `1/6`, in barycentric form. -/
def triangleRule : QuadratureRule :=
  { kDims := 2, kPoints := 3,
    points := fun k => [2 / 3, 1 / 6, 1 / 6, 1 / 6, 2 / 3, 1 / 6, 1 / 6, 1 / 6, 2 / 3].getD k 0,
    weights := fun g => [1 / 6, 1 / 6, 1 / 6].getD g 0 }

/-- The linear 2-simplex: `N = (1 - xi - eta, xi, eta)`. -/
def triangleElement : Element :=
  { kOrder := 1, kDims := 2, kNodes := 3,
    N := fun xi i =>
      if i = 0 then 1 - xi 0 - xi 1 else if i = 1 then xi 0 else if i = 2 then xi 1 else 0,
    GradN := fun _ i k =>
      if i = 0 then -1 else if i = 1 then (if k = 0 then 1 else 0)
      else if i = 2 then (if k = 1 then 1 else 0) else 0,
    Vertices := [0, 1, 2],
    QuadratureType := fun _ => triangleRule }

/-- The reference triangle as a mesh of one element. -/
def triangleMesh : Mesh :=
  { X := { rows := 2, cols := 3,
           coeff := fun k a => if (k = 0 ∧ a = 1) ∨ (k = 1 ∧ a = 2) then 1 else 0 },
    E := { rows := 3, cols := 1, coeff := fun i _ => i } }


/-- The vertices `(0,0)`, `(2,0)`, `(0,3)` of a triangle, one per column. -/
def triangleVertices : Matrix (Fin 2) (Fin triangleElement.kNodes) Scalar :=
  fun k a => if k.val = 0 ∧ a.val = 1 then 2 else if k.val = 1 ∧ a.val = 2 then 3 else 0

/-- The inverse of the Jacobian of the triangle with vertices `triangleVertices`. -/
def triangleJacobianInverse : Matrix (Fin triangleElement.kDims) (Fin 2) Scalar :=
  fun a b => if a.val = 0 ∧ b.val = 0 then 1 / 2 else if a.val = 1 ∧ b.val = 1 then 1 / 3 else 0

/-- The vertices `(0,0)`, `(3,4)` of a segment in the plane, one per column. -/
def segmentVertices : Matrix (Fin 2) (Fin lineElement.kNodes) Scalar :=
  fun k a => if a.val = 1 then (if k.val = 0 then 3 else 4) else 0


/-- The operator constructed on `lineMesh` with `lineDetJe`, uniform density 1 and
`dims = 1`. -/
def unitLineOperator : MassMatrix :=
  { mesh := lineMesh, detJe := lineDetJe,
    Me := MassMatrix.elementMassMatrices lineElement 2 (MatrixX.Constant 3 2 1) lineDetJe 2,
    dims := 1 }


/-- The quadratic form `x^T * A * x` of a sparse matrix. -/
def CSCMatrix.quadraticForm (A : CSCMatrix) (x : VectorX) : Scalar :=
  ∑ r in Finset.range A.rows, ∑ s in Finset.range A.cols, x.coeff r * A.coeff r s * x.coeff s

/-- A vector with one coefficient per degree of freedom of `lineOperator`. -/
def lineVector : VectorX := { size := 6, coeff := fun r => (r : Scalar) - 2 }


/-- The diagonal matrix `W` of the quadrature weights: the entry at row and column
`e * #quadpoints + g` is `weight_g * rho(g,e) * detJe(g,e)`, the entries off the diagonal
are zero. -/
def quadratureWeightMatrix (el : Element) (QuadratureOrder : Int) (rho detJe : MatrixX)
    (r r' : Nat) : Scalar :=
  let kPoints := (el.QuadratureType QuadratureOrder).kPoints
  if r = r' then
    (el.QuadratureType QuadratureOrder).weights (r % kPoints) *
      rho.coeff (r % kPoints) (r / kPoints) * detJe.coeff (r % kPoints) (r / kPoints)
  else 0

/-- Entry `(a, b)` of the product `N^T * W * N`. -/
def CSRMatrix.transposeMulMul (N : CSRMatrix) (W : Nat → Nat → Scalar) (a b : Nat) : Scalar :=
  ∑ r in Finset.range N.rows, ∑ r' in Finset.range N.rows,
    N.coeff r a * W r r' * N.coeff r' b


/-- The operator constructed on `lineMesh` with `lineDetJe`, `lineRho` and `dims = 1`. -/
def scalarLineOperator : MassMatrix :=
  { mesh := lineMesh, detJe := lineDetJe,
    Me := MassMatrix.elementMassMatrices lineElement 2 lineRho lineDetJe 2, dims := 1 }

/-- Block assignment `m.block<nr, nc>(r0, c0) = B`. -/
def MatrixX.setBlock (m : MatrixX) (r0 c0 nr nc : Nat) (B : Nat → Nat → Scalar) : MatrixX :=
  { m with
    coeff := fun r c =>
      if r0 ≤ r ∧ r < r0 + nr ∧ c0 ≤ c ∧ c < c0 + nc then B (r - r0) (c - c0)
      else m.coeff r c }

/-- The coefficients of a fixed-size matrix at run-time indices. -/
def fixedCoeff {r c : Nat} (A : Matrix (Fin r) (Fin c) Scalar) : Nat → Nat → Scalar :=
  fun i j => if h : i < r ∧ j < c then A ⟨i, h.1⟩ ⟨j, h.2⟩ else 0

/-- Column `g` of `Xg` in `ShapeFunctionGradients<QuadratureOrder>(mesh)`: the rule's
points reshaped to `(QuadratureRuleType::kDims + 1) x kPoints`, bottom
`ElementType::kDims` rows. -/
def ShapeFunctionGradientsMesh.Xg (el : Element) (rule : QuadratureRule) (g : Nat) :
    Nat → Scalar :=
  fun k => rule.points (reshapedAt (rule.kDims + 1) (rule.kDims + 1 - el.kDims + k) g)

/-- The matrix `Ve = mesh.X(all, vertices)` with `vertices = nodes(ElementType::Vertices)`
and `nodes = mesh.E.col(e)`, of fixed size `MeshType::kDims x AffineElementType::kNodes`. -/
def ShapeFunctionGradientsMesh.Ve (el affine : Element) (meshDims : Nat) (mesh : Mesh)
    (e : Nat) : Matrix (Fin meshDims) (Fin affine.kNodes) Scalar :=
  fun k a => mesh.X.coeff k (mesh.E.coeff (el.Vertices.getD a 0) e)

/-- Effect of the loop over the quadrature points of element `e` in
`ShapeFunctionGradients<QuadratureOrder>(mesh)` on `GNe`. -/
def ShapeFunctionGradientsMesh.element (el affine : Element) (meshDims : Nat)
    (QuadratureOrder : Int) (mesh : Mesh) (e : Nat) (GNe : MatrixX) : MatrixX :=
  let rule := el.QuadratureType QuadratureOrder
  let kNodesPerElement := el.kNodes
  let Ve := ShapeFunctionGradientsMesh.Ve el affine meshDims mesh e
  forEach rule.kPoints
    (fun g GNe =>
      let GP := ShapeFunctionGradients el affine meshDims
        (ShapeFunctionGradientsMesh.Xg el rule g) Ve
      let kStride := meshDims * rule.kPoints
      GNe.setBlock 0 (e * kStride + g * meshDims) kNodesPerElement meshDims (fixedCoeff GP))
    GNe

/-- Shape function gradients at the quadrature points of every element,
`ShapeFunctionGradients<QuadratureOrder>(mesh)`. `affine` is
`ElementType::AffineBaseType`, `meshDims` is `MeshType::kDims`, and `fresh` holds the
unspecified coefficients of the newly allocated `MatrixX GNe(rows, cols)`. Eigen asserts
that `bottomRows<ElementType::kDims>` fits in the reshaped points and, for every element,
that the run-time row count of `mesh.X` is the fixed row count `MeshType::kDims` of `Ve`.
The destination blocks lie inside `GNe` for every `e` and `g` of the loops. -/
def ShapeFunctionGradientsMesh (el affine : Element) (meshDims : Nat) (QuadratureOrder : Int)
    (mesh : Mesh) (fresh : Nat → Nat → Scalar) : Except Failure MatrixX :=
  let rule := el.QuadratureType QuadratureOrder
  let numberOfElements := mesh.E.cols
  let kNodesPerElement := el.kNodes
  if ¬ el.kDims ≤ rule.kDims + 1 then Except.error Failure.assertion
  else
    let GNe : MatrixX :=
      { rows := kNodesPerElement, cols := numberOfElements * meshDims * rule.kPoints,
        coeff := fresh }
    match forLoop numberOfElements
        (fun e GNe =>
          if mesh.X.rows ≠ meshDims then (Except.error Failure.assertion, GNe)
          else
            (Except.ok (),
              ShapeFunctionGradientsMesh.element el affine meshDims QuadratureOrder mesh e GNe))
        GNe with
    | (Except.ok _, GNe) => Except.ok GNe
    | (Except.error f, _) => Except.error f

/-- Effect of one iteration of the loop over the points in
`ShapeFunctionMatrix(mesh, eg, Xg, bXgInReferenceSpace)` on the matrix `N`; `X` holds the
reference positions that the iteration reads, `Xg` or `Xi`. Eigen asserts that `eg(g)`,
`mesh.E.col(e)`, `X.col(g)` and `nodes(i)` are inside their shapes, and `insert` asserts
as in `CSRMatrix.insert`. -/
def ShapeFunctionMatrixAt.point (el : Element) (mesh : Mesh) (eg : IndexVectorX) (X : MatrixX)
    (g : Nat) (N : CSRMatrix) : Except Failure Unit × CSRMatrix :=
  if ¬ g < eg.size then (Except.error Failure.assertion, N)
  else
    let e := eg.coeff g
    if ¬ e < mesh.E.cols then (Except.error Failure.assertion, N)
    else
      let nodes := fun i => mesh.E.coeff i e
      if ¬ g < X.cols then (Except.error Failure.assertion, N)
      else
        let Ng := el.N (X.col g)
        forLoop el.kNodes
          (fun i N =>
            if ¬ i < mesh.E.rows then (Except.error Failure.assertion, N)
            else N.insert g (nodes i) (Ng i))
          N

/-- The shape function matrix at given points of a mesh,
`ShapeFunctionMatrix(mesh, eg, Xg, bXgInReferenceSpace)`. The solver `ReferencePositions`
of `Jacobian.h` is a parameter; `MatrixX Xi{}` is the empty matrix. -/
def ShapeFunctionMatrixAt (el : Element)
    (ReferencePositions : Mesh → IndexVectorX → MatrixX → MatrixX)
    (mesh : Mesh) (eg : IndexVectorX) (Xg : MatrixX) (bXgInReferenceSpace : Bool) :
    Except Failure CSRMatrix :=
  let Xi := if ¬ bXgInReferenceSpace then ReferencePositions mesh eg Xg else MatrixX.Zero 0 0
  let numberOfNodes := mesh.X.cols
  let numberOfQuadPoints := Xg.cols
  let m := numberOfQuadPoints
  let n := numberOfNodes
  match forLoop numberOfQuadPoints
      (fun g N =>
        ShapeFunctionMatrixAt.point el mesh eg (if bXgInReferenceSpace then Xg else Xi) g N)
      (CSRMatrix.Zero m n) with
  | (Except.ok _, N) => Except.ok N
  | (Except.error f, _) => Except.error f

/-- Point `g` has an element, and the element lists pairwise distinct valid nodes: `eg(g)`
exists and is a column of `E`, and the `kNodes` entries of that column exist, are columns
of `X` and are pairwise distinct. -/
def ShapeFunctionMatrixAt.goodPoint (el : Element) (mesh : Mesh) (eg : IndexVectorX)
    (g : Nat) : Prop :=
  g < eg.size ∧ eg.coeff g < mesh.E.cols ∧
    (∀ i, i < el.kNodes → i < mesh.E.rows ∧ mesh.E.coeff i (eg.coeff g) < mesh.X.cols) ∧
    ∀ i, i < el.kNodes → ∀ j, j < el.kNodes →
      mesh.E.coeff i (eg.coeff g) = mesh.E.coeff j (eg.coeff g) → i = j

instance (el : Element) (mesh : Mesh) (eg : IndexVectorX) (g : Nat) :
    Decidable (ShapeFunctionMatrixAt.goodPoint el mesh eg g) := by
  unfold ShapeFunctionMatrixAt.goodPoint
  infer_instance

/-- Row `g` of `N` is column `g` of the shape functions at the points `X`, scattered to
the nodes of the element `eg(g)`. -/
def ShapeFunctionMatrixAt.rowScattered (el : Element) (mesh : Mesh) (eg : IndexVectorX)
    (X : MatrixX) (g : Nat) (N : CSRMatrix) : Prop :=
  (∀ i, i < el.kNodes → N.coeff g (mesh.E.coeff i (eg.coeff g)) = el.N (X.col g) i) ∧
    ∀ c, (∀ i, i < el.kNodes → mesh.E.coeff i (eg.coeff g) ≠ c) → N.coeff g c = 0

/-- What holds of `N` when the nodes below `i` of element `e` have been inserted in row
`g` of `N0` with the values `Ng`. -/
def ShapeFunctionMatrixAt.nodesInserted (mesh : Mesh) (e g : Nat) (Ng : Nat → Scalar)
    (N0 : CSRMatrix) (i : Nat) (N : CSRMatrix) : Prop :=
  N.rows = N0.rows ∧ N.cols = N0.cols ∧
    (∀ r c, r ≠ g → N.coeff r c = N0.coeff r c ∧ N.stored r c = N0.stored r c) ∧
    (∀ j, j < i → j < mesh.E.rows ∧ mesh.E.coeff j e < N0.cols ∧
      N.stored g (mesh.E.coeff j e) = true ∧ N.coeff g (mesh.E.coeff j e) = Ng j) ∧
    (∀ j, j < i → ∀ k, k < i → mesh.E.coeff j e = mesh.E.coeff k e → j = k) ∧
    ∀ c, (∀ j, j < i → mesh.E.coeff j e ≠ c) →
      N.coeff g c = N0.coeff g c ∧ N.stored g c = N0.stored g c

/-- What holds of `N` when the points below `g` have been handled: the rows from `g` on
are empty, and the points below `g` are good and their rows are scattered shape
functions. -/
def ShapeFunctionMatrixAt.pointsInserted (el : Element) (mesh : Mesh) (eg : IndexVectorX)
    (X : MatrixX) (g : Nat) (N : CSRMatrix) : Prop :=
  N.rows = X.cols ∧ N.cols = mesh.X.cols ∧
    (∀ r c, g ≤ r → N.coeff r c = 0 ∧ N.stored r c = false) ∧
    ∀ r, r < g → ShapeFunctionMatrixAt.goodPoint el mesh eg r ∧
      ShapeFunctionMatrixAt.rowScattered el mesh eg X r N

/-- Element ids of three points of `lineMesh`. -/
def linePointElements : IndexVectorX :=
  { size := 3, coeff := fun g => if g = 0 then 0 else 1 }

/-- Reference positions `1/4`, `1/2`, `3/4` of three points of `lineMesh`. -/
def linePointPositions : MatrixX :=
  { rows := 1, cols := 3, coeff := fun _ g => ((g : Scalar) + 1) / 4 }

/-! ## Loops -/

/-- A loop whose iterations each add an amount to an observed quantity adds the sum of
the amounts. -/
theorem forEach_additive {σ : Type} (π : σ → Scalar) (body : Nat → σ → σ)
    (δ : Nat → Scalar) (h : ∀ i s, π (body i s) = π s + δ i) (n : Nat) (s : σ) :
    π (forEach n body s) = π s + ∑ i in Finset.range n, δ i := by
  induction n with
  | zero => simp [forEach]
  | succ n ih => rw [forEach, h, ih, Finset.sum_range_succ, add_assoc]

/-- A quantity that no iteration changes is not changed by the loop. -/
theorem forEach_unchanged {σ α : Type} (π : σ → α) (body : Nat → σ → σ)
    (h : ∀ i s, π (body i s) = π s) (n : Nat) (s : σ) :
    π (forEach n body s) = π s := by
  induction n with
  | zero => rfl
  | succ n ih => rw [forEach, h, ih]

/-- A failing loop whose body succeeds on every state of an invariant is the plain loop. -/
theorem forLoop_ok {σ : Type} (P : σ → Prop) (body : Nat → σ → Except Failure Unit × σ)
    (g : Nat → σ → σ) (h : ∀ i s, P s → body i s = (Except.ok (), g i s) ∧ P (g i s))
    (n : Nat) (s : σ) (hs : P s) :
    forLoop n body s = (Except.ok (), forEach n g s) ∧ P (forEach n g s) := by
  induction n with
  | zero => exact ⟨rfl, hs⟩
  | succ n ih =>
    obtain ⟨h1, h2⟩ := ih
    have h3 := h n _ h2
    refine ⟨?_, h3.2⟩
    rw [forLoop, h1]
    exact h3.1

/-- A failing loop whose body fails at once and leaves the state alone: the loop
fails, unless it has no iteration, and leaves the state alone. -/
theorem forLoop_stuck {σ : Type} (body : Nat → σ → Except Failure Unit × σ) (f : Failure)
    (s : σ) (h : ∀ i, body i s = (Except.error f, s)) (n : Nat) :
    forLoop n body s = (if n = 0 then Except.ok () else Except.error f, s) := by
  induction n with
  | zero => rfl
  | succ n ih =>
    rw [forLoop, ih]
    by_cases hn : n = 0
    · simp [hn, h]
    · simp [hn]

/-- A failing loop fails only in the ways its body fails. -/
theorem forLoop_failure {σ : Type} (body : Nat → σ → Except Failure Unit × σ)
    (Pf : Failure → Prop) (h : ∀ i s f, (body i s).1 = Except.error f → Pf f)
    (n : Nat) (s : σ) (f : Failure) (hf : (forLoop n body s).1 = Except.error f) : Pf f := by
  induction n with
  | zero => cases hf
  | succ n ih =>
    rw [forLoop] at hf
    rcases hr : forLoop n body s with ⟨r, s'⟩
    rw [hr] at hf ih
    cases r with
    | ok u => exact h n s' f hf
    | error f' => exact ih hf

/-- A failing loop whose body never touches the state leaves it alone. -/
theorem forLoop_state {σ : Type} (body : Nat → σ → Except Failure Unit × σ)
    (s : σ) (h : ∀ i, (body i s).2 = s) (n : Nat) :
    (forLoop n body s).2 = s := by
  induction n with
  | zero => rfl
  | succ n ih =>
    rw [forLoop]
    rcases hr : forLoop n body s with ⟨r, s'⟩
    rw [hr] at ih
    simp only at ih
    subst ih
    cases r with
    | ok u => exact h n
    | error f => rfl

/-! ## Shape functions at the quadrature points -/

/-- The column loop of `ShapeFunctions` after `n` iterations: the columns below `n` are set. -/
theorem ShapeFunctions_loop (el : Element) (rule : QuadratureRule) (Z : MatrixX) (i g n : Nat) :
    (forEach n (fun g Ng => Ng.setCol g (el.N (quadraturePoint rule g))) Z).coeff i g =
      if g < n then el.N (quadraturePoint rule g) i else Z.coeff i g := by
  induction n with
  | zero => simp [forEach]
  | succ n ih =>
    rw [forEach]
    simp only [MatrixX.setCol] at ih ⊢
    by_cases h : g = n
    · subst h; simp
    · rw [if_neg h, ih]
      by_cases h2 : g < n
      · rw [if_pos h2, if_pos (Nat.lt_succ_of_lt h2)]
      · rw [if_neg h2, if_neg (by omega)]

/-- Column `g` of `ShapeFunctions` holds the basis values at quadrature point `g`. -/
theorem ShapeFunctions_coeff (el : Element) (Q : Int) (i g : Nat)
    (hg : g < (el.QuadratureType Q).kPoints) :
    (ShapeFunctions el Q).coeff i g = el.N (quadraturePoint (el.QuadratureType Q) g) i := by
  unfold ShapeFunctions
  simp only []
  rw [ShapeFunctions_loop, if_pos hg]

/-! ## Element mass matrices -/

/-- The two loops of `ComputeElementMassMatrices`, coefficient by coefficient. -/
theorem blockLoops_coeff (n nE kP : Nat) (B : Nat → Nat → Nat → Nat → Scalar)
    (Z : MatrixX) (r c : Nat) :
    (forEach nE (fun e Me => forEach kP (fun g Me => Me.blockAdd 0 (e * n) n n (B g e)) Me)
        Z).coeff r c =
      Z.coeff r c + ∑ e in Finset.range nE, ∑ g in Finset.range kP,
        if r < n ∧ e * n ≤ c ∧ c < e * n + n then B g e r (c - e * n) else 0 := by
  refine forEach_additive (fun m : MatrixX => m.coeff r c) _ _ ?_ nE Z
  intro e s
  refine forEach_additive (fun m : MatrixX => m.coeff r c) _ _ ?_ kP s
  intro g s
  simp only [MatrixX.blockAdd, Nat.zero_le, true_and, Nat.zero_add, Nat.sub_zero]
  split_ifs <;> simp

/-- Only element `e` writes the columns `e*n .. e*n + n - 1`. -/
theorem blockLoops_block (n nE kP : Nat) (B : Nat → Nat → Nat → Nat → Scalar)
    (Z : MatrixX) (e i j : Nat) (he : e < nE) (hi : i < n) (hj : j < n) :
    (forEach nE (fun e Me => forEach kP (fun g Me => Me.blockAdd 0 (e * n) n n (B g e)) Me)
        Z).coeff i (e * n + j) =
      Z.coeff i (e * n + j) + ∑ g in Finset.range kP, B g e i j := by
  rw [blockLoops_coeff]
  congr 1
  rw [Finset.sum_eq_single e]
  · refine Finset.sum_congr rfl (fun g _ => ?_)
    rw [if_pos ⟨hi, Nat.le_add_right _ _, by omega⟩]
    simp
  · intro e' _ hne
    refine Finset.sum_eq_zero (fun g _ => ?_)
    rw [if_neg]
    rintro ⟨_, h1, h2⟩
    rcases Nat.lt_or_gt_of_ne hne with h | h
    · have := Nat.mul_le_mul_right n (Nat.succ_le_of_lt h)
      rw [Nat.succ_mul] at this
      omega
    · have := Nat.mul_le_mul_right n (Nat.succ_le_of_lt h)
      rw [Nat.succ_mul] at this
      omega
  · intro h
    exact absurd (Finset.mem_range.mpr he) h

/-- Shape of the assembled element mass matrices. -/
theorem elementMassMatrices_shape (el : Element) (Q : Int) (rho detJe : MatrixX) (nE : Nat) :
    (MassMatrix.elementMassMatrices el Q rho detJe nE).rows = el.kNodes ∧
      (MassMatrix.elementMassMatrices el Q rho detJe nE).cols = el.kNodes * nE := by
  unfold MassMatrix.elementMassMatrices
  constructor
  · rw [forEach_unchanged MatrixX.rows]
    · rfl
    · intro e s
      refine forEach_unchanged MatrixX.rows _ ?_ _ _
      intro g s
      rfl
  · rw [forEach_unchanged MatrixX.cols]
    · rfl
    · intro e s
      refine forEach_unchanged MatrixX.cols _ ?_ _ _
      intro g s
      rfl

/-- The block of element `e` of the assembled matrix holds the element mass integrals. -/
theorem elementMassMatrices_block (el : Element) (Q : Int) (rho detJe : MatrixX) (nE : Nat)
    (e i j : Nat) (he : e < nE) (hi : i < el.kNodes) (hj : j < el.kNodes) :
    (MassMatrix.elementMassMatrices el Q rho detJe nE).coeff i (e * el.kNodes + j) =
      massBlockFormula el Q rho detJe e i j := by
  unfold MassMatrix.elementMassMatrices
  simp only []
  rw [blockLoops_block el.kNodes nE _
    (fun g e i j => (rho.coeff g e * detJe.coeff g e) * NgOuterNg el Q g i j) _ e i j he hi hj]
  simp only [MatrixX.Zero, zero_add, massBlockFormula]
  refine Finset.sum_congr rfl (fun g hg => ?_)
  have hg' := Finset.mem_range.mp hg
  simp only [NgOuterNg]
  rw [ShapeFunctions_coeff el Q i g hg', ShapeFunctions_coeff el Q j g hg']
  ring

/-- Every block of the assembled matrix is symmetric. -/
theorem massBlockFormula_symm (el : Element) (Q : Int) (rho detJe : MatrixX) (e i j : Nat) :
    massBlockFormula el Q rho detJe e i j = massBlockFormula el Q rho detJe e j i := by
  unfold massBlockFormula
  exact Finset.sum_congr rfl (fun g _ => by ring)

/-! ## State check and construction -/

/-- The state check passes exactly when `detJe` has the shape of the rule and the mesh and
`dims >= 1`. -/
theorem CheckValidState_ok_iff (el : Element) (Q : Int) (M : MassMatrix) :
    M.CheckValidState el Q = Except.ok () ↔
      (M.detJe.rows = (el.QuadratureType Q).kPoints ∧ M.detJe.cols = M.mesh.E.cols) ∧
        1 ≤ M.dims := by
  unfold MassMatrix.CheckValidState
  simp only []
  by_cases h1 : M.detJe.rows = (el.QuadratureType Q).kPoints ∧ M.detJe.cols = M.mesh.E.cols
  · by_cases h2 : M.dims < 1
    · simp [h1, h2]
    · simp [h1, h2]
      omega
  · simp [h1]

/-- The state check either passes or throws `std::invalid_argument`. -/
theorem CheckValidState_cases (el : Element) (Q : Int) (M : MassMatrix) :
    M.CheckValidState el Q = Except.ok () ∨
      M.CheckValidState el Q = Except.error Failure.invalidArgument := by
  unfold MassMatrix.CheckValidState
  simp only []
  split_ifs <;> simp

/-- What `ComputeElementMassMatrices` does, by cases on its two checks. -/
theorem ComputeElementMassMatrices_eq (el : Element) (Q : Int) (rho : MatrixX)
    (M : MassMatrix) :
    M.ComputeElementMassMatrices el Q rho =
      if ((M.detJe.rows = (el.QuadratureType Q).kPoints ∧ M.detJe.cols = M.mesh.E.cols) ∧
            1 ≤ M.dims) ∧
          (rho.cols = M.mesh.E.cols ∧ rho.rows = (el.QuadratureType Q).kPoints) then
        (Except.ok (),
          { M with Me := MassMatrix.elementMassMatrices el Q rho M.detJe M.mesh.E.cols })
      else (Except.error Failure.invalidArgument, M) := by
  unfold MassMatrix.ComputeElementMassMatrices
  rcases CheckValidState_cases el Q M with h | h
  · have h1 := (CheckValidState_ok_iff el Q M).mp h
    by_cases h2 : rho.cols = M.mesh.E.cols ∧ rho.rows = (el.QuadratureType Q).kPoints
    · simp [h, h1, h2]
    · simp [h, h1, h2]
  · have h1 : ¬ ((M.detJe.rows = (el.QuadratureType Q).kPoints ∧
        M.detJe.cols = M.mesh.E.cols) ∧ 1 ≤ M.dims) := by
      intro h1
      rw [(CheckValidState_ok_iff el Q M).mpr h1] at h
      cases h
    simp [h, h1]

/-- What the constructor does, by cases on its checks. -/
theorem construct_eq (el : Element) (Q : Int) (mesh : Mesh) (detJe rho : MatrixX)
    (dims : Int) :
    MassMatrix.construct el Q mesh detJe rho dims =
      if constructible el Q mesh detJe rho dims then
        Except.ok
          { mesh := mesh, detJe := detJe,
            Me := MassMatrix.elementMassMatrices el Q rho detJe mesh.E.cols, dims := dims }
      else Except.error Failure.invalidArgument := by
  unfold MassMatrix.construct
  rw [ComputeElementMassMatrices_eq]
  simp only []
  by_cases h : ((detJe.rows = (el.QuadratureType Q).kPoints ∧ detJe.cols = mesh.E.cols) ∧
      1 ≤ dims) ∧ (rho.cols = mesh.E.cols ∧ rho.rows = (el.QuadratureType Q).kPoints)
  · rw [if_pos h, if_pos (show constructible el Q mesh detJe rho dims from
      ⟨h.1.1, h.1.2, h.2.2, h.2.1⟩)]
  · rw [if_neg h, if_neg (fun h' : constructible el Q mesh detJe rho dims =>
      h ⟨⟨h'.1, h'.2.1⟩, h'.2.2.2, h'.2.2.1⟩)]

/-- A constructed operator is the given data with the assembled element matrices. -/
theorem construct_ok (el : Element) (Q : Int) (mesh : Mesh) (detJe rho : MatrixX)
    (dims : Int) (M : MassMatrix)
    (h : MassMatrix.construct el Q mesh detJe rho dims = Except.ok M) :
    constructible el Q mesh detJe rho dims ∧
      M = { mesh := mesh, detJe := detJe,
            Me := MassMatrix.elementMassMatrices el Q rho detJe mesh.E.cols, dims := dims } := by
  rw [construct_eq] at h
  by_cases hc : constructible el Q mesh detJe rho dims
  · rw [if_pos hc] at h
    exact ⟨hc, (Except.ok.inj h).symm⟩
  · rw [if_neg hc] at h
    cases h

/-- A constructed operator passes the state check. -/
theorem construct_valid (el : Element) (Q : Int) (mesh : Mesh) (detJe rho : MatrixX)
    (dims : Int) (M : MassMatrix)
    (h : MassMatrix.construct el Q mesh detJe rho dims = Except.ok M) :
    M.CheckValidState el Q = Except.ok () := by
  obtain ⟨hc, rfl⟩ := construct_ok el Q mesh detJe rho dims M h
  exact (CheckValidState_ok_iff el Q _).mpr ⟨hc.1, hc.2.1⟩

/-- The blocks of a constructed operator are the element mass integrals. -/
theorem construct_block (el : Element) (Q : Int) (mesh : Mesh) (detJe rho : MatrixX)
    (dims : Int) (M : MassMatrix)
    (h : MassMatrix.construct el Q mesh detJe rho dims = Except.ok M)
    (e i j : Nat) (he : e < mesh.E.cols) (hi : i < el.kNodes) (hj : j < el.kNodes) :
    M.block el e i j = massBlockFormula el Q rho detJe e i j := by
  obtain ⟨_, rfl⟩ := construct_ok el Q mesh detJe rho dims M h
  exact elementMassMatrices_block el Q rho detJe mesh.E.cols e i j he hi hj

/-- The blocks of a constructed operator are symmetric. -/
theorem construct_block_symm (el : Element) (Q : Int) (mesh : Mesh) (detJe rho : MatrixX)
    (dims : Int) (M : MassMatrix)
    (h : MassMatrix.construct el Q mesh detJe rho dims = Except.ok M)
    (e i j : Nat) (he : e < mesh.E.cols) (hi : i < el.kNodes) (hj : j < el.kNodes) :
    M.block el e i j = M.block el e j i := by
  rw [construct_block el Q mesh detJe rho dims M h e i j he hi hj,
    construct_block el Q mesh detJe rho dims M h e j i he hj hi]
  exact massBlockFormula_symm el Q rho detJe e i j

/-! ## The loops of `ToMatrix`, `ToLumpedMasses` and `Apply` as sums -/

/-- Pushing a triplet adds its value at its position. -/
theorem tripletSum_append_single (r c : Nat) (ts : List Triplet) (t : Triplet) :
    tripletSum r c (ts ++ [t]) =
      tripletSum r c ts + if t.row = r ∧ t.col = c then t.value else 0 := by
  unfold tripletSum
  rw [List.filter_append, List.map_append, List.sum_append]
  congr 1
  by_cases h : t.row = r ∧ t.col = c
  · simp [List.filter, h]
  · simp [List.filter, h]

/-- Coefficient `(r, s)` of the triplet list of `ToMatrix`. -/
theorem triplets_sum (el : Element) (M : MassMatrix) (r s : Nat) :
    tripletSum r s (M.triplets el) =
      ∑ e in Finset.range M.mesh.E.cols, ∑ j in Finset.range el.kNodes,
        ∑ i in Finset.range el.kNodes, ∑ d in Finset.range M.dims.toNat,
          if M.dims.toNat * M.mesh.E.coeff i e + d = r ∧
              M.dims.toNat * M.mesh.E.coeff j e + d = s then M.block el e i j else 0 := by
  unfold MassMatrix.triplets
  simp only []
  rw [forEach_additive (tripletSum r s) _
    (fun e => ∑ j in Finset.range el.kNodes,
        ∑ i in Finset.range el.kNodes, ∑ d in Finset.range M.dims.toNat,
          if M.dims.toNat * M.mesh.E.coeff i e + d = r ∧
              M.dims.toNat * M.mesh.E.coeff j e + d = s then M.block el e i j else 0)]
  · simp [tripletSum]
  intro e ts
  refine forEach_additive (tripletSum r s) _ _ ?_ _ ts
  intro j ts
  refine forEach_additive (tripletSum r s) _ _ ?_ _ ts
  intro i ts
  refine forEach_additive (tripletSum r s) _ _ ?_ _ ts
  intro d ts
  rw [tripletSum_append_single]

/-- Coefficient `r` of the vector built by the loops of `ToLumpedMasses`. -/
theorem lumpedLoops_coeff (el : Element) (M : MassMatrix) (m0 : VectorX) (r : Nat) :
    (forEach M.mesh.E.cols
        (fun e m =>
          forEach el.kNodes
            (fun j m =>
              forEach el.kNodes
                (fun i m =>
                  forEach M.dims.toNat
                    (fun d m =>
                      m.addCoeff (M.dims.toNat * M.mesh.E.coeff i e + d) (M.block el e i j))
                    m)
                m)
            m)
        m0).coeff r =
      m0.coeff r + ∑ e in Finset.range M.mesh.E.cols, ∑ j in Finset.range el.kNodes,
        ∑ i in Finset.range el.kNodes, ∑ d in Finset.range M.dims.toNat,
          if M.dims.toNat * M.mesh.E.coeff i e + d = r then M.block el e i j else 0 := by
  refine forEach_additive (fun m : VectorX => m.coeff r) _ _ ?_ _ m0
  intro e m
  refine forEach_additive (fun m : VectorX => m.coeff r) _ _ ?_ _ m
  intro j m
  refine forEach_additive (fun m : VectorX => m.coeff r) _ _ ?_ _ m
  intro i m
  refine forEach_additive (fun m : VectorX => m.coeff r) _ _ ?_ _ m
  intro d m
  simp only [VectorX.addCoeff]
  by_cases h : r = M.dims.toNat * M.mesh.E.coeff i e + d
  · rw [if_pos h, if_pos h.symm]
  · rw [if_neg h, if_neg (fun h' => h h'.symm), add_zero]

/-! ## Sums -/

/-- Exchanging the two indices of a double sum over a square. -/
theorem sum_swap_congr (n : Nat) (f g : Nat → Nat → Scalar)
    (h : ∀ j, j < n → ∀ i, i < n → f j i = g i j) :
    ∑ j in Finset.range n, ∑ i in Finset.range n, f j i =
      ∑ j in Finset.range n, ∑ i in Finset.range n, g j i := by
  rw [Finset.sum_comm]
  refine Finset.sum_congr rfl (fun i hi => Finset.sum_congr rfl (fun j hj => ?_))
  exact h j (Finset.mem_range.mp hj) i (Finset.mem_range.mp hi)

/-- A sum over a range that selects one index of the range. -/
theorem sum_range_select (N a : Nat) (ha : a < N) (P : Prop) [Decidable P] (v : Scalar)
    (f : Nat → Scalar) :
    ∑ s in Finset.range N, (if P ∧ a = s then v else 0) * f s = if P then v * f a else 0 := by
  rw [Finset.sum_eq_single a]
  · by_cases hP : P
    · simp [hP]
    · simp [hP]
  · intro s _ hne
    rw [if_neg (fun h => hne h.2.symm), zero_mul]
  · intro h
    exact absurd (Finset.mem_range.mpr ha) h

/-- For `dims >= 0` the size `dims * n` is the natural number `dims.toNat * n`. -/
theorem toNat_mul_natCast (dims : Int) (n : Nat) (h : 0 ≤ dims) :
    (dims * (n : Int)).toNat = dims.toNat * n := by
  obtain ⟨k, rfl⟩ := Int.eq_ofNat_of_zero_le h
  have h1 : ((k : Int) * (n : Int)) = ((k * n : Nat) : Int) := by push_cast; rfl
  rw [h1, Int.toNat_natCast, Int.toNat_natCast]

/-- The position `dims * node + d` of a component of a valid node is a degree of freedom. -/
theorem dof_lt (D nn a d : Nat) (ha : a < nn) (hd : d < D) : D * a + d < D * nn := by
  have h1 : D * (a + 1) ≤ D * nn := Nat.mul_le_mul_left D ha
  rw [Nat.mul_add, Nat.mul_one] at h1
  omega

/-- A degree of freedom determines its node and its component. -/
theorem dof_inj (D a b c d : Nat) (hc : c < D) (hd : d < D) :
    D * a + c = D * b + d ↔ a = b ∧ c = d := by
  constructor
  · intro h
    have h1 : (D * a + c) / D = (D * b + d) / D := by rw [h]
    have h2 : (D * a + c) % D = (D * b + d) % D := by rw [h]
    rw [Nat.mul_add_div (by omega), Nat.mul_add_div (by omega), Nat.div_eq_of_lt hc,
      Nat.div_eq_of_lt hd] at h1
    rw [Nat.mul_add_mod, Nat.mul_add_mod, Nat.mod_eq_of_lt hc, Nat.mod_eq_of_lt hd] at h2
    exact ⟨by omega, h2⟩
  · rintro ⟨rfl, rfl⟩
    rfl

/-- Moving an outer sum inside four nested sums. -/
theorem sum_comm_four (N n1 n2 n3 n4 : Nat) (F : Nat → Nat → Nat → Nat → Nat → Scalar) :
    ∑ s in Finset.range N, ∑ e in Finset.range n1, ∑ j in Finset.range n2,
        ∑ i in Finset.range n3, ∑ d in Finset.range n4, F s e j i d =
      ∑ e in Finset.range n1, ∑ j in Finset.range n2, ∑ i in Finset.range n3,
        ∑ d in Finset.range n4, ∑ s in Finset.range N, F s e j i d := by
  refine Finset.sum_comm.trans (Finset.sum_congr rfl (fun e _ => ?_))
  refine Finset.sum_comm.trans (Finset.sum_congr rfl (fun j _ => ?_))
  refine Finset.sum_comm.trans (Finset.sum_congr rfl (fun i _ => ?_))
  exact Finset.sum_comm

/-- A sum over a range that selects one index of the range, without a factor. -/
theorem sum_range_pick (N a : Nat) (ha : a < N) (P : Prop) [Decidable P] (v : Scalar) :
    ∑ s in Finset.range N, (if P ∧ a = s then v else 0) = if P then v else 0 := by
  have h := sum_range_select N a ha P v (fun _ => 1)
  simpa using h

/-- The components of one pair of local nodes that land on a given pair of degrees of
freedom. -/
theorem kronecker_inner (D a b c c' ei ej : Nat) (hc : c < D) (hc' : c' < D) (v : Scalar) :
    ∑ d in Finset.range D,
        (if D * ei + d = D * a + c ∧ D * ej + d = D * b + c' then v else 0) =
      if c = c' then (if ei = a ∧ ej = b then v else 0) else 0 := by
  by_cases hcc : c = c'
  · subst hcc
    rw [if_pos rfl, Finset.sum_eq_single c]
    · by_cases h : ei = a ∧ ej = b
      · rw [if_pos h, if_pos ⟨by rw [h.1], by rw [h.2]⟩]
      · rw [if_neg h, if_neg]
        rintro ⟨h1, h2⟩
        exact h ⟨((dof_inj D ei a c c hc hc).mp h1).1, ((dof_inj D ej b c c hc hc).mp h2).1⟩
    · intro d hd hne
      rw [if_neg]
      rintro ⟨h1, _⟩
      exact hne ((dof_inj D ei a d c (Finset.mem_range.mp hd) hc).mp h1).2
    · intro h
      exact absurd (Finset.mem_range.mpr hc) h
  · rw [if_neg hcc]
    refine Finset.sum_eq_zero (fun d hd => ?_)
    rw [if_neg]
    rintro ⟨h1, h2⟩
    have hd' := Finset.mem_range.mp hd
    have e1 := ((dof_inj D ei a d c hd' hc).mp h1).2
    have e2 := ((dof_inj D ej b d c' hd' hc').mp h2).2
    exact hcc (e1.symm.trans e2)

/-! ## `ToMatrix` -/

/-- On a valid state `ToMatrix` returns the matrix of the triplet list. -/
theorem ToMatrix_ok (el : Element) (Q : Int) (M : MassMatrix)
    (h : M.CheckValidState el Q = Except.ok ()) :
    M.ToMatrix el Q = Except.ok
      (setFromTriplets (M.dims.toNat * M.mesh.X.cols) (M.dims.toNat * M.mesh.X.cols)
        (M.triplets el)) := by
  have hd : 0 ≤ M.dims := by
    have := ((CheckValidState_ok_iff el Q M).mp h).2
    omega
  unfold MassMatrix.ToMatrix
  rw [h]
  simp only [MassMatrix.OutputDimensions, MassMatrix.InputDimensions]
  rw [toNat_mul_natCast _ _ hd]

/-- C3. For every successfully constructed mass operator, `ToMatrix()` succeeds and is a
symmetric matrix: it is square of size `dims * #nodes` and its entry `(r, s)` equals its
entry `(s, r)` for all `r, s < dims * #nodes`. -/
theorem ToMatrix_symmetric (el : Element) (Q : Int) (mesh : Mesh) (detJe rho : MatrixX)
    (dims : Int) (M : MassMatrix)
    (h : MassMatrix.construct el Q mesh detJe rho dims = Except.ok M) :
    ∃ A, M.ToMatrix el Q = Except.ok A ∧
      A.rows = dims.toNat * mesh.X.cols ∧ A.cols = dims.toNat * mesh.X.cols ∧
      ∀ r, r < dims.toNat * mesh.X.cols → ∀ s, s < dims.toNat * mesh.X.cols →
        A.coeff r s = A.coeff s r := by
  have hv := construct_valid el Q mesh detJe rho dims M h
  have hsym := construct_block_symm el Q mesh detJe rho dims M h
  obtain ⟨_, hM⟩ := construct_ok el Q mesh detJe rho dims M h
  have hmesh : M.mesh = mesh := by rw [hM]
  have hdims : M.dims = dims := by rw [hM]
  refine ⟨_, ToMatrix_ok el Q M hv, by rw [hmesh, hdims]; rfl, by rw [hmesh, hdims]; rfl, ?_⟩
  intro r _ s _
  show tripletSum r s (M.triplets el) = tripletSum s r (M.triplets el)
  rw [triplets_sum, triplets_sum]
  refine Finset.sum_congr rfl (fun e he => ?_)
  have he' : e < mesh.E.cols := by rw [← hmesh]; exact Finset.mem_range.mp he
  refine sum_swap_congr el.kNodes _ _ (fun j hj i hi => ?_)
  refine Finset.sum_congr rfl (fun d _ => ?_)
  rw [hsym e i j he' hi hj]
  by_cases hc : M.dims.toNat * M.mesh.E.coeff i e + d = r ∧
      M.dims.toNat * M.mesh.E.coeff j e + d = s
  · rw [if_pos hc, if_pos ⟨hc.2, hc.1⟩]
  · rw [if_neg hc, if_neg (fun hc' => hc ⟨hc'.2, hc'.1⟩)]

/-- The construction of `lineOperator` succeeds, and its matrix is symmetric. -/
theorem ToMatrix_symmetric_witness :
    MassMatrix.construct lineElement 2 lineMesh lineDetJe lineRho 2 = Except.ok lineOperator ∧
    ∃ A, lineOperator.ToMatrix lineElement 2 = Except.ok A ∧
      A.rows = (2 : Int).toNat * lineMesh.X.cols ∧ A.cols = (2 : Int).toNat * lineMesh.X.cols ∧
      ∀ r, r < (2 : Int).toNat * lineMesh.X.cols → ∀ s, s < (2 : Int).toNat * lineMesh.X.cols →
        A.coeff r s = A.coeff s r :=
  ⟨rfl, ToMatrix_symmetric lineElement 2 lineMesh lineDetJe lineRho 2 lineOperator rfl⟩

/-- C4. After a successful `ComputeElementMassMatrices(rho)`, and hence after a successful
construction, for every element `e` and all local node indices `i, j` the coefficient
`Me(i, e*n + j)` is the sum over the quadrature points `g` of
`weight_g * rho(g,e) * detJe(g,e) * N_i(xi_g) * N_j(xi_g)`. -/
theorem ComputeElementMassMatrices_formula (el : Element) (Q : Int) (rho : MatrixX)
    (M : MassMatrix) (e i j : Nat)
    (hok : (M.ComputeElementMassMatrices el Q rho).1 = Except.ok ())
    (he : e < M.mesh.E.cols) (hi : i < el.kNodes) (hj : j < el.kNodes) :
    (M.ComputeElementMassMatrices el Q rho).2.Me.coeff i (e * el.kNodes + j) =
        massBlockFormula el Q rho M.detJe e i j ∧
      ∃ M', MassMatrix.construct el Q M.mesh M.detJe rho M.dims = Except.ok M' ∧
        M'.Me.coeff i (e * el.kNodes + j) = massBlockFormula el Q rho M.detJe e i j := by
  rw [ComputeElementMassMatrices_eq] at hok ⊢
  by_cases hc : ((M.detJe.rows = (el.QuadratureType Q).kPoints ∧
      M.detJe.cols = M.mesh.E.cols) ∧ 1 ≤ M.dims) ∧
      (rho.cols = M.mesh.E.cols ∧ rho.rows = (el.QuadratureType Q).kPoints)
  · rw [if_pos hc]
    refine ⟨elementMassMatrices_block el Q rho M.detJe M.mesh.E.cols e i j he hi hj, ?_⟩
    rw [construct_eq, if_pos (show constructible el Q M.mesh M.detJe rho M.dims from
      ⟨hc.1.1, hc.1.2, hc.2.2, hc.2.1⟩)]
    exact ⟨_, rfl, elementMassMatrices_block el Q rho M.detJe M.mesh.E.cols e i j he hi hj⟩
  · rw [if_neg hc] at hok
    cases hok

/-- The statement of `ComputeElementMassMatrices_formula` on `lineOperator`, element 1,
local nodes 0 and 1. -/
theorem ComputeElementMassMatrices_formula_witness :
    (lineOperator.ComputeElementMassMatrices lineElement 2 lineRho).1 = Except.ok () ∧
    1 < lineOperator.mesh.E.cols ∧ 0 < lineElement.kNodes ∧ 1 < lineElement.kNodes ∧
    ((lineOperator.ComputeElementMassMatrices lineElement 2 lineRho).2.Me.coeff 0
          (1 * lineElement.kNodes + 1) =
        massBlockFormula lineElement 2 lineRho lineOperator.detJe 1 0 1 ∧
      ∃ M', MassMatrix.construct lineElement 2 lineOperator.mesh lineOperator.detJe lineRho
            lineOperator.dims = Except.ok M' ∧
        M'.Me.coeff 0 (1 * lineElement.kNodes + 1) =
          massBlockFormula lineElement 2 lineRho lineOperator.detJe 1 0 1) :=
  ⟨rfl, by decide, by decide, by decide,
    ComputeElementMassMatrices_formula lineElement 2 lineRho lineOperator 1 0 1 rfl
      (by decide) (by decide) (by decide)⟩

/-- C5. On a valid operator `ToMatrix()` is the Kronecker product of the scalar mass
matrix with the `dims x dims` identity: it has size `(dims * #nodes) x (dims * #nodes)`,
and for all nodes `a, b` and components `c, c' < dims` its entry
`(dims * a + c, dims * b + c')` is `scalarMass a b`, the sum of `Me_e(i, j)` over the
elements `e` and local indices `i, j` with `E(i,e) = a` and `E(j,e) = b`, when `c = c'`,
and `0` when `c` differs from `c'`. -/
theorem ToMatrix_kronecker (el : Element) (Q : Int) (M : MassMatrix)
    (h : M.CheckValidState el Q = Except.ok ()) :
    ∃ A, M.ToMatrix el Q = Except.ok A ∧
      (A.rows : Int) = M.dims * M.mesh.X.cols ∧ (A.cols : Int) = M.dims * M.mesh.X.cols ∧
      ∀ a, a < M.mesh.X.cols → ∀ b, b < M.mesh.X.cols →
        ∀ c, c < M.dims.toNat → ∀ c', c' < M.dims.toNat →
          A.coeff (M.dims.toNat * a + c) (M.dims.toNat * b + c') =
            if c = c' then scalarMass el M a b else 0 := by
  have hd : 0 ≤ M.dims := by
    have := ((CheckValidState_ok_iff el Q M).mp h).2
    omega
  have hcast : ((M.dims.toNat * M.mesh.X.cols : Nat) : Int) = M.dims * M.mesh.X.cols := by
    rw [Nat.cast_mul, Int.toNat_of_nonneg hd]
  refine ⟨_, ToMatrix_ok el Q M h, hcast, hcast, ?_⟩
  intro a _ b _ c hc c' hc'
  show tripletSum _ _ (M.triplets el) = _
  rw [triplets_sum]
  have hinner : ∀ e j i, (∑ d in Finset.range M.dims.toNat,
      (if M.dims.toNat * M.mesh.E.coeff i e + d = M.dims.toNat * a + c ∧
          M.dims.toNat * M.mesh.E.coeff j e + d = M.dims.toNat * b + c'
        then M.block el e i j else 0)) =
      if c = c' then (if M.mesh.E.coeff i e = a ∧ M.mesh.E.coeff j e = b
        then M.block el e i j else 0) else 0 :=
    fun e j i => kronecker_inner _ a b c c' _ _ hc hc' _
  simp only [hinner]
  by_cases hcc : c = c'
  · simp only [if_pos hcc, scalarMass]
  · simp only [if_neg hcc, Finset.sum_const_zero]

/-- The statement of `ToMatrix_kronecker` on `lineOperator`. -/
theorem ToMatrix_kronecker_witness :
    lineOperator.CheckValidState lineElement 2 = Except.ok () ∧
    ∃ A, lineOperator.ToMatrix lineElement 2 = Except.ok A ∧
      (A.rows : Int) = lineOperator.dims * lineOperator.mesh.X.cols ∧
      (A.cols : Int) = lineOperator.dims * lineOperator.mesh.X.cols ∧
      ∀ a, a < lineOperator.mesh.X.cols → ∀ b, b < lineOperator.mesh.X.cols →
        ∀ c, c < lineOperator.dims.toNat → ∀ c', c' < lineOperator.dims.toNat →
          A.coeff (lineOperator.dims.toNat * a + c) (lineOperator.dims.toNat * b + c') =
            if c = c' then scalarMass lineElement lineOperator a b else 0 :=
  ⟨rfl, ToMatrix_kronecker lineElement 2 lineOperator rfl⟩

/-! ## `ToLumpedMasses` -/

/-- With `dims >= 0` the vector of lumped masses is built, and its coefficient `r` is the sum
of the block entries whose row lands on `r`. -/
theorem ToLumpedMasses_ok (el : Element) (M : MassMatrix) (hd : 0 ≤ M.dims) :
    ∃ m, M.ToLumpedMasses el = Except.ok m ∧ m.size = M.dims.toNat * M.mesh.X.cols ∧
      ∀ r, m.coeff r =
        ∑ e in Finset.range M.mesh.E.cols, ∑ j in Finset.range el.kNodes,
          ∑ i in Finset.range el.kNodes, ∑ d in Finset.range M.dims.toNat,
            if M.dims.toNat * M.mesh.E.coeff i e + d = r then M.block el e i j else 0 := by
  have hn : ¬ M.InputDimensions < 0 := by
    unfold MassMatrix.InputDimensions
    have : (0 : Int) ≤ M.dims * (M.mesh.X.cols : Int) := mul_nonneg hd (Int.ofNat_nonneg _)
    omega
  unfold MassMatrix.ToLumpedMasses
  rw [if_neg hn]
  refine ⟨_, rfl, ?_, ?_⟩
  · simp only []
    rw [forEach_unchanged VectorX.size]
    · simp only [VectorX.Zero, MassMatrix.InputDimensions]
      exact toNat_mul_natCast _ _ hd
    · intro e m
      refine forEach_unchanged VectorX.size _ ?_ _ _
      intro j m
      refine forEach_unchanged VectorX.size _ ?_ _ _
      intro i m
      refine forEach_unchanged VectorX.size _ ?_ _ _
      intro d m
      rfl
  · intro r
    simp only []
    rw [lumpedLoops_coeff]
    simp [VectorX.Zero]

/-- C6. For every successfully constructed operator on a valid mesh, `ToLumpedMasses()`
returns a vector of length `dims * #nodes` whose entry `r` equals the sum of row `r` of
`ToMatrix()`, for every `r < dims * #nodes`. -/
theorem ToLumpedMasses_eq_rowSum (el : Element) (Q : Int) (mesh : Mesh)
    (detJe rho : MatrixX) (dims : Int) (M : MassMatrix) (hmesh : Mesh.Valid el mesh)
    (h : MassMatrix.construct el Q mesh detJe rho dims = Except.ok M) :
    ∃ A m, M.ToMatrix el Q = Except.ok A ∧ M.ToLumpedMasses el = Except.ok m ∧
      (m.size : Int) = dims * mesh.X.cols ∧
      ∀ r, r < m.size → m.coeff r = A.rowSum r := by
  have hv := construct_valid el Q mesh detJe rho dims M h
  obtain ⟨_, hM⟩ := construct_ok el Q mesh detJe rho dims M h
  have hm : M.mesh = mesh := by rw [hM]
  have hdims : M.dims = dims := by rw [hM]
  have hd : 0 ≤ M.dims := by
    have := ((CheckValidState_ok_iff el Q M).mp hv).2
    omega
  obtain ⟨m, hm1, hm2, hm3⟩ := ToLumpedMasses_ok el M hd
  refine ⟨_, m, ToMatrix_ok el Q M hv, hm1, ?_, ?_⟩
  · rw [hm2, Nat.cast_mul, Int.toNat_of_nonneg hd, hm, hdims]
  intro r _
  rw [hm3 r]
  show _ = ∑ s in Finset.range (M.dims.toNat * M.mesh.X.cols),
    tripletSum r s (M.triplets el)
  simp only [triplets_sum]
  rw [sum_comm_four]
  refine Finset.sum_congr rfl (fun e he => ?_)
  refine Finset.sum_congr rfl (fun j hj => ?_)
  refine Finset.sum_congr rfl (fun i hi => ?_)
  refine Finset.sum_congr rfl (fun d hd' => ?_)
  have hlt : M.dims.toNat * M.mesh.E.coeff j e + d < M.dims.toNat * M.mesh.X.cols := by
    refine dof_lt _ _ _ _ ?_ (Finset.mem_range.mp hd')
    rw [hm]
    exact hmesh.2 j (Finset.mem_range.mp hj) e (by rw [← hm]; exact Finset.mem_range.mp he)
  rw [sum_range_pick _ _ hlt]

/-- The statement of `ToLumpedMasses_eq_rowSum` on `lineOperator`. -/
theorem ToLumpedMasses_eq_rowSum_witness :
    Mesh.Valid lineElement lineMesh ∧
    MassMatrix.construct lineElement 2 lineMesh lineDetJe lineRho 2 = Except.ok lineOperator ∧
    ∃ A m, lineOperator.ToMatrix lineElement 2 = Except.ok A ∧
      lineOperator.ToLumpedMasses lineElement = Except.ok m ∧
      (m.size : Int) = 2 * lineMesh.X.cols ∧
      ∀ r, r < m.size → m.coeff r = A.rowSum r :=
  ⟨by decide, rfl,
    ToLumpedMasses_eq_rowSum lineElement 2 lineMesh lineDetJe lineRho 2 lineOperator
      (by decide) rfl⟩

/-- With a basis that sums to one at the quadrature points, the entries of an element
mass block sum to the integral of the density over the element. -/
theorem massBlockFormula_sum (el : Element) (Q : Int) (rho detJe : MatrixX) (e : Nat)
    (hN : partitionOfUnity el Q) :
    ∑ j in Finset.range el.kNodes, ∑ i in Finset.range el.kNodes,
        massBlockFormula el Q rho detJe e i j =
      ∑ g in Finset.range (el.QuadratureType Q).kPoints,
        (el.QuadratureType Q).weights g * rho.coeff g e * detJe.coeff g e := by
  unfold massBlockFormula
  simp only []
  have h1 : ∀ j, ∑ i in Finset.range el.kNodes,
      ∑ g in Finset.range (el.QuadratureType Q).kPoints,
        (el.QuadratureType Q).weights g * rho.coeff g e * detJe.coeff g e *
          el.N (quadraturePoint (el.QuadratureType Q) g) i *
          el.N (quadraturePoint (el.QuadratureType Q) g) j =
      ∑ g in Finset.range (el.QuadratureType Q).kPoints,
        (el.QuadratureType Q).weights g * rho.coeff g e * detJe.coeff g e *
          el.N (quadraturePoint (el.QuadratureType Q) g) j := by
    intro j
    rw [Finset.sum_comm]
    refine Finset.sum_congr rfl (fun g hg => ?_)
    have hg' := hN g (Finset.mem_range.mp hg)
    calc ∑ i in Finset.range el.kNodes,
          (el.QuadratureType Q).weights g * rho.coeff g e * detJe.coeff g e *
            el.N (quadraturePoint (el.QuadratureType Q) g) i *
            el.N (quadraturePoint (el.QuadratureType Q) g) j
        = ∑ i in Finset.range el.kNodes,
            ((el.QuadratureType Q).weights g * rho.coeff g e * detJe.coeff g e *
              el.N (quadraturePoint (el.QuadratureType Q) g) j) *
            el.N (quadraturePoint (el.QuadratureType Q) g) i :=
          Finset.sum_congr rfl (fun i _ => by ring)
      _ = ((el.QuadratureType Q).weights g * rho.coeff g e * detJe.coeff g e *
              el.N (quadraturePoint (el.QuadratureType Q) g) j) *
            ∑ i in Finset.range el.kNodes, el.N (quadraturePoint (el.QuadratureType Q) g) i := by
          rw [Finset.mul_sum]
      _ = _ := by rw [hg', mul_one]
  simp only [h1]
  rw [Finset.sum_comm]
  refine Finset.sum_congr rfl (fun g hg => ?_)
  rw [← Finset.mul_sum, hN g (Finset.mem_range.mp hg), mul_one]

/-- C7. Total mass: for every successfully constructed operator on a valid mesh whose
element basis sums to 1 at every quadrature point, the sum of all entries of
`ToLumpedMasses()` equals `dims` times the sum over the elements `e` and quadrature points
`g` of `weight_g * rho(g,e) * detJe(g,e)`. -/
theorem ToLumpedMasses_total (el : Element) (Q : Int) (mesh : Mesh)
    (detJe rho : MatrixX) (dims : Int) (M : MassMatrix) (hmesh : Mesh.Valid el mesh)
    (hN : partitionOfUnity el Q)
    (h : MassMatrix.construct el Q mesh detJe rho dims = Except.ok M) :
    ∃ m, M.ToLumpedMasses el = Except.ok m ∧
      m.total = (dims : Scalar) *
        ∑ e in Finset.range mesh.E.cols, ∑ g in Finset.range (el.QuadratureType Q).kPoints,
          (el.QuadratureType Q).weights g * rho.coeff g e * detJe.coeff g e := by
  have hv := construct_valid el Q mesh detJe rho dims M h
  have hblock := construct_block el Q mesh detJe rho dims M h
  obtain ⟨_, hM⟩ := construct_ok el Q mesh detJe rho dims M h
  have hm : M.mesh = mesh := by rw [hM]
  have hdims : M.dims = dims := by rw [hM]
  have hd : 0 ≤ M.dims := by
    have := ((CheckValidState_ok_iff el Q M).mp hv).2
    omega
  obtain ⟨m, hm1, hm2, hm3⟩ := ToLumpedMasses_ok el M hd
  refine ⟨m, hm1, ?_⟩
  have hD : (M.dims : Scalar) = (M.dims.toNat : Scalar) := by
    rw [← Int.cast_natCast, Int.toNat_of_nonneg hd]
  rw [← hm] at hmesh hblock
  rw [← hm, ← hdims]
  unfold VectorX.total
  simp only [hm3]
  rw [hm2, sum_comm_four, hD, Finset.mul_sum]
  refine Finset.sum_congr rfl (fun e he => ?_)
  have he' := Finset.mem_range.mp he
  rw [← massBlockFormula_sum el Q rho detJe e hN, Finset.mul_sum]
  refine Finset.sum_congr rfl (fun j hj => ?_)
  rw [Finset.mul_sum]
  refine Finset.sum_congr rfl (fun i hi => ?_)
  have hlt : ∀ d, d ∈ Finset.range M.dims.toNat →
      M.dims.toNat * M.mesh.E.coeff i e + d < M.dims.toNat * M.mesh.X.cols := by
    intro d hd'
    exact dof_lt _ _ _ _ (hmesh.2 i (Finset.mem_range.mp hi) e he') (Finset.mem_range.mp hd')
  have hpick : ∀ d, d ∈ Finset.range M.dims.toNat →
      (∑ s in Finset.range (M.dims.toNat * M.mesh.X.cols),
        if M.dims.toNat * M.mesh.E.coeff i e + d = s then M.block el e i j else 0) =
      M.block el e i j := by
    intro d hd'
    have := sum_range_pick _ _ (hlt d hd') True (M.block el e i j)
    simpa using this
  rw [Finset.sum_congr rfl hpick, Finset.sum_const, Finset.card_range, nsmul_eq_mul,
    hblock e i j he' (Finset.mem_range.mp hi) (Finset.mem_range.mp hj)]

/-- The basis of `lineElement` sums to one at the points of Simpson's rule. -/
theorem ToLumpedMasses_total_witness :
    Mesh.Valid lineElement lineMesh ∧ partitionOfUnity lineElement 2 ∧
    MassMatrix.construct lineElement 2 lineMesh lineDetJe lineRho 2 = Except.ok lineOperator ∧
    ∃ m, lineOperator.ToLumpedMasses lineElement = Except.ok m ∧
      m.total = ((2 : Int) : Scalar) *
        ∑ e in Finset.range lineMesh.E.cols,
          ∑ g in Finset.range (lineElement.QuadratureType 2).kPoints,
            (lineElement.QuadratureType 2).weights g * lineRho.coeff g e *
              lineDetJe.coeff g e :=
  have hN : partitionOfUnity lineElement 2 := by
    intro g hg
    simp [lineElement, Finset.sum_range_succ]
  ⟨by decide, hN, rfl,
    ToLumpedMasses_total lineElement 2 lineMesh lineDetJe lineRho 2 lineOperator
      (by decide) hN rfl⟩

/-! ## Failure of construction -/

/-- C8. Construction fails with an invalid-argument failure if and only if `detJe` is not
of shape `#quadrature points x #elements`, or `dims < 1`, or the density matrix is not of
that shape; it succeeds exactly in the other case. With a scalar density, construction
fails if and only if `detJe` has the wrong shape or `dims < 1`, and succeeds otherwise. -/
theorem construct_fails_iff (el : Element) (Q : Int) (mesh : Mesh) (detJe rho : MatrixX)
    (rhoUniform : Scalar) (dims : Int) :
    (MassMatrix.construct el Q mesh detJe rho dims = Except.error Failure.invalidArgument ↔
        (¬ (detJe.rows = (el.QuadratureType Q).kPoints ∧ detJe.cols = mesh.E.cols) ∨
          dims < 1 ∨ ¬ (rho.rows = (el.QuadratureType Q).kPoints ∧ rho.cols = mesh.E.cols))) ∧
      ((∃ M, MassMatrix.construct el Q mesh detJe rho dims = Except.ok M) ↔
        ¬ (¬ (detJe.rows = (el.QuadratureType Q).kPoints ∧ detJe.cols = mesh.E.cols) ∨
          dims < 1 ∨ ¬ (rho.rows = (el.QuadratureType Q).kPoints ∧ rho.cols = mesh.E.cols))) ∧
      (MassMatrix.constructUniform el Q mesh detJe rhoUniform dims =
          Except.error Failure.invalidArgument ↔
        (¬ (detJe.rows = (el.QuadratureType Q).kPoints ∧ detJe.cols = mesh.E.cols) ∨
          dims < 1)) ∧
      ((∃ M, MassMatrix.constructUniform el Q mesh detJe rhoUniform dims = Except.ok M) ↔
        ¬ (¬ (detJe.rows = (el.QuadratureType Q).kPoints ∧ detJe.cols = mesh.E.cols) ∨
          dims < 1)) := by
  have key : ∀ rho' : MatrixX,
      (MassMatrix.construct el Q mesh detJe rho' dims = Except.error Failure.invalidArgument ↔
        ¬ constructible el Q mesh detJe rho' dims) ∧
      ((∃ M, MassMatrix.construct el Q mesh detJe rho' dims = Except.ok M) ↔
        constructible el Q mesh detJe rho' dims) := by
    intro rho'
    rw [construct_eq]
    by_cases hc : constructible el Q mesh detJe rho' dims
    · rw [if_pos hc]
      exact ⟨⟨fun h => (by cases h), fun h => absurd hc h⟩, ⟨fun _ => hc, fun _ => ⟨_, rfl⟩⟩⟩
    · rw [if_neg hc]
      refine ⟨⟨fun _ => hc, fun _ => rfl⟩, ⟨?_, fun h => absurd h hc⟩⟩
      rintro ⟨M, hM⟩
      cases hM
  have hbad : ∀ rho' : MatrixX, ¬ constructible el Q mesh detJe rho' dims ↔
      (¬ (detJe.rows = (el.QuadratureType Q).kPoints ∧ detJe.cols = mesh.E.cols) ∨
        dims < 1 ∨ ¬ (rho'.rows = (el.QuadratureType Q).kPoints ∧ rho'.cols = mesh.E.cols)) := by
    intro rho'
    unfold constructible
    constructor
    · intro h
      by_cases h1 : detJe.rows = (el.QuadratureType Q).kPoints ∧ detJe.cols = mesh.E.cols
      · by_cases h2 : dims < 1
        · exact Or.inr (Or.inl h2)
        · exact Or.inr (Or.inr (fun h3 => h ⟨h1, by omega, h3⟩))
      · exact Or.inl h1
    · rintro (h | h | h) hc
      · exact h hc.1
      · have := hc.2.1
        omega
      · exact h hc.2.2
  have huni : (¬ (detJe.rows = (el.QuadratureType Q).kPoints ∧ detJe.cols = mesh.E.cols) ∨
        dims < 1 ∨
        ¬ ((MatrixX.Constant (el.QuadratureType Q).kPoints mesh.E.cols rhoUniform).rows =
            (el.QuadratureType Q).kPoints ∧
          (MatrixX.Constant (el.QuadratureType Q).kPoints mesh.E.cols rhoUniform).cols =
            mesh.E.cols)) ↔
      (¬ (detJe.rows = (el.QuadratureType Q).kPoints ∧ detJe.cols = mesh.E.cols) ∨
        dims < 1) := by
    simp [MatrixX.Constant]
  refine ⟨?_, ?_, ?_, ?_⟩
  · rw [(key rho).1, hbad]
  · rw [(key rho).2, ← hbad, not_not]
  · unfold MassMatrix.constructUniform
    rw [(key _).1, hbad, huni]
  · unfold MassMatrix.constructUniform
    rw [(key _).2, ← huni, ← hbad, not_not]

/-- C9, as stated, fails: with quadrature order 1 the line element is integrated by the
one-point midpoint rule, construction with a one-row `detJe` and density succeeds, while
the rule of order `2 * kOrder = 2` has three points. -/
theorem construct_order_counterexample :
    MassMatrix.construct lineElement 1 lineMesh midpointDetJe midpointRho 1 =
        Except.ok midpointOperator ∧
      midpointDetJe.rows ≠
        (lineElement.QuadratureType (MassMatrix.kOrder lineElement)).kPoints ∧
      midpointRho.rows ≠
        (lineElement.QuadratureType (MassMatrix.kOrder lineElement)).kPoints :=
  ⟨rfl, by decide, by decide⟩

/-- C9, amended. The shapes of `detJe` and of the density are validated against the
quadrature rule of the operator's quadrature-order parameter: construction succeeds only
if `detJe.rows()` and `rho.rows()` equal the number of points of the element's rule of
order `QuadratureOrder` and their column counts equal the number of elements; this is the
rule of order `2 * ElementType::kOrder` when `QuadratureOrder` is that order. -/
theorem construct_validates_quadrature_order (el : Element) (Q : Int) (mesh : Mesh)
    (detJe rho : MatrixX) (dims : Int) (M : MassMatrix)
    (h : MassMatrix.construct el Q mesh detJe rho dims = Except.ok M) :
    (detJe.rows = (el.QuadratureType Q).kPoints ∧ detJe.cols = mesh.E.cols ∧
        rho.rows = (el.QuadratureType Q).kPoints ∧ rho.cols = mesh.E.cols) ∧
      (Q = MassMatrix.kOrder el →
        detJe.rows = (el.QuadratureType (2 * el.kOrder)).kPoints ∧
          rho.rows = (el.QuadratureType (2 * el.kOrder)).kPoints) := by
  obtain ⟨hc, _⟩ := construct_ok el Q mesh detJe rho dims M h
  refine ⟨⟨hc.1.1, hc.1.2, hc.2.2.1, hc.2.2.2⟩, ?_⟩
  intro hQ
  rw [hQ] at hc
  exact ⟨hc.1.1, hc.2.2.1⟩

/-- The statement of `construct_validates_quadrature_order` on `lineOperator`, whose
quadrature order is `2 * kOrder`. -/
theorem construct_validates_quadrature_order_witness :
    MassMatrix.construct lineElement 2 lineMesh lineDetJe lineRho 2 = Except.ok lineOperator ∧
    (lineDetJe.rows = (lineElement.QuadratureType 2).kPoints ∧
        lineDetJe.cols = lineMesh.E.cols ∧
        lineRho.rows = (lineElement.QuadratureType 2).kPoints ∧
        lineRho.cols = lineMesh.E.cols) ∧
      ((2 : Int) = MassMatrix.kOrder lineElement →
        lineDetJe.rows = (lineElement.QuadratureType (2 * lineElement.kOrder)).kPoints ∧
          lineRho.rows = (lineElement.QuadratureType (2 * lineElement.kOrder)).kPoints) :=
  ⟨rfl, construct_validates_quadrature_order lineElement 2 lineMesh lineDetJe lineRho 2
    lineOperator rfl⟩

/-! ## `Apply` -/

/-- The update `ye += xe * me`, coefficient by coefficient. -/
theorem addElementProduct_coeff (el : Element) (M : MassMatrix) (x : MatrixX) (c e : Nat)
    (y : MatrixX) (r c' : Nat) :
    (M.addElementProduct el x c e y).coeff r c' =
      y.coeff r c' + ∑ j in Finset.range el.kNodes, ∑ d in Finset.range M.dims.toNat,
        if r = reshapedAt M.dims.toNat d (M.mesh.E.coeff j e) ∧ c' = c
          then M.elementProduct el x c e d j else 0 := by
  unfold MassMatrix.addElementProduct
  refine forEach_additive (fun m : MatrixX => m.coeff r c') _ _ ?_ _ y
  intro j m
  refine forEach_additive (fun m : MatrixX => m.coeff r c') _ _ ?_ _ m
  intro d m
  simp only [MatrixX.addCoeff]
  split_ifs <;> simp

/-- The update `ye += xe * me` keeps the shape of `y`. -/
theorem addElementProduct_shape (el : Element) (M : MassMatrix) (x : MatrixX) (c e : Nat)
    (y : MatrixX) :
    (M.addElementProduct el x c e y).rows = y.rows ∧
      (M.addElementProduct el x c e y).cols = y.cols := by
  unfold MassMatrix.addElementProduct
  constructor
  · refine forEach_unchanged MatrixX.rows _ ?_ _ _
    intro j m
    refine forEach_unchanged MatrixX.rows _ ?_ _ _
    intro d m
    rfl
  · refine forEach_unchanged MatrixX.cols _ ?_ _ _
    intro j m
    refine forEach_unchanged MatrixX.cols _ ?_ _ _
    intro d m
    rfl

/-- The loops of `Apply` when both reshapes are allowed: no iteration fails. -/
theorem applyLoops_ok (el : Element) (M : MassMatrix) (x y : MatrixX)
    (hy : reshapedSizeOk y.rows M.dims.toNat (y.size / M.dims.toNat) = true)
    (hx : reshapedSizeOk x.rows M.dims.toNat (x.size / M.dims.toNat) = true) (nC nE : Nat) :
    forLoop nC (fun c y => forLoop nE (fun e y => M.applyElement el x c e y) y) y =
      (Except.ok (),
        forEach nC (fun c y => forEach nE (fun e y => M.addElementProduct el x c e y) y) y) := by
  have hstep : ∀ c e (s : MatrixX), (s.rows = y.rows ∧ s.cols = y.cols) →
      M.applyElement el x c e s = (Except.ok (), M.addElementProduct el x c e s) ∧
        ((M.addElementProduct el x c e s).rows = y.rows ∧
          (M.addElementProduct el x c e s).cols = y.cols) := by
    intro c e s hs
    have hs' : reshapedSizeOk s.rows M.dims.toNat (s.size / M.dims.toNat) = true := by
      unfold MatrixX.size at hy ⊢
      rw [hs.1, hs.2]
      exact hy
    refine ⟨?_, ?_⟩
    · unfold MassMatrix.applyElement
      simp [hs', hx]
    · have := addElementProduct_shape el M x c e s
      rw [this.1, this.2]
      exact hs
  refine (forLoop_ok (fun s : MatrixX => s.rows = y.rows ∧ s.cols = y.cols) _
    (fun c y => forEach nE (fun e y => M.addElementProduct el x c e y) y) ?_ nC y ⟨rfl, rfl⟩).1
  intro c s hs
  exact forLoop_ok (fun s : MatrixX => s.rows = y.rows ∧ s.cols = y.cols) _
    (fun e y => M.addElementProduct el x c e y) (fun e s hs => hstep c e s hs) nE s hs

/-- The loops of `Apply` when a reshape is not allowed: `y` is left alone, and the only
failure is the assertion. -/
theorem applyLoops_stuck (el : Element) (M : MassMatrix) (x y : MatrixX)
    (hbad : ¬ (reshapedSizeOk y.rows M.dims.toNat (y.size / M.dims.toNat) = true ∧
      reshapedSizeOk x.rows M.dims.toNat (x.size / M.dims.toNat) = true)) (nC nE : Nat) :
    (forLoop nC (fun c y => forLoop nE (fun e y => M.applyElement el x c e y) y) y).2 = y := by
  have hstep : ∀ c e, M.applyElement el x c e y = (Except.error Failure.assertion, y) := by
    intro c e
    unfold MassMatrix.applyElement
    by_cases h1 : reshapedSizeOk y.rows M.dims.toNat (y.size / M.dims.toNat) = true
    · have h2 : ¬ reshapedSizeOk x.rows M.dims.toNat (x.size / M.dims.toNat) = true :=
        fun h2 => hbad ⟨h1, h2⟩
      simp [h1, h2]
    · simp [h1]
  refine forLoop_state _ y ?_ nC
  intro c
  show (forLoop nE (fun e y => M.applyElement el x c e y) y).2 = y
  rw [forLoop_stuck _ Failure.assertion y (hstep c) nE]

/-- Coefficients of the matrix left by the loops of `Apply` when no iteration fails. -/
theorem applyLoops_coeff (el : Element) (M : MassMatrix) (x y : MatrixX) (nC nE r c' : Nat) :
    (forEach nC (fun c y => forEach nE (fun e y => M.addElementProduct el x c e y) y)
        y).coeff r c' =
      y.coeff r c' + ∑ c in Finset.range nC, ∑ e in Finset.range nE,
        ∑ j in Finset.range el.kNodes, ∑ d in Finset.range M.dims.toNat,
          if r = reshapedAt M.dims.toNat d (M.mesh.E.coeff j e) ∧ c' = c
            then M.elementProduct el x c e d j else 0 := by
  refine forEach_additive (fun m : MatrixX => m.coeff r c') _ _ ?_ _ y
  intro c m
  refine forEach_additive (fun m : MatrixX => m.coeff r c') _ _ ?_ _ m
  intro e m
  exact addElementProduct_coeff el M x c e m r c'

/-- The loops of `Apply` keep the shape of `y`. -/
theorem applyLoops_shape (el : Element) (M : MassMatrix) (x y : MatrixX) (nC nE : Nat) :
    (forEach nC (fun c y => forEach nE (fun e y => M.addElementProduct el x c e y) y)
        y).rows = y.rows ∧
    (forEach nC (fun c y => forEach nE (fun e y => M.addElementProduct el x c e y) y)
        y).cols = y.cols := by
  constructor
  · refine forEach_unchanged MatrixX.rows _ ?_ _ _
    intro c m
    refine forEach_unchanged MatrixX.rows _ ?_ _ _
    intro e m
    exact (addElementProduct_shape el M x c e m).1
  · refine forEach_unchanged MatrixX.cols _ ?_ _ _
    intro c m
    refine forEach_unchanged MatrixX.cols _ ?_ _ _
    intro e m
    exact (addElementProduct_shape el M x c e m).2

/-- With symmetric blocks and valid connectivity, what the loops of `Apply` add to
coefficient `(r, c')` is row `r` of the assembled matrix times column `c'` of `x`. -/
theorem applyLoops_eq_mul (el : Element) (M : MassMatrix) (x : MatrixX)
    (hsymm : ∀ e, e < M.mesh.E.cols → ∀ i, i < el.kNodes → ∀ j, j < el.kNodes →
      M.block el e i j = M.block el e j i)
    (hE : ∀ i, i < el.kNodes → ∀ e, e < M.mesh.E.cols → M.mesh.E.coeff i e < M.mesh.X.cols)
    (nC c' r : Nat) (hc' : c' < nC) :
    (∑ c in Finset.range nC, ∑ e in Finset.range M.mesh.E.cols,
        ∑ j in Finset.range el.kNodes, ∑ d in Finset.range M.dims.toNat,
          if r = reshapedAt M.dims.toNat d (M.mesh.E.coeff j e) ∧ c' = c
            then M.elementProduct el x c e d j else 0) =
      ∑ s in Finset.range (M.dims.toNat * M.mesh.X.cols),
        tripletSum r s (M.triplets el) * x.coeff s c' := by
  rw [Finset.sum_eq_single c']
  · simp only [triplets_sum, Finset.sum_mul, and_true]
    rw [sum_comm_four]
    refine Finset.sum_congr rfl (fun e he => ?_)
    have he' := Finset.mem_range.mp he
    have hL : ∀ j, (∑ d in Finset.range M.dims.toNat,
        if r = reshapedAt M.dims.toNat d (M.mesh.E.coeff j e)
          then M.elementProduct el x c' e d j else 0) =
        ∑ i in Finset.range el.kNodes, ∑ d in Finset.range M.dims.toNat,
          if M.dims.toNat * M.mesh.E.coeff j e + d = r
            then x.coeff (M.dims.toNat * M.mesh.E.coeff i e + d) c' * M.block el e i j
            else 0 := by
      intro j
      rw [Finset.sum_comm]
      refine Finset.sum_congr rfl (fun d _ => ?_)
      unfold MassMatrix.elementProduct reshapedAt
      simp only [Nat.add_comm d]
      by_cases hr : M.dims.toNat * M.mesh.E.coeff j e + d = r
      · simp [hr]
      · have hr' : ¬ r = M.dims.toNat * M.mesh.E.coeff j e + d := fun h => hr h.symm
        simp [hr, hr']
    simp only [hL]
    refine sum_swap_congr el.kNodes _ _ (fun j hj i hi => ?_)
    refine Finset.sum_congr rfl (fun d hd => ?_)
    have hlt : M.dims.toNat * M.mesh.E.coeff i e + d < M.dims.toNat * M.mesh.X.cols :=
      dof_lt _ _ _ _ (hE i hi e he') (Finset.mem_range.mp hd)
    rw [sum_range_select _ _ hlt, hsymm e he' j hj i hi]
    by_cases hr : M.dims.toNat * M.mesh.E.coeff j e + d = r
    · rw [if_pos hr, if_pos hr, mul_comm]
    · rw [if_neg hr, if_neg hr]
  · intro c _ hne
    refine Finset.sum_eq_zero (fun e _ => Finset.sum_eq_zero (fun j _ =>
      Finset.sum_eq_zero (fun d _ => ?_)))
    rw [if_neg (fun h => hne h.2.symm)]
  · intro h
    exact absurd (Finset.mem_range.mpr hc') h

/-- On a valid operator, with operands of the right shape and both reshapes allowed,
`Apply` runs its loops to the end. -/
theorem Apply_ok (el : Element) (Q : Int) (M : MassMatrix) (x y : MatrixX)
    (hv : M.CheckValidState el Q = Except.ok ())
    (hx : (x.rows : Int) = M.InputDimensions) (hy : (y.rows : Int) = M.InputDimensions)
    (hc : x.cols = y.cols)
    (hry : reshapedSizeOk y.rows M.dims.toNat (y.size / M.dims.toNat) = true)
    (hrx : reshapedSizeOk x.rows M.dims.toNat (x.size / M.dims.toNat) = true) :
    M.Apply el Q x y =
      (Except.ok (),
        forEach y.cols
          (fun c y => forEach M.mesh.E.cols (fun e y => M.addElementProduct el x c e y) y) y) := by
  unfold MassMatrix.Apply
  rw [hv]
  simp only []
  rw [if_neg (by
    rintro (h | h | h)
    · exact h hx
    · exact h hy
    · exact h hc)]
  exact applyLoops_ok el M x y hry hrx _ _

/-- The reshape of the column of a column vector with `dims * #nodes` rows is allowed. -/
theorem reshaped_column_vector (D nn : Nat) (y : MatrixX) (hD : 0 < D)
    (hrows : y.rows = D * nn) (hcols : y.cols = 1) :
    reshapedSizeOk y.rows D (y.size / D) = true := by
  unfold reshapedSizeOk MatrixX.size
  rw [hcols, Nat.mul_one, hrows, Nat.mul_div_cancel_left _ hD]
  exact beq_self_eq_true _

/-- C1. Apply/matrix equivalence: for every successfully constructed mass operator on a
mesh with valid connectivity and every pair of column vectors `x`, `y` with
`dims * #nodes` rows, `ToMatrix()` and `Apply(x, y)` succeed and `Apply` leaves `y` equal
to `y_old + ToMatrix() * x`, in exact arithmetic. -/
theorem Apply_eq_ToMatrix_mul (el : Element) (Q : Int) (mesh : Mesh) (detJe rho : MatrixX)
    (dims : Int) (M : MassMatrix) (x y : MatrixX) (hmesh : Mesh.Valid el mesh)
    (h : MassMatrix.construct el Q mesh detJe rho dims = Except.ok M)
    (hx : (x.rows : Int) = dims * mesh.X.cols) (hy : (y.rows : Int) = dims * mesh.X.cols)
    (hxc : x.cols = 1) (hyc : y.cols = 1) :
    ∃ A, M.ToMatrix el Q = Except.ok A ∧ (M.Apply el Q x y).1 = Except.ok () ∧
      (M.Apply el Q x y).2.rows = y.rows ∧ (M.Apply el Q x y).2.cols = y.cols ∧
      ∀ r, r < y.rows → (M.Apply el Q x y).2.coeff r 0 = y.coeff r 0 + A.mulCol x 0 r := by
  have hv := construct_valid el Q mesh detJe rho dims M h
  have hsymm := construct_block_symm el Q mesh detJe rho dims M h
  obtain ⟨_, hM⟩ := construct_ok el Q mesh detJe rho dims M h
  have hm : M.mesh = mesh := by rw [hM]
  have hdims : M.dims = dims := by rw [hM]
  rw [← hm] at hmesh hsymm hx hy
  rw [← hdims] at hx hy
  have hd : 1 ≤ M.dims := ((CheckValidState_ok_iff el Q M).mp hv).2
  have hD : 0 < M.dims.toNat := by omega
  have hcast : ((M.dims.toNat * M.mesh.X.cols : Nat) : Int) = M.dims * M.mesh.X.cols := by
    rw [Nat.cast_mul, Int.toNat_of_nonneg (by omega)]
  have hxr : x.rows = M.dims.toNat * M.mesh.X.cols := by
    have := hx.trans hcast.symm
    exact_mod_cast this
  have hyr : y.rows = M.dims.toNat * M.mesh.X.cols := by
    have := hy.trans hcast.symm
    exact_mod_cast this
  have hA := Apply_ok el Q M x y hv hx hy (hxc.trans hyc.symm)
    (reshaped_column_vector _ _ y hD hyr hyc) (reshaped_column_vector _ _ x hD hxr hxc)
  refine ⟨_, ToMatrix_ok el Q M hv, ?_, ?_, ?_, ?_⟩
  · rw [hA]
  · rw [hA]
    exact (applyLoops_shape el M x y _ _).1
  · rw [hA]
    exact (applyLoops_shape el M x y _ _).2
  · intro r _
    rw [hA]
    simp only []
    rw [applyLoops_coeff, applyLoops_eq_mul el M x (fun e he i hi j hj => hsymm e i j he hi hj)
      hmesh.2 y.cols 0 r (by omega)]
    rfl

/-- The statement of `Apply_eq_ToMatrix_mul` on `lineOperator` and the column vectors
`lineX`, `lineY`. -/
theorem Apply_eq_ToMatrix_mul_witness :
    Mesh.Valid lineElement lineMesh ∧
    MassMatrix.construct lineElement 2 lineMesh lineDetJe lineRho 2 = Except.ok lineOperator ∧
    (lineX.rows : Int) = 2 * lineMesh.X.cols ∧ (lineY.rows : Int) = 2 * lineMesh.X.cols ∧
    lineX.cols = 1 ∧ lineY.cols = 1 ∧
    ∃ A, lineOperator.ToMatrix lineElement 2 = Except.ok A ∧
      (lineOperator.Apply lineElement 2 lineX lineY).1 = Except.ok () ∧
      (lineOperator.Apply lineElement 2 lineX lineY).2.rows = lineY.rows ∧
      (lineOperator.Apply lineElement 2 lineX lineY).2.cols = lineY.cols ∧
      ∀ r, r < lineY.rows →
        (lineOperator.Apply lineElement 2 lineX lineY).2.coeff r 0 =
          lineY.coeff r 0 + A.mulCol lineX 0 r :=
  ⟨by decide, rfl, by decide, by decide, rfl, rfl,
    Apply_eq_ToMatrix_mul lineElement 2 lineMesh lineDetJe lineRho 2 lineOperator lineX lineY
      (by decide) rfl (by decide) (by decide) rfl rfl⟩

/-- C2, at two columns. `Apply` reshapes each column of `y` to
`dims x (y.size() / dims)`, where `y.size()` counts both columns: for `lineOperator`
(`dims = 2`, three nodes) and the 6 x 2 matrices `lineX2`, `lineY2` that is a `2 x 6` view
of a column of six coefficients, which Eigen's `reshaped` does not allow. The call ends on
the assertion and `y` keeps its value, while the call on one column succeeds. -/
theorem Apply_two_columns_fails :
    lineOperator.CheckValidState lineElement 2 = Except.ok () ∧
      (lineX2.rows : Int) = lineOperator.InputDimensions ∧
      (lineY2.rows : Int) = lineOperator.InputDimensions ∧ lineX2.cols = lineY2.cols ∧
      lineY2.size / lineOperator.dims.toNat = 6 ∧
      reshapedSizeOk lineY2.rows lineOperator.dims.toNat
        (lineY2.size / lineOperator.dims.toNat) = false ∧
      (lineOperator.Apply lineElement 2 lineX2 lineY2).1 = Except.error Failure.assertion ∧
      (lineOperator.Apply lineElement 2 lineX lineY).1 = Except.ok () :=
  ⟨rfl, by decide, by decide, rfl, by decide, by decide, rfl, rfl⟩

/-- The element step of `Apply` fails only on an assertion. -/
theorem applyElement_failure (el : Element) (M : MassMatrix) (x : MatrixX) (c e : Nat)
    (y : MatrixX) (f : Failure) (hf : (M.applyElement el x c e y).1 = Except.error f) :
    f = Failure.assertion := by
  unfold MassMatrix.applyElement at hf
  simp only [] at hf
  split_ifs at hf
  · exact (Except.error.inj hf).symm
  · exact (Except.error.inj hf).symm

/-- C10. On a valid operator, `Apply(x, y)` fails with an invalid-argument failure if and
only if `x.rows() != dims * #nodes` or `y.rows() != dims * #nodes` or
`x.cols() != y.cols()`; and whenever `Apply` fails, `y` is left exactly as it was. The
operator itself is no output of `Apply`, a `const` method: `Me` and `dims` stay as they
were. -/
theorem Apply_fails_iff (el : Element) (Q : Int) (M : MassMatrix) (x y : MatrixX)
    (hv : M.CheckValidState el Q = Except.ok ()) :
    ((M.Apply el Q x y).1 = Except.error Failure.invalidArgument ↔
        ((x.rows : Int) ≠ M.dims * M.mesh.X.cols ∨ (y.rows : Int) ≠ M.dims * M.mesh.X.cols ∨
          x.cols ≠ y.cols)) ∧
      ∀ f, (M.Apply el Q x y).1 = Except.error f → (M.Apply el Q x y).2 = y := by
  unfold MassMatrix.Apply
  rw [hv]
  simp only [MassMatrix.InputDimensions]
  by_cases hcond : (x.rows : Int) ≠ M.dims * M.mesh.X.cols ∨
      (y.rows : Int) ≠ M.dims * M.mesh.X.cols ∨ x.cols ≠ y.cols
  · rw [if_pos hcond]
    exact ⟨⟨fun _ => hcond, fun _ => rfl⟩, fun _ _ => rfl⟩
  · rw [if_neg hcond]
    have hkind : ∀ f, (forLoop y.cols
        (fun c y => forLoop M.mesh.E.cols (fun e y => M.applyElement el x c e y) y) y).1 =
          Except.error f → f = Failure.assertion := by
      intro f hf
      refine forLoop_failure _ (fun f => f = Failure.assertion) ?_ _ _ f hf
      intro c s f' hf'
      refine forLoop_failure _ (fun f => f = Failure.assertion) ?_ _ _ f' hf'
      intro e s' f2 hf2
      exact applyElement_failure el M x c e s' f2 hf2
    refine ⟨⟨fun h => ?_, fun h => absurd h hcond⟩, ?_⟩
    · have := hkind _ h
      cases this
    · intro f hf
      by_cases hgood : reshapedSizeOk y.rows M.dims.toNat (y.size / M.dims.toNat) = true ∧
          reshapedSizeOk x.rows M.dims.toNat (x.size / M.dims.toNat) = true
      · rw [applyLoops_ok el M x y hgood.1 hgood.2] at hf
        cases hf
      · exact applyLoops_stuck el M x y hgood _ _

/-- The statement of `Apply_fails_iff` on `lineOperator`, for an `x` one row short. -/
theorem Apply_fails_iff_witness :
    lineOperator.CheckValidState lineElement 2 = Except.ok () ∧
    (((lineOperator.Apply lineElement 2 shortX lineY).1 =
          Except.error Failure.invalidArgument ↔
        ((shortX.rows : Int) ≠ lineOperator.dims * lineOperator.mesh.X.cols ∨
          (lineY.rows : Int) ≠ lineOperator.dims * lineOperator.mesh.X.cols ∨
          shortX.cols ≠ lineY.cols)) ∧
      ∀ f, (lineOperator.Apply lineElement 2 shortX lineY).1 = Except.error f →
        (lineOperator.Apply lineElement 2 shortX lineY).2 = lineY) :=
  ⟨rfl, Apply_fails_iff lineElement 2 lineOperator shortX lineY rfl⟩


/-! ## Recomputation -/

/-- C11. Recompute atomicity: when `rho` is not of shape `#quadrature points x #elements`
or the state check fails, `ComputeElementMassMatrices(rho)` fails with an
invalid-argument failure and the operator, `Me` and `dims` included, is exactly what it
was before the call; and whatever the failure, a failed call leaves the operator as it
was. -/
theorem ComputeElementMassMatrices_atomic (el : Element) (Q : Int) (rho : MatrixX)
    (M : MassMatrix)
    (h : ¬ (rho.rows = (el.QuadratureType Q).kPoints ∧ rho.cols = M.mesh.E.cols) ∨
      M.CheckValidState el Q ≠ Except.ok ()) :
    (M.ComputeElementMassMatrices el Q rho).1 = Except.error Failure.invalidArgument ∧
      (M.ComputeElementMassMatrices el Q rho).2.Me = M.Me ∧
      (M.ComputeElementMassMatrices el Q rho).2.dims = M.dims ∧
      (M.ComputeElementMassMatrices el Q rho).2 = M ∧
      ∀ rho' f, (M.ComputeElementMassMatrices el Q rho').1 = Except.error f →
        (M.ComputeElementMassMatrices el Q rho').2 = M := by
  have hall : ∀ rho' f, (M.ComputeElementMassMatrices el Q rho').1 = Except.error f →
      (M.ComputeElementMassMatrices el Q rho').2 = M := by
    intro rho' f hf
    rw [ComputeElementMassMatrices_eq] at hf ⊢
    by_cases hc : ((M.detJe.rows = (el.QuadratureType Q).kPoints ∧
        M.detJe.cols = M.mesh.E.cols) ∧ 1 ≤ M.dims) ∧
        (rho'.cols = M.mesh.E.cols ∧ rho'.rows = (el.QuadratureType Q).kPoints)
    · rw [if_pos hc] at hf
      cases hf
    · rw [if_neg hc]
  have hfail : (M.ComputeElementMassMatrices el Q rho).1 =
      Except.error Failure.invalidArgument := by
    rw [ComputeElementMassMatrices_eq, if_neg]
    rintro ⟨h1, h2⟩
    rcases h with h | h
    · exact h ⟨h2.2, h2.1⟩
    · exact h ((CheckValidState_ok_iff el Q M).mpr h1)
  have hM := hall rho _ hfail
  exact ⟨hfail, by rw [hM], by rw [hM], hM, hall⟩

/-- The statement of `ComputeElementMassMatrices_atomic` on `lineOperator` and a density
with a row too few. -/
theorem ComputeElementMassMatrices_atomic_witness :
    (¬ (shortRho.rows = (lineElement.QuadratureType 2).kPoints ∧
          shortRho.cols = lineOperator.mesh.E.cols) ∨
        lineOperator.CheckValidState lineElement 2 ≠ Except.ok ()) ∧
    ((lineOperator.ComputeElementMassMatrices lineElement 2 shortRho).1 =
        Except.error Failure.invalidArgument ∧
      (lineOperator.ComputeElementMassMatrices lineElement 2 shortRho).2.Me =
        lineOperator.Me ∧
      (lineOperator.ComputeElementMassMatrices lineElement 2 shortRho).2.dims =
        lineOperator.dims ∧
      (lineOperator.ComputeElementMassMatrices lineElement 2 shortRho).2 = lineOperator ∧
      ∀ rho' f, (lineOperator.ComputeElementMassMatrices lineElement 2 rho').1 =
          Except.error f →
        (lineOperator.ComputeElementMassMatrices lineElement 2 rho').2 = lineOperator) :=
  ⟨Or.inl (by decide),
    ComputeElementMassMatrices_atomic lineElement 2 shortRho lineOperator
      (Or.inl (by decide))⟩

/-- C12, as stated, fails: on `zeroDimsOperator`, whose `dims` is `0`, the state check
throws, so `ComputeElementMassMatrices(lineRho)` with the correctly shaped `lineRho`
leaves `Me` as it was; with an empty matrix for the former content of `Me` the resulting
`Me` has no row, with the former content of `zeroDimsOperator` it has two, so the
resulting `Me` depends on the content of `Me` before the call. -/
theorem zeroDims_recomputation_counterexample :
    (lineRho.rows = (lineElement.QuadratureType 2).kPoints ∧
      lineRho.cols = zeroDimsOperator.mesh.E.cols) ∧
    (zeroDimsOperator.ComputeElementMassMatrices lineElement 2 lineRho).1 =
      Except.error Failure.invalidArgument ∧
    ({ zeroDimsOperator with Me := MatrixX.Zero 0 0 }.ComputeElementMassMatrices
        lineElement 2 lineRho).2.Me.rows = 0 ∧
    (zeroDimsOperator.ComputeElementMassMatrices lineElement 2 lineRho).2.Me.rows = 2 ∧
    ({ zeroDimsOperator with Me := MatrixX.Zero 0 0 }.ComputeElementMassMatrices
        lineElement 2 lineRho).2.Me ≠
      (zeroDimsOperator.ComputeElementMassMatrices lineElement 2 lineRho).2.Me :=
  ⟨by decide, rfl, rfl, rfl, fun h => absurd (congrArg MatrixX.rows h) (by decide)⟩

/-- C12, amended. Idempotence of recomputation: for every operator state and every
correctly shaped density `rho`, a second `ComputeElementMassMatrices(rho)` has the
outcome of the first and leaves the same operator, hence the same `Me`, and the outcome
of a call does not depend on the content `Me'` of `Me` before the call; on a state that
passes the state check the call succeeds and the `Me` it leaves does not depend on the
content of `Me` before the call. -/
theorem ComputeElementMassMatrices_idempotent (el : Element) (Q : Int) (rho : MatrixX)
    (M : MassMatrix) (Me' : MatrixX)
    (hrho : rho.rows = (el.QuadratureType Q).kPoints ∧ rho.cols = M.mesh.E.cols) :
    (M.ComputeElementMassMatrices el Q rho).2.ComputeElementMassMatrices el Q rho =
        M.ComputeElementMassMatrices el Q rho ∧
      ({ M with Me := Me' }.ComputeElementMassMatrices el Q rho).1 =
        (M.ComputeElementMassMatrices el Q rho).1 ∧
      (M.CheckValidState el Q = Except.ok () →
        (M.ComputeElementMassMatrices el Q rho).1 = Except.ok () ∧
        ({ M with Me := Me' }.ComputeElementMassMatrices el Q rho).2.Me =
          (M.ComputeElementMassMatrices el Q rho).2.Me) := by
  refine ⟨?_, ?_, ?_⟩
  · rw [ComputeElementMassMatrices_eq el Q rho M]
    split_ifs with hc
    · simp only []
      rw [ComputeElementMassMatrices_eq, if_pos hc]
    · simp only []
      rw [ComputeElementMassMatrices_eq, if_neg hc]
  · rw [ComputeElementMassMatrices_eq, ComputeElementMassMatrices_eq]
    split_ifs <;> rfl
  · intro hv
    have hc := (CheckValidState_ok_iff el Q M).mp hv
    rw [ComputeElementMassMatrices_eq, ComputeElementMassMatrices_eq,
      if_pos ⟨hc, hrho.2, hrho.1⟩, if_pos ⟨hc, hrho.2, hrho.1⟩]
    exact ⟨rfl, rfl⟩

/-- The statement of `ComputeElementMassMatrices_idempotent` on `lineOperator`, with an
empty matrix for the former content of `Me`. -/
theorem ComputeElementMassMatrices_idempotent_witness :
    (lineRho.rows = (lineElement.QuadratureType 2).kPoints ∧
      lineRho.cols = lineOperator.mesh.E.cols) ∧
    lineOperator.CheckValidState lineElement 2 = Except.ok () ∧
    ((lineOperator.ComputeElementMassMatrices lineElement 2 lineRho).2.ComputeElementMassMatrices
          lineElement 2 lineRho =
        lineOperator.ComputeElementMassMatrices lineElement 2 lineRho ∧
      ({ lineOperator with Me := MatrixX.Zero 0 0 }.ComputeElementMassMatrices
          lineElement 2 lineRho).1 =
        (lineOperator.ComputeElementMassMatrices lineElement 2 lineRho).1 ∧
      (lineOperator.CheckValidState lineElement 2 = Except.ok () →
        (lineOperator.ComputeElementMassMatrices lineElement 2 lineRho).1 = Except.ok () ∧
        ({ lineOperator with Me := MatrixX.Zero 0 0 }.ComputeElementMassMatrices
            lineElement 2 lineRho).2.Me =
          (lineOperator.ComputeElementMassMatrices lineElement 2 lineRho).2.Me)) :=
  ⟨by decide, rfl,
    ComputeElementMassMatrices_idempotent lineElement 2 lineRho lineOperator
      (MatrixX.Zero 0 0) (by decide)⟩


/-! ## `dims < 1` -/

/-- With `dims < 1` the state check throws `std::invalid_argument`, and so do the three
operations that begin with it. -/
theorem dims_lt_one_rejected (el : Element) (Q : Int) (M : MassMatrix) (rho x y : MatrixX)
    (hd : M.dims < 1) :
    M.CheckValidState el Q = Except.error Failure.invalidArgument ∧
      (M.ComputeElementMassMatrices el Q rho).1 = Except.error Failure.invalidArgument ∧
      (M.Apply el Q x y).1 = Except.error Failure.invalidArgument ∧
      M.ToMatrix el Q = Except.error Failure.invalidArgument := by
  have hv : M.CheckValidState el Q = Except.error Failure.invalidArgument := by
    rcases CheckValidState_cases el Q M with h | h
    · have := ((CheckValidState_ok_iff el Q M).mp h).2
      omega
    · exact h
  refine ⟨hv, ?_, ?_, ?_⟩
  · unfold MassMatrix.ComputeElementMassMatrices
    rw [hv]
  · unfold MassMatrix.Apply
    rw [hv]
  · unfold MassMatrix.ToMatrix
    rw [hv]

/-- The lumping never throws `std::invalid_argument`: it has no state check. -/
theorem ToLumpedMasses_no_invalidArgument (el : Element) (M : MassMatrix) :
    M.ToLumpedMasses el ≠ Except.error Failure.invalidArgument := by
  unfold MassMatrix.ToLumpedMasses
  split_ifs
  · intro h
    cases h
  · intro h
    cases h

/-- C13, at `dims = 0`. On `zeroDimsOperator`, the state of `lineOperator` with `dims`
set to `0`, `ComputeElementMassMatrices`, `Apply` and `ToMatrix` fail with an
invalid-argument failure, while `ToLumpedMasses`, which does not call `CheckValidState`,
returns a result: the empty vector. -/
theorem ToLumpedMasses_accepts_zero_dims :
    zeroDimsOperator.dims < 1 ∧
      (zeroDimsOperator.ComputeElementMassMatrices lineElement 2 lineRho).1 =
        Except.error Failure.invalidArgument ∧
      (zeroDimsOperator.Apply lineElement 2 lineX lineY).1 =
        Except.error Failure.invalidArgument ∧
      zeroDimsOperator.ToMatrix lineElement 2 = Except.error Failure.invalidArgument ∧
      ∃ m, zeroDimsOperator.ToLumpedMasses lineElement = Except.ok m ∧ m.size = 0 :=
  ⟨by decide, rfl, rfl, rfl, ⟨_, rfl, rfl⟩⟩

/-! ## The invariant of `Me` -/

/-- The assembled element mass matrices satisfy the invariant, whatever the density. -/
theorem MeInvariant_elementMassMatrices (el : Element) (Q : Int) (rho : MatrixX)
    (M : MassMatrix) :
    MassMatrix.MeInvariant el
      { M with Me := MassMatrix.elementMassMatrices el Q rho M.detJe M.mesh.E.cols } := by
  have hs := elementMassMatrices_shape el Q rho M.detJe M.mesh.E.cols
  refine ⟨hs.1, hs.2, ?_⟩
  intro e he i hi j hj
  show (MassMatrix.elementMassMatrices el Q rho M.detJe M.mesh.E.cols).coeff i _ =
    (MassMatrix.elementMassMatrices el Q rho M.detJe M.mesh.E.cols).coeff j _
  rw [elementMassMatrices_block el Q rho M.detJe M.mesh.E.cols e i j he hi hj,
    elementMassMatrices_block el Q rho M.detJe M.mesh.E.cols e j i he hj hi]
  exact massBlockFormula_symm el Q rho M.detJe e i j

/-- A call keeps the mesh and the invariant. -/
theorem MeInvariant_afterCall (el : Element) (Q : Int) (M : MassMatrix)
    (c : MassMatrix.Call) (h : MassMatrix.MeInvariant el M) :
    (M.afterCall el Q c).mesh = M.mesh ∧ MassMatrix.MeInvariant el (M.afterCall el Q c) := by
  cases c with
  | computeElementMassMatrices rho =>
    show (M.ComputeElementMassMatrices el Q rho).2.mesh = M.mesh ∧
      MassMatrix.MeInvariant el (M.ComputeElementMassMatrices el Q rho).2
    rw [ComputeElementMassMatrices_eq]
    split_ifs
    · exact ⟨rfl, MeInvariant_elementMassMatrices el Q rho M⟩
    · exact ⟨rfl, h⟩
  | apply x y => exact ⟨rfl, h⟩
  | toMatrix => exact ⟨rfl, h⟩
  | toLumpedMasses => exact ⟨rfl, h⟩

/-- A sequence of calls keeps the mesh and the invariant. -/
theorem MeInvariant_afterCalls (el : Element) (Q : Int) (calls : List MassMatrix.Call)
    (M : MassMatrix) (h : MassMatrix.MeInvariant el M) :
    (M.afterCalls el Q calls).mesh = M.mesh ∧
      MassMatrix.MeInvariant el (M.afterCalls el Q calls) := by
  induction calls generalizing M with
  | nil => exact ⟨rfl, h⟩
  | cons c cs ih =>
    have h1 := MeInvariant_afterCall el Q M c h
    have h2 := ih (M.afterCall el Q c) h1.2
    exact ⟨h2.1.trans h1.1, h2.2⟩

/-- C20. State invariant: after a successful construction and after any sequence of
successful or failed `ComputeElementMassMatrices`, `Apply`, `ToMatrix` and
`ToLumpedMasses` calls, `Me` has shape `#element nodes x (#element nodes * #elements)`,
every block is symmetric, `Me(i, e*n + j) = Me(j, e*n + i)`, the block of element `e`
occupies the columns `e*n + j` with `j < n`, which are columns of `Me`, and a column of
the block of `e` is no column of the block of another element. -/
theorem construct_MeInvariant (el : Element) (Q : Int) (mesh : Mesh) (detJe rho : MatrixX)
    (dims : Int) (M : MassMatrix) (calls : List MassMatrix.Call)
    (h : MassMatrix.construct el Q mesh detJe rho dims = Except.ok M) :
    (M.afterCalls el Q calls).mesh = mesh ∧
      (M.afterCalls el Q calls).Me.rows = el.kNodes ∧
      (M.afterCalls el Q calls).Me.cols = el.kNodes * mesh.E.cols ∧
      (∀ e, e < mesh.E.cols → ∀ i, i < el.kNodes → ∀ j, j < el.kNodes →
        (M.afterCalls el Q calls).block el e i j = (M.afterCalls el Q calls).block el e j i) ∧
      (∀ e, e < mesh.E.cols → ∀ j, j < el.kNodes →
        e * el.kNodes + j < (M.afterCalls el Q calls).Me.cols) ∧
      ∀ e e' j j', j < el.kNodes → j' < el.kNodes →
        e * el.kNodes + j = e' * el.kNodes + j' → e = e' ∧ j = j' := by
  obtain ⟨_, hM⟩ := construct_ok el Q mesh detJe rho dims M h
  have hm : M.mesh = mesh := by rw [hM]
  have h0 : MassMatrix.MeInvariant el M := by
    rw [hM]
    exact MeInvariant_elementMassMatrices el Q rho
      { mesh := mesh, detJe := detJe, Me := MatrixX.Zero 0 0, dims := dims }
  obtain ⟨h1, h2, h3, h4⟩ := MeInvariant_afterCalls el Q calls M h0
  rw [hm] at h1
  rw [h1] at h3 h4
  refine ⟨h1, h2, h3, h4, ?_, ?_⟩
  · intro e he j hj
    rw [h3]
    have := dof_lt el.kNodes mesh.E.cols e j he hj
    rw [Nat.mul_comm e]
    exact this
  · intro e e' j j' hj hj' heq
    rw [Nat.mul_comm e, Nat.mul_comm e'] at heq
    exact (dof_inj el.kNodes e e' j j' hj hj').mp heq

/-- The statement of `construct_MeInvariant` on `lineOperator` and the calls `lineCalls`. -/
theorem construct_MeInvariant_witness :
    MassMatrix.construct lineElement 2 lineMesh lineDetJe lineRho 2 = Except.ok lineOperator ∧
    ((lineOperator.afterCalls lineElement 2 lineCalls).mesh = lineMesh ∧
      (lineOperator.afterCalls lineElement 2 lineCalls).Me.rows = lineElement.kNodes ∧
      (lineOperator.afterCalls lineElement 2 lineCalls).Me.cols =
        lineElement.kNodes * lineMesh.E.cols ∧
      (∀ e, e < lineMesh.E.cols → ∀ i, i < lineElement.kNodes → ∀ j, j < lineElement.kNodes →
        (lineOperator.afterCalls lineElement 2 lineCalls).block lineElement e i j =
          (lineOperator.afterCalls lineElement 2 lineCalls).block lineElement e j i) ∧
      (∀ e, e < lineMesh.E.cols → ∀ j, j < lineElement.kNodes →
        e * lineElement.kNodes + j < (lineOperator.afterCalls lineElement 2 lineCalls).Me.cols) ∧
      ∀ e e' j j', j < lineElement.kNodes → j' < lineElement.kNodes →
        e * lineElement.kNodes + j = e' * lineElement.kNodes + j' → e = e' ∧ j = j') :=
  ⟨rfl, construct_MeInvariant lineElement 2 lineMesh lineDetJe lineRho 2 lineOperator
    lineCalls rfl⟩


/-! ## `IntegratedShapeFunctions` and `ShapeFunctionsAt` -/

/-- A loop that assigns column `i` in iteration `i`: after `n` iterations the columns
below `n` are set. -/
theorem setCol_loop (v : Nat → Nat → Scalar) (Z : MatrixX) (r p n : Nat) :
    (forEach n (fun i N => N.setCol i (v i)) Z).coeff r p =
      if p < n then v p r else Z.coeff r p := by
  induction n with
  | zero => simp [forEach]
  | succ n ih =>
    rw [forEach]
    simp only [MatrixX.setCol] at ih ⊢
    by_cases h : p = n
    · subst h; simp
    · rw [if_neg h, ih]
      by_cases h2 : p < n
      · rw [if_pos h2, if_pos (Nat.lt_succ_of_lt h2)]
      · rw [if_neg h2, if_neg (by omega)]

/-- A loop of column assignments keeps the shape. -/
theorem setCol_loop_shape (v : Nat → Nat → Scalar) (Z : MatrixX) (n : Nat) :
    (forEach n (fun i N => N.setCol i (v i)) Z).rows = Z.rows ∧
      (forEach n (fun i N => N.setCol i (v i)) Z).cols = Z.cols := by
  constructor
  · refine forEach_unchanged MatrixX.rows _ ?_ _ _
    intro i s
    rfl
  · refine forEach_unchanged MatrixX.cols _ ?_ _ _
    intro i s
    rfl

/-- The matrix of `ShapeFunctions` has one row per node and one column per quadrature
point. -/
theorem ShapeFunctions_shape (el : Element) (Q : Int) :
    (ShapeFunctions el Q).rows = el.kNodes ∧
      (ShapeFunctions el Q).cols = (el.QuadratureType Q).kPoints := by
  unfold ShapeFunctions
  exact setCol_loop_shape _ _ _

/-- C14. `IntegratedShapeFunctions(mesh, detJe)`: either `detJe` has shape
`#quadrature points x #elements` and the result is the `#element nodes x #elements`
matrix whose entry `(i, e)` is the sum over `g` of `weight_g * detJe(g,e) * N_i(xi_g)`,
or `detJe` has another shape and the call fails with an invalid-argument failure. -/
theorem IntegratedShapeFunctions_spec (el : Element) (Q : Int) (mesh : Mesh)
    (detJe : MatrixX) :
    ((detJe.rows = (el.QuadratureType Q).kPoints ∧ detJe.cols = mesh.E.cols) ∧
        ∃ R, IntegratedShapeFunctions el Q mesh detJe = Except.ok R ∧
          R.rows = el.kNodes ∧ R.cols = mesh.E.cols ∧
          ∀ i, i < el.kNodes → ∀ e, e < mesh.E.cols →
            R.coeff i e =
              ∑ g in Finset.range (el.QuadratureType Q).kPoints,
                (el.QuadratureType Q).weights g * detJe.coeff g e *
                  el.N (quadraturePoint (el.QuadratureType Q) g) i) ∨
      (¬ (detJe.rows = (el.QuadratureType Q).kPoints ∧ detJe.cols = mesh.E.cols) ∧
        IntegratedShapeFunctions el Q mesh detJe = Except.error Failure.invalidArgument) := by
  unfold IntegratedShapeFunctions
  by_cases hs : detJe.rows = (el.QuadratureType Q).kPoints ∧ detJe.cols = mesh.E.cols
  · left
    refine ⟨hs, _, by rw [if_neg (not_not.mpr hs)], ?_, ?_, ?_⟩
    · refine forEach_unchanged MatrixX.rows _ ?_ _ _
      intro e s
      refine forEach_unchanged MatrixX.rows _ ?_ _ _
      intro g s
      rfl
    · refine forEach_unchanged MatrixX.cols _ ?_ _ _
      intro e s
      refine forEach_unchanged MatrixX.cols _ ?_ _ _
      intro g s
      rfl
    · intro i _ e he
      rw [forEach_additive (fun m : MatrixX => m.coeff i e) _
        (fun e' => ∑ g in Finset.range (el.QuadratureType Q).kPoints,
          if e = e' then (el.QuadratureType Q).weights g * detJe.coeff g e' *
            (ShapeFunctions el Q).coeff i g else 0)]
      · simp only [MatrixX.Zero, zero_add]
        rw [Finset.sum_eq_single e]
        · refine Finset.sum_congr rfl (fun g hg => ?_)
          rw [if_pos rfl, ShapeFunctions_coeff el Q i g (Finset.mem_range.mp hg)]
        · intro e' _ hne
          refine Finset.sum_eq_zero (fun g _ => ?_)
          rw [if_neg (fun h => hne h.symm)]
        · intro h
          exact absurd (Finset.mem_range.mpr he) h
      · intro e' s
        refine forEach_additive (fun m : MatrixX => m.coeff i e) _ _ ?_ _ s
        intro g s
        simp only [MatrixX.addCol]
        by_cases h : e = e'
        · rw [if_pos h, if_pos h]
        · rw [if_neg h, if_neg h, add_zero]
  · right
    exact ⟨hs, by simp only [hs, not_false_eq_true, if_true]⟩

/-- C15. `ShapeFunctionsAt<Element>(Xi)` fails with an invalid-argument failure if and
only if `Xi.rows()` differs from `kDims`; otherwise it returns a
`#element nodes x Xi.cols()` matrix whose column `p` is `N(Xi.col(p))` for every `p`.
The overload taking a mesh returns the same with `bXgInReferenceSpace = true`, whatever
the mesh, the element ids and the reference-position solver. -/
theorem ShapeFunctionsAt_spec (el : Element) (Xi : MatrixX) :
    (ShapeFunctionsAt el Xi = Except.error Failure.invalidArgument ↔ Xi.rows ≠ el.kDims) ∧
      ((Xi.rows ≠ el.kDims ∧ ShapeFunctionsAt el Xi = Except.error Failure.invalidArgument) ∨
        (Xi.rows = el.kDims ∧
          ∃ N, ShapeFunctionsAt el Xi = Except.ok N ∧ N.rows = el.kNodes ∧
            N.cols = Xi.cols ∧
            ∀ p, p < Xi.cols → ∀ i, N.coeff i p = el.N (Xi.col p) i)) ∧
      ∀ (ReferencePositions : Mesh → IndexVectorX → MatrixX → MatrixX) (mesh : Mesh)
        (eg : IndexVectorX),
        ShapeFunctionsAtMesh el ReferencePositions mesh eg Xi true = ShapeFunctionsAt el Xi := by
  refine ⟨?_, ?_, fun _ _ _ => rfl⟩
  · unfold ShapeFunctionsAt
    by_cases h : Xi.rows = el.kDims
    · simp [h]
    · simp [h]
  · unfold ShapeFunctionsAt
    by_cases h : Xi.rows = el.kDims
    · right
      refine ⟨h, _, by rw [if_neg (not_not.mpr h)], ?_, ?_, ?_⟩
      · exact (setCol_loop_shape _ _ _).1
      · exact (setCol_loop_shape _ _ _).2
      · intro p hp i
        rw [setCol_loop (fun i => el.N (Xi.col i)), if_pos hp]
    · left
      exact ⟨h, by simp only [ne_eq, h, not_false_eq_true, if_true]⟩


/-! ## `ShapeFunctionMatrix` at the quadrature points -/

/-- A failing loop whose body succeeds on every state of an invariant that moves with the
iteration is the plain loop. -/
theorem forLoop_ok_indexed {σ : Type} (P : Nat → σ → Prop)
    (body : Nat → σ → Except Failure Unit × σ) (g : Nat → σ → σ) (n : Nat)
    (h : ∀ i s, i < n → P i s → body i s = (Except.ok (), g i s) ∧ P (i + 1) (g i s))
    (s : σ) (hs : P 0 s) :
    forLoop n body s = (Except.ok (), forEach n g s) ∧ P n (forEach n g s) := by
  induction n with
  | zero => exact ⟨rfl, hs⟩
  | succ n ih =>
    obtain ⟨h1, h2⟩ := ih (fun i s hi => h i s (Nat.lt_succ_of_lt hi))
    have h3 := h n _ (Nat.lt_succ_self n) h2
    refine ⟨?_, h3.2⟩
    rw [forLoop, h1]
    exact h3.1

/-- A quantity that no iteration below the bound changes is not changed by the loop. -/
theorem forEach_unchanged_lt {σ α : Type} (π : σ → α) (body : Nat → σ → σ) (n : Nat)
    (h : ∀ i, i < n → ∀ s, π (body i s) = π s) (s : σ) :
    π (forEach n body s) = π s := by
  induction n with
  | zero => rfl
  | succ n ih =>
    rw [forEach, h n (Nat.lt_succ_self n), ih (fun i hi => h i (Nat.lt_succ_of_lt hi))]

/-- A quantity that one iteration sets and the others leave alone has the value set. -/
theorem forEach_hit_once {σ α : Type} (π : σ → α) (body : Nat → σ → σ) (n i0 : Nat) (w : α)
    (hn : i0 < n) (h0 : ∀ s, π (body i0 s) = w)
    (hne : ∀ i, i < n → i ≠ i0 → ∀ s, π (body i s) = π s) (s : σ) :
    π (forEach n body s) = w := by
  induction n with
  | zero => omega
  | succ n ih =>
    rw [forEach]
    by_cases h : n = i0
    · subst h
      exact h0 _
    · rw [hne n (Nat.lt_succ_self n) h]
      exact ih (by omega) (fun i hi => hne i (Nat.lt_succ_of_lt hi))

/-- Rows of distinct (element, quadrature point) pairs are distinct. -/
theorem quadRow_inj (kP e e' g g' : Nat) (hg : g < kP) (hg' : g' < kP) :
    e * kP + g = e' * kP + g' ↔ e = e' ∧ g = g' := by
  rw [Nat.mul_comm e, Nat.mul_comm e']
  exact dof_inj kP e e' g g' hg hg'

/-- On a mesh with valid connectivity and pairwise distinct nodes in every element, no
`insert` of `ShapeFunctionMatrix` fails. -/
theorem ShapeFunctionMatrix_fill_ok (el : Element) (Q : Int) (mesh : Mesh)
    (hvalid : Mesh.Valid el mesh) (hdist : Mesh.DistinctNodes el mesh) :
    ShapeFunctionMatrix.fill el Q mesh
        (CSRMatrix.Zero ((el.QuadratureType Q).kPoints * mesh.E.cols) mesh.X.cols) =
      (Except.ok (), ShapeFunctionMatrix.filled el Q mesh
        (CSRMatrix.Zero ((el.QuadratureType Q).kPoints * mesh.E.cols) mesh.X.cols)) := by
  unfold ShapeFunctionMatrix.fill ShapeFunctionMatrix.filled
  simp only [(ShapeFunctions_shape el Q).1, (ShapeFunctions_shape el Q).2]
  refine (forLoop_ok_indexed
    (fun e (s : CSRMatrix) => s.rows = (el.QuadratureType Q).kPoints * mesh.E.cols ∧
      s.cols = mesh.X.cols ∧
      ∀ r c, s.stored r c = true → r < e * (el.QuadratureType Q).kPoints)
    _ _ _ ?_ _ ⟨rfl, rfl, fun r c h => by cases h⟩).1
  intro e s he ⟨hr, hc, hst⟩
  have h2 := forLoop_ok_indexed
    (fun g (s : CSRMatrix) => s.rows = (el.QuadratureType Q).kPoints * mesh.E.cols ∧
      s.cols = mesh.X.cols ∧
      ∀ r c, s.stored r c = true → r < e * (el.QuadratureType Q).kPoints + g)
    (fun g N => forLoop el.kNodes
      (fun i N => N.insert (e * (el.QuadratureType Q).kPoints + g) (mesh.E.coeff i e)
        ((ShapeFunctions el Q).coeff i g)) N)
    (fun g N => forEach el.kNodes
      (fun i N => N.inserted (e * (el.QuadratureType Q).kPoints + g) (mesh.E.coeff i e)
        ((ShapeFunctions el Q).coeff i g)) N)
    (el.QuadratureType Q).kPoints ?_ s ⟨hr, hc, hst⟩
  · refine ⟨h2.1, h2.2.1, h2.2.2.1, ?_⟩
    intro r c h
    have := h2.2.2.2 r c h
    rw [Nat.succ_mul]
    exact this
  intro g s hg ⟨hr, hc, hst⟩
  have h3 := forLoop_ok_indexed
    (fun i (s : CSRMatrix) => s.rows = (el.QuadratureType Q).kPoints * mesh.E.cols ∧
      s.cols = mesh.X.cols ∧
      ∀ r c, s.stored r c = true → r < e * (el.QuadratureType Q).kPoints + g ∨
        (r = e * (el.QuadratureType Q).kPoints + g ∧ ∃ i', i' < i ∧ c = mesh.E.coeff i' e))
    (fun i N => N.insert (e * (el.QuadratureType Q).kPoints + g) (mesh.E.coeff i e)
        ((ShapeFunctions el Q).coeff i g))
    (fun i N => N.inserted (e * (el.QuadratureType Q).kPoints + g) (mesh.E.coeff i e)
        ((ShapeFunctions el Q).coeff i g))
    el.kNodes ?_ s ⟨hr, hc, fun r c h => Or.inl (hst r c h)⟩
  · refine ⟨h3.1, h3.2.1, h3.2.2.1, ?_⟩
    intro r c h
    rcases h3.2.2.2 r c h with h' | ⟨h', _⟩
    · omega
    · omega
  intro i s hi ⟨hr, hc, hst⟩
  have hrow : e * (el.QuadratureType Q).kPoints + g < s.rows := by
    rw [hr, Nat.mul_comm e]
    exact dof_lt _ _ e g he hg
  have hcol : mesh.E.coeff i e < s.cols := by
    rw [hc]
    exact hvalid.2 i hi e he
  have hnot : s.stored (e * (el.QuadratureType Q).kPoints + g) (mesh.E.coeff i e) ≠ true := by
    intro h
    rcases hst _ _ h with h' | ⟨_, i', hi', heq⟩
    · omega
    · have := hdist e he i hi i' (by omega) heq
      omega
  refine ⟨?_, hr, hc, ?_⟩
  · show s.insert (e * (el.QuadratureType Q).kPoints + g) (mesh.E.coeff i e)
        ((ShapeFunctions el Q).coeff i g) =
      (Except.ok (), s.inserted (e * (el.QuadratureType Q).kPoints + g) (mesh.E.coeff i e)
        ((ShapeFunctions el Q).coeff i g))
    unfold CSRMatrix.insert
    rw [if_neg (not_not.mpr ⟨hrow, hcol⟩), if_neg hnot]
  · intro r c h
    simp only [CSRMatrix.inserted] at h
    by_cases hhit : r = e * (el.QuadratureType Q).kPoints + g ∧ c = mesh.E.coeff i e
    · exact Or.inr ⟨hhit.1, i, Nat.lt_succ_self i, hhit.2⟩
    · rw [if_neg hhit] at h
      rcases hst r c h with h' | ⟨h', i', hi', heq⟩
      · exact Or.inl h'
      · exact Or.inr ⟨h', i', Nat.lt_succ_of_lt hi', heq⟩


/-- The filled matrix keeps the shape it starts with. -/
theorem ShapeFunctionMatrix_filled_shape (el : Element) (Q : Int) (mesh : Mesh)
    (N : CSRMatrix) :
    (ShapeFunctionMatrix.filled el Q mesh N).rows = N.rows ∧
      (ShapeFunctionMatrix.filled el Q mesh N).cols = N.cols := by
  unfold ShapeFunctionMatrix.filled
  constructor
  · refine forEach_unchanged CSRMatrix.rows _ ?_ _ _
    intro e s
    refine forEach_unchanged CSRMatrix.rows _ ?_ _ _
    intro g s
    refine forEach_unchanged CSRMatrix.rows _ ?_ _ _
    intro i s
    rfl
  · refine forEach_unchanged CSRMatrix.cols _ ?_ _ _
    intro e s
    refine forEach_unchanged CSRMatrix.cols _ ?_ _ _
    intro g s
    refine forEach_unchanged CSRMatrix.cols _ ?_ _ _
    intro i s
    rfl

/-- In the row of element `e` and quadrature point `g`, the column of local node `i`
holds `Ng(i, g)`. -/
theorem ShapeFunctionMatrix_filled_node (el : Element) (Q : Int) (mesh : Mesh)
    (hdist : Mesh.DistinctNodes el mesh) (N : CSRMatrix) (e g i : Nat)
    (he : e < mesh.E.cols) (hg : g < (el.QuadratureType Q).kPoints) (hi : i < el.kNodes) :
    (ShapeFunctionMatrix.filled el Q mesh N).coeff
        (e * (el.QuadratureType Q).kPoints + g) (mesh.E.coeff i e) =
      (ShapeFunctions el Q).coeff i g := by
  unfold ShapeFunctionMatrix.filled
  refine forEach_hit_once
    (fun s : CSRMatrix => s.coeff (e * (el.QuadratureType Q).kPoints + g) (mesh.E.coeff i e))
    _ _ e _ he ?_ ?_ N
  · intro s
    refine forEach_hit_once
      (fun s : CSRMatrix => s.coeff (e * (el.QuadratureType Q).kPoints + g) (mesh.E.coeff i e))
      _ _ g _ hg ?_ ?_ s
    · intro s
      refine forEach_hit_once
        (fun s : CSRMatrix =>
          s.coeff (e * (el.QuadratureType Q).kPoints + g) (mesh.E.coeff i e))
        _ _ i _ hi ?_ ?_ s
      · intro s
        simp only [CSRMatrix.inserted, and_self, if_true]
      · intro i' hi' hne s
        simp only [CSRMatrix.inserted]
        rw [if_neg]
        rintro ⟨_, h⟩
        exact hne (hdist e he i hi i' hi' h).symm
    · intro g' hg' hne s
      refine forEach_unchanged_lt
          (fun s : CSRMatrix =>
            s.coeff (e * (el.QuadratureType Q).kPoints + g) (mesh.E.coeff i e)) _ _ ?_ s
      intro i' _ s
      simp only [CSRMatrix.inserted]
      rw [if_neg]
      rintro ⟨h, _⟩
      exact hne ((quadRow_inj _ e e g g' hg hg').mp h).2.symm
  · intro e' _ hne s
    refine forEach_unchanged_lt
          (fun s : CSRMatrix =>
            s.coeff (e * (el.QuadratureType Q).kPoints + g) (mesh.E.coeff i e)) _ _ ?_ s
    intro g' hg' s
    refine forEach_unchanged_lt
          (fun s : CSRMatrix =>
            s.coeff (e * (el.QuadratureType Q).kPoints + g) (mesh.E.coeff i e)) _ _ ?_ s
    intro i' _ s
    simp only [CSRMatrix.inserted]
    rw [if_neg]
    rintro ⟨h, _⟩
    exact hne ((quadRow_inj _ e e' g g' hg hg').mp h).1.symm

/-- In the row of element `e` and quadrature point `g`, a column that is no node of `e`
keeps the coefficient it starts with. -/
theorem ShapeFunctionMatrix_filled_other (el : Element) (Q : Int) (mesh : Mesh)
    (N : CSRMatrix) (e g c : Nat) (hg : g < (el.QuadratureType Q).kPoints)
    (hc : ∀ i, i < el.kNodes → mesh.E.coeff i e ≠ c) :
    (ShapeFunctionMatrix.filled el Q mesh N).coeff
        (e * (el.QuadratureType Q).kPoints + g) c =
      N.coeff (e * (el.QuadratureType Q).kPoints + g) c := by
  unfold ShapeFunctionMatrix.filled
  refine forEach_unchanged_lt
    (fun s : CSRMatrix => s.coeff (e * (el.QuadratureType Q).kPoints + g) c) _ _ ?_ N
  intro e' _ s
  refine forEach_unchanged_lt
    (fun s : CSRMatrix => s.coeff (e * (el.QuadratureType Q).kPoints + g) c) _ _ ?_ s
  intro g' hg' s
  refine forEach_unchanged_lt
    (fun s : CSRMatrix => s.coeff (e * (el.QuadratureType Q).kPoints + g) c) _ _ ?_ s
  intro i' hi' s
  simp only [CSRMatrix.inserted]
  rw [if_neg]
  rintro ⟨h, h'⟩
  have h1 := ((quadRow_inj _ e e' g g' hg hg').mp h).1
  subst h1
  exact hc i' hi' h'.symm

/-- C16. `ShapeFunctionMatrix<Order>(mesh)` has `#elements * #quad points` rows and
`#nodes` columns, with rows in element-major, quadrature-point-minor order: for every
mesh whose elements list pairwise distinct valid nodes, every element `e`, quadrature
point `g` and local node `i`, the entry at row `e * #quadpoints + g` and column `E(i,e)`
equals `N_i(xi_g)`, and every entry of that row in a column that is not a node of
element `e` is zero. -/
theorem ShapeFunctionMatrix_spec (el : Element) (Q : Int) (mesh : Mesh)
    (hvalid : Mesh.Valid el mesh) (hdist : Mesh.DistinctNodes el mesh) :
    ∃ N, ShapeFunctionMatrix el Q mesh = Except.ok N ∧
      N.rows = mesh.E.cols * (el.QuadratureType Q).kPoints ∧ N.cols = mesh.X.cols ∧
      ∀ e, e < mesh.E.cols → ∀ g, g < (el.QuadratureType Q).kPoints →
        (∀ i, i < el.kNodes →
          N.coeff (e * (el.QuadratureType Q).kPoints + g) (mesh.E.coeff i e) =
            el.N (quadraturePoint (el.QuadratureType Q) g) i) ∧
        ∀ c, (∀ i, i < el.kNodes → mesh.E.coeff i e ≠ c) →
          N.coeff (e * (el.QuadratureType Q).kPoints + g) c = 0 := by
  refine ⟨ShapeFunctionMatrix.filled el Q mesh
    (CSRMatrix.Zero ((el.QuadratureType Q).kPoints * mesh.E.cols) mesh.X.cols), ?_, ?_, ?_, ?_⟩
  · unfold ShapeFunctionMatrix
    simp only [(ShapeFunctions_shape el Q).2]
    rw [ShapeFunctionMatrix_fill_ok el Q mesh hvalid hdist]
  · rw [(ShapeFunctionMatrix_filled_shape el Q mesh _).1]
    exact Nat.mul_comm _ _
  · rw [(ShapeFunctionMatrix_filled_shape el Q mesh _).2]
    rfl
  · intro e he g hg
    refine ⟨fun i hi => ?_, fun c hc => ?_⟩
    · rw [ShapeFunctionMatrix_filled_node el Q mesh hdist _ e g i he hg hi,
        ShapeFunctions_coeff el Q i g hg]
    · rw [ShapeFunctionMatrix_filled_other el Q mesh _ e g c hg hc]
      rfl

/-- The statement of `ShapeFunctionMatrix_spec` on `lineMesh` with Simpson's rule. -/
theorem ShapeFunctionMatrix_spec_witness :
    Mesh.Valid lineElement lineMesh ∧ Mesh.DistinctNodes lineElement lineMesh ∧
    ∃ N, ShapeFunctionMatrix lineElement 2 lineMesh = Except.ok N ∧
      N.rows = lineMesh.E.cols * (lineElement.QuadratureType 2).kPoints ∧
      N.cols = lineMesh.X.cols ∧
      ∀ e, e < lineMesh.E.cols → ∀ g, g < (lineElement.QuadratureType 2).kPoints →
        (∀ i, i < lineElement.kNodes →
          N.coeff (e * (lineElement.QuadratureType 2).kPoints + g) (lineMesh.E.coeff i e) =
            lineElement.N (quadraturePoint (lineElement.QuadratureType 2) g) i) ∧
        ∀ c, (∀ i, i < lineElement.kNodes → lineMesh.E.coeff i e ≠ c) →
          N.coeff (e * (lineElement.QuadratureType 2).kPoints + g) c = 0 :=
  ⟨by decide, by decide,
    ShapeFunctionMatrix_spec lineElement 2 lineMesh (by decide) (by decide)⟩


/-! ## The golden value of the linear triangle -/

/-- The three-point rule is exact to degree two. -/
theorem triangleRule_exact : exactToDegreeTwo triangleRule := by
  intro p
  simp only [triangleRule, quadraturePoint, reshapedAt, Finset.sum_range_succ,
    Finset.sum_range_zero, Quadratic.eval, Quadratic.integral]
  norm_num [List.getD]
  ring

/-- C19. Golden value: with `dims = 1`, uniform density 1, a single element with the basis
`N = (1 - xi - eta, xi, eta)` of the linear 2-simplex, `detJe = 1` at every quadrature
point, and a quadrature rule that integrates every polynomial of degree at most two
exactly over the reference triangle, construction succeeds and the element mass block
`Me` is `(1/24) * [[2,1,1],[1,2,1],[1,1,2]]`. -/
theorem golden_triangle_mass (el : Element) (Q : Int) (mesh : Mesh) (detJe : MatrixX)
    (hk : el.kNodes = 3)
    (hN : ∀ xi, el.N xi 0 = 1 - xi 0 - xi 1 ∧ el.N xi 1 = xi 0 ∧ el.N xi 2 = xi 1)
    (hE : mesh.E.cols = 1)
    (hshape : detJe.rows = (el.QuadratureType Q).kPoints ∧ detJe.cols = 1)
    (hdet : ∀ g, g < (el.QuadratureType Q).kPoints → detJe.coeff g 0 = 1)
    (hexact : exactToDegreeTwo (el.QuadratureType Q)) :
    ∃ M, MassMatrix.constructUniform el Q mesh detJe 1 1 = Except.ok M ∧
      M.Me.rows = 3 ∧ M.Me.cols = 3 ∧
      ∀ i, i < 3 → ∀ j, j < 3 → M.Me.coeff i j = goldenTriangleMass i j := by
  have hc : constructible el Q mesh detJe
      (MatrixX.Constant (el.QuadratureType Q).kPoints mesh.E.cols 1) 1 :=
    ⟨⟨hshape.1, by rw [hshape.2, hE]⟩, le_refl _, rfl, rfl⟩
  have hcon : MassMatrix.constructUniform el Q mesh detJe 1 1 = Except.ok
      { mesh := mesh, detJe := detJe,
        Me := MassMatrix.elementMassMatrices el Q
          (MatrixX.Constant (el.QuadratureType Q).kPoints mesh.E.cols 1) detJe mesh.E.cols,
        dims := 1 } := by
    unfold MassMatrix.constructUniform
    rw [construct_eq, if_pos hc]
  have hs := elementMassMatrices_shape el Q
    (MatrixX.Constant (el.QuadratureType Q).kPoints mesh.E.cols 1) detJe mesh.E.cols
  refine ⟨_, hcon, by rw [hs.1, hk], by rw [hs.2, hk, hE], ?_⟩
  intro i hi j hj
  have hb := elementMassMatrices_block el Q
    (MatrixX.Constant (el.QuadratureType Q).kPoints mesh.E.cols 1) detJe mesh.E.cols 0 i j
    (by omega) (by omega) (by omega)
  rw [Nat.zero_mul, Nat.zero_add] at hb
  show (MassMatrix.elementMassMatrices el Q _ detJe mesh.E.cols).coeff i j = _
  rw [hb]
  unfold massBlockFormula
  simp only [MatrixX.Constant]
  have key : ∀ (p : Quadratic),
      (∀ g, el.N (quadraturePoint (el.QuadratureType Q) g) i *
          el.N (quadraturePoint (el.QuadratureType Q) g) j =
        p.eval (quadraturePoint (el.QuadratureType Q) g 0)
          (quadraturePoint (el.QuadratureType Q) g 1)) →
      ∑ g in Finset.range (el.QuadratureType Q).kPoints,
        (el.QuadratureType Q).weights g * 1 * detJe.coeff g 0 *
          el.N (quadraturePoint (el.QuadratureType Q) g) i *
          el.N (quadraturePoint (el.QuadratureType Q) g) j = p.integral := by
    intro p hp
    rw [← hexact p]
    refine Finset.sum_congr rfl (fun g hg => ?_)
    rw [hdet g (Finset.mem_range.mp hg), ← hp g]
    ring
  interval_cases i <;> interval_cases j
  · rw [key ⟨1, -2, -2, 1, 2, 1⟩ (fun g => by
      rw [(hN _).1]; simp only [Quadratic.eval]; ring)]
    norm_num [Quadratic.integral, goldenTriangleMass]
  · rw [key ⟨0, 1, 0, -1, -1, 0⟩ (fun g => by
      rw [(hN _).1, (hN _).2.1]; simp only [Quadratic.eval]; ring)]
    norm_num [Quadratic.integral, goldenTriangleMass]
  · rw [key ⟨0, 0, 1, 0, -1, -1⟩ (fun g => by
      rw [(hN _).1, (hN _).2.2]; simp only [Quadratic.eval]; ring)]
    norm_num [Quadratic.integral, goldenTriangleMass]
  · rw [key ⟨0, 1, 0, -1, -1, 0⟩ (fun g => by
      rw [(hN _).1, (hN _).2.1]; simp only [Quadratic.eval]; ring)]
    norm_num [Quadratic.integral, goldenTriangleMass]
  · rw [key ⟨0, 0, 0, 1, 0, 0⟩ (fun g => by
      rw [(hN _).2.1]; simp only [Quadratic.eval]; ring)]
    norm_num [Quadratic.integral, goldenTriangleMass]
  · rw [key ⟨0, 0, 0, 0, 1, 0⟩ (fun g => by
      rw [(hN _).2.1, (hN _).2.2]; simp only [Quadratic.eval]; ring)]
    norm_num [Quadratic.integral, goldenTriangleMass]
  · rw [key ⟨0, 0, 1, 0, -1, -1⟩ (fun g => by
      rw [(hN _).1, (hN _).2.2]; simp only [Quadratic.eval]; ring)]
    norm_num [Quadratic.integral, goldenTriangleMass]
  · rw [key ⟨0, 0, 0, 0, 1, 0⟩ (fun g => by
      rw [(hN _).2.1, (hN _).2.2]; simp only [Quadratic.eval]; ring)]
    norm_num [Quadratic.integral, goldenTriangleMass]
  · rw [key ⟨0, 0, 0, 0, 0, 1⟩ (fun g => by
      rw [(hN _).2.2]; simp only [Quadratic.eval]; ring)]
    norm_num [Quadratic.integral, goldenTriangleMass]

/-- The statement of `golden_triangle_mass` on `triangleElement` with the three-point
rule, on the reference triangle. -/
theorem golden_triangle_mass_witness :
    triangleElement.kNodes = 3 ∧
    (∀ xi, triangleElement.N xi 0 = 1 - xi 0 - xi 1 ∧ triangleElement.N xi 1 = xi 0 ∧
      triangleElement.N xi 2 = xi 1) ∧
    triangleMesh.E.cols = 1 ∧
    ((MatrixX.Constant 3 1 1).rows = (triangleElement.QuadratureType 2).kPoints ∧
      (MatrixX.Constant 3 1 1).cols = 1) ∧
    (∀ g, g < (triangleElement.QuadratureType 2).kPoints →
      (MatrixX.Constant 3 1 1).coeff g 0 = 1) ∧
    exactToDegreeTwo (triangleElement.QuadratureType 2) ∧
    ∃ M, MassMatrix.constructUniform triangleElement 2 triangleMesh (MatrixX.Constant 3 1 1)
        1 1 = Except.ok M ∧
      M.Me.rows = 3 ∧ M.Me.cols = 3 ∧
      ∀ i, i < 3 → ∀ j, j < 3 → M.Me.coeff i j = goldenTriangleMass i j :=
  ⟨rfl, fun _ => ⟨rfl, rfl, rfl⟩, rfl, ⟨rfl, rfl⟩, fun _ _ => rfl, triangleRule_exact,
    golden_triangle_mass triangleElement 2 triangleMesh (MatrixX.Constant 3 1 1) rfl
      (fun _ => ⟨rfl, rfl, rfl⟩) rfl ⟨rfl, rfl⟩ (fun _ _ => rfl) triangleRule_exact⟩


/-! ## Gradients of the shape functions -/

/-- For an invertible `A`, `exactSolve A B` solves `A * X = B`. -/
theorem exactSolve_mul {n m : Nat} (A : Matrix (Fin n) (Fin n) Scalar)
    (B : Matrix (Fin n) (Fin m) Scalar) (hA : A.det ≠ 0) :
    A * exactSolve A B = B := by
  unfold exactSolve
  rw [Matrix.mul_smul, ← Matrix.mul_assoc, Matrix.mul_adjugate, Matrix.smul_mul,
    Matrix.one_mul, smul_smul, inv_mul_cancel₀ hA, one_smul]

/-- The solution is the inverse of `A` times `B`. -/
theorem exactSolve_eq_inv {n m : Nat} (A : Matrix (Fin n) (Fin n) Scalar)
    (B : Matrix (Fin n) (Fin m) Scalar) :
    exactSolve A B = A⁻¹ * B := by
  unfold exactSolve
  rw [Matrix.inv_def, Ring.inverse_eq_inv', Matrix.smul_mul]

/-- The Gram matrix of a matrix of full column rank is invertible. -/
theorem gram_det_ne_zero {m n : Nat} (J : Matrix (Fin m) (Fin n) Scalar)
    (hJ : Function.Injective J.mulVec) : (J.transpose * J).det ≠ 0 := by
  intro hdet
  obtain ⟨v, hv, hv0⟩ := Matrix.exists_mulVec_eq_zero_iff.mpr hdet
  apply hv
  apply hJ
  rw [Matrix.mulVec_zero]
  have h1 : Matrix.dotProduct (J.mulVec v) (J.mulVec v) = 0 := by
    rw [Matrix.dotProduct_mulVec, ← Matrix.mulVec_transpose, Matrix.mulVec_mulVec, hv0,
      Matrix.zero_dotProduct]
  exact Matrix.dotProduct_self_eq_zero.mp h1


/-- C17. Square gradient transform: when `d_out = d_in` and the Jacobian
`J = X_e * GradN_affine(xi)` is invertible, with inverse `Jinv`, the matrix `G` returned by
`ShapeFunctionGradients` satisfies `G * J = GradN(xi)`, equivalently
`J^T * G^T = GradN(xi)^T` and `G = GradN(xi) * J^{-1}`. `GradN_affine` is the gradient of
the element's affine counterpart, the element itself when it is affine. -/
theorem ShapeFunctionGradients_square (el affine : Element) (kOutputDims : Nat)
    (Xi : Nat → Scalar) (X : Matrix (Fin kOutputDims) (Fin affine.kNodes) Scalar)
    (Jinv : Matrix (Fin el.kDims) (Fin kOutputDims) Scalar)
    (hsquare : el.kDims = kOutputDims)
    (hJ : ShapeFunctionGradients.J el affine kOutputDims Xi X * Jinv = 1)
    (hJ' : Jinv * ShapeFunctionGradients.J el affine kOutputDims Xi X = 1) :
    ShapeFunctionGradients el affine kOutputDims Xi X *
          ShapeFunctionGradients.J el affine kOutputDims Xi X = el.gradN el.kDims Xi ∧
      (ShapeFunctionGradients.J el affine kOutputDims Xi X).transpose *
          (ShapeFunctionGradients el affine kOutputDims Xi X).transpose =
        (el.gradN el.kDims Xi).transpose ∧
      ShapeFunctionGradients el affine kOutputDims Xi X = el.gradN el.kDims Xi * Jinv := by
  subst hsquare
  have hdet : (ShapeFunctionGradients.J el affine el.kDims Xi X).transpose.det ≠ 0 := by
    rw [Matrix.det_transpose]
    intro h0
    have h1 := congrArg Matrix.det hJ
    rw [Matrix.det_mul, h0, zero_mul, Matrix.det_one] at h1
    exact zero_ne_one h1
  have hG : ShapeFunctionGradients el affine el.kDims Xi X =
      (exactSolve (ShapeFunctionGradients.J el affine el.kDims Xi X).transpose
        (el.gradN el.kDims Xi).transpose).transpose := by
    unfold ShapeFunctionGradients
    rw [dif_pos rfl]
    rfl
  have hT : (ShapeFunctionGradients.J el affine el.kDims Xi X).transpose *
      (ShapeFunctionGradients el affine el.kDims Xi X).transpose =
      (el.gradN el.kDims Xi).transpose := by
    rw [hG, Matrix.transpose_transpose]
    exact exactSolve_mul _ _ hdet
  have hGJ : ShapeFunctionGradients el affine el.kDims Xi X *
      ShapeFunctionGradients.J el affine el.kDims Xi X = el.gradN el.kDims Xi := by
    have := congrArg Matrix.transpose hT
    rw [Matrix.transpose_mul, Matrix.transpose_transpose, Matrix.transpose_transpose,
      Matrix.transpose_transpose] at this
    exact this
  refine ⟨hGJ, hT, ?_⟩
  rw [← hGJ, Matrix.mul_assoc, hJ, Matrix.mul_one]

/-- C18. Rectangular gradient transform: for `d_out > d_in` and a Jacobian
`J = X_e * GradN_affine(xi)` of full column rank, the returned `G` satisfies
`G^T = J * (J^T J)^{-1} * GradN(xi)^T`, and `G * J = GradN(xi)` exactly: the residual
`G * J - GradN(xi)` of the square-case equation is zero, so it is minimal. -/
theorem ShapeFunctionGradients_rectangular (el affine : Element) (kOutputDims : Nat)
    (Xi : Nat → Scalar) (X : Matrix (Fin kOutputDims) (Fin affine.kNodes) Scalar)
    (hrect : el.kDims < kOutputDims)
    (hrank : Function.Injective (ShapeFunctionGradients.J el affine kOutputDims Xi X).mulVec) :
    (ShapeFunctionGradients el affine kOutputDims Xi X).transpose =
        ShapeFunctionGradients.J el affine kOutputDims Xi X *
          ((ShapeFunctionGradients.J el affine kOutputDims Xi X).transpose *
            ShapeFunctionGradients.J el affine kOutputDims Xi X)⁻¹ *
          (el.gradN el.kDims Xi).transpose ∧
      ShapeFunctionGradients el affine kOutputDims Xi X *
          ShapeFunctionGradients.J el affine kOutputDims Xi X = el.gradN el.kDims Xi ∧
      ShapeFunctionGradients el affine kOutputDims Xi X *
          ShapeFunctionGradients.J el affine kOutputDims Xi X - el.gradN el.kDims Xi = 0 := by
  have hdet := gram_det_ne_zero _ hrank
  have hG : ShapeFunctionGradients el affine kOutputDims Xi X =
      (ShapeFunctionGradients.J el affine kOutputDims Xi X *
        exactSolve ((ShapeFunctionGradients.J el affine kOutputDims Xi X).transpose *
          ShapeFunctionGradients.J el affine kOutputDims Xi X)
          (el.gradN el.kDims Xi).transpose).transpose := by
    unfold ShapeFunctionGradients
    rw [dif_neg (Nat.ne_of_lt hrect)]
  have hGJ : ShapeFunctionGradients el affine kOutputDims Xi X *
      ShapeFunctionGradients.J el affine kOutputDims Xi X = el.gradN el.kDims Xi := by
    have h1 := exactSolve_mul _ (el.gradN el.kDims Xi).transpose hdet
    have h2 := congrArg Matrix.transpose h1
    rw [Matrix.transpose_mul, Matrix.transpose_mul, Matrix.transpose_transpose,
      Matrix.transpose_transpose] at h2
    rw [hG, Matrix.transpose_mul, Matrix.mul_assoc]
    exact h2
  refine ⟨?_, hGJ, ?_⟩
  · rw [hG, Matrix.transpose_transpose, exactSolve_eq_inv, Matrix.mul_assoc]
  · rw [hGJ, sub_self]


/-- The two coordinates of the reference triangle, as the indices of `Fin 2`. -/
theorem fin_two_cases (n : Nat) (hn : n = 2) (a : Fin n) :
    a = ⟨0, by omega⟩ ∨ a = ⟨1, by omega⟩ := by
  rcases a with ⟨a, ha⟩
  have h : a = 0 ∨ a = 1 := by omega
  rcases h with h | h
  · exact Or.inl (Fin.ext h)
  · exact Or.inr (Fin.ext h)

/-- The Jacobian of the triangle with vertices `(0,0)`, `(2,0)`, `(0,3)` times
`triangleJacobianInverse` is the identity. -/
theorem triangleJacobian_mul_inverse :
    (ShapeFunctionGradients.J triangleElement triangleElement 2 (fun _ => 1 / 3)
      triangleVertices * triangleJacobianInverse : Matrix (Fin 2) (Fin 2) Scalar) = 1 := by
  ext a b
  unfold ShapeFunctionGradients.J
  rw [Matrix.mul_apply]
  simp only [Matrix.mul_apply]
  have e2 : ∀ f : Fin triangleElement.kDims → Scalar,
      ∑ k, f k = f ⟨0, by decide⟩ + f ⟨1, by decide⟩ := fun f => Fin.sum_univ_two f
  have e3 : ∀ f : Fin triangleElement.kNodes → Scalar,
      ∑ k, f k = f ⟨0, by decide⟩ + f ⟨1, by decide⟩ + f ⟨2, by decide⟩ :=
    fun f => Fin.sum_univ_three f
  rw [e2]
  simp only [e3]
  rcases fin_two_cases 2 rfl a with rfl | rfl <;> rcases fin_two_cases 2 rfl b with rfl | rfl <;>
    simp [Element.gradN, triangleElement, triangleVertices, triangleJacobianInverse,
      Matrix.one_apply]

/-- The matrix `triangleJacobianInverse` times the Jacobian of the triangle is the
identity. -/
theorem triangleJacobian_inverse_mul :
    (triangleJacobianInverse *
        ShapeFunctionGradients.J triangleElement triangleElement 2 (fun _ => 1 / 3)
          triangleVertices :
      Matrix (Fin triangleElement.kDims) (Fin triangleElement.kDims) Scalar) = 1 := by
  ext a b
  unfold ShapeFunctionGradients.J
  rw [Matrix.mul_apply]
  simp only [Matrix.mul_apply]
  have e2 : ∀ f : Fin 2 → Scalar, ∑ k, f k = f ⟨0, by decide⟩ + f ⟨1, by decide⟩ :=
    fun f => Fin.sum_univ_two f
  have e3 : ∀ f : Fin triangleElement.kNodes → Scalar,
      ∑ k, f k = f ⟨0, by decide⟩ + f ⟨1, by decide⟩ + f ⟨2, by decide⟩ :=
    fun f => Fin.sum_univ_three f
  rw [e2]
  simp only [e3]
  rcases fin_two_cases _ rfl a with rfl | rfl <;> rcases fin_two_cases _ rfl b with rfl | rfl <;>
    simp [Element.gradN, triangleElement, triangleVertices, triangleJacobianInverse,
      Matrix.one_apply]

/-- The statement of `ShapeFunctionGradients_square` on the linear triangle with
vertices `(0,0)`, `(2,0)`, `(0,3)`, at the barycentre. -/
theorem ShapeFunctionGradients_square_witness :
    triangleElement.kDims = 2 ∧
    (ShapeFunctionGradients.J triangleElement triangleElement 2 (fun _ => 1 / 3)
      triangleVertices * triangleJacobianInverse : Matrix (Fin 2) (Fin 2) Scalar) = 1 ∧
    (triangleJacobianInverse *
        ShapeFunctionGradients.J triangleElement triangleElement 2 (fun _ => 1 / 3)
          triangleVertices :
      Matrix (Fin triangleElement.kDims) (Fin triangleElement.kDims) Scalar) = 1 ∧
    ((ShapeFunctionGradients triangleElement triangleElement 2 (fun _ => 1 / 3)
          triangleVertices *
        ShapeFunctionGradients.J triangleElement triangleElement 2 (fun _ => 1 / 3)
          triangleVertices :
        Matrix (Fin triangleElement.kNodes) (Fin triangleElement.kDims) Scalar) =
        triangleElement.gradN triangleElement.kDims (fun _ => 1 / 3) ∧
      ((ShapeFunctionGradients.J triangleElement triangleElement 2 (fun _ => 1 / 3)
            triangleVertices).transpose *
          (ShapeFunctionGradients triangleElement triangleElement 2 (fun _ => 1 / 3)
            triangleVertices).transpose :
        Matrix (Fin triangleElement.kDims) (Fin triangleElement.kNodes) Scalar) =
        (triangleElement.gradN triangleElement.kDims (fun _ => 1 / 3)).transpose ∧
      ShapeFunctionGradients triangleElement triangleElement 2 (fun _ => 1 / 3)
          triangleVertices =
        (triangleElement.gradN triangleElement.kDims (fun _ => 1 / 3) *
          triangleJacobianInverse :
          Matrix (Fin triangleElement.kNodes) (Fin 2) Scalar)) :=
  ⟨rfl, triangleJacobian_mul_inverse, triangleJacobian_inverse_mul,
    ShapeFunctionGradients_square triangleElement triangleElement 2 (fun _ => 1 / 3)
      triangleVertices triangleJacobianInverse rfl triangleJacobian_mul_inverse
      triangleJacobian_inverse_mul⟩

/-- The Jacobian of the segment from `(0,0)` to `(3,4)` has full column rank. -/
theorem segmentJacobian_injective :
    Function.Injective
      (ShapeFunctionGradients.J lineElement lineElement 2 (fun _ => 1 / 2)
        segmentVertices).mulVec := by
  intro v w h
  have h0 := congrFun h ⟨0, by decide⟩
  unfold ShapeFunctionGradients.J at h0
  simp only [Matrix.mulVec, Matrix.dotProduct, Matrix.mul_apply] at h0
  have e1 : ∀ f : Fin lineElement.kDims → Scalar, ∑ k, f k = f ⟨0, by decide⟩ :=
    fun f => Fin.sum_univ_one f
  have e2 : ∀ f : Fin lineElement.kNodes → Scalar,
      ∑ k, f k = f ⟨0, by decide⟩ + f ⟨1, by decide⟩ := fun f => Fin.sum_univ_two f
  rw [e1, e1] at h0
  simp only [e2] at h0
  simp [Element.gradN, lineElement, segmentVertices] at h0
  funext k
  have hk : k = ⟨0, by decide⟩ := by
    apply Fin.ext
    have := k.isLt
    show k.val = 0
    have h1 : lineElement.kDims = 1 := rfl
    omega
  rw [hk]
  exact h0

/-- The statement of `ShapeFunctionGradients_rectangular` on the line element with
vertices `(0,0)` and `(3,4)` in the plane, at the midpoint. -/
theorem ShapeFunctionGradients_rectangular_witness :
    lineElement.kDims < 2 ∧
    Function.Injective
      (ShapeFunctionGradients.J lineElement lineElement 2 (fun _ => 1 / 2)
        segmentVertices).mulVec ∧
    ((ShapeFunctionGradients lineElement lineElement 2 (fun _ => 1 / 2)
          segmentVertices).transpose =
        (ShapeFunctionGradients.J lineElement lineElement 2 (fun _ => 1 / 2) segmentVertices *
          ((ShapeFunctionGradients.J lineElement lineElement 2 (fun _ => 1 / 2)
              segmentVertices).transpose *
            ShapeFunctionGradients.J lineElement lineElement 2 (fun _ => 1 / 2)
              segmentVertices)⁻¹ *
          (lineElement.gradN lineElement.kDims (fun _ => 1 / 2)).transpose :
          Matrix (Fin 2) (Fin lineElement.kNodes) Scalar) ∧
      (ShapeFunctionGradients lineElement lineElement 2 (fun _ => 1 / 2) segmentVertices *
          ShapeFunctionGradients.J lineElement lineElement 2 (fun _ => 1 / 2) segmentVertices :
          Matrix (Fin lineElement.kNodes) (Fin lineElement.kDims) Scalar) =
        lineElement.gradN lineElement.kDims (fun _ => 1 / 2) ∧
      (ShapeFunctionGradients lineElement lineElement 2 (fun _ => 1 / 2) segmentVertices *
          ShapeFunctionGradients.J lineElement lineElement 2 (fun _ => 1 / 2) segmentVertices :
          Matrix (Fin lineElement.kNodes) (Fin lineElement.kDims) Scalar) -
        lineElement.gradN lineElement.kDims (fun _ => 1 / 2) = 0) :=
  ⟨by decide, segmentJacobian_injective,
    ShapeFunctionGradients_rectangular lineElement lineElement 2 (fun _ => 1 / 2)
      segmentVertices (by decide) segmentJacobian_injective⟩


/-! ## `ShapeFunctions` and the storage of the quadrature points -/

/-- C21. `ShapeFunctions<Element, Order>()` returns a `#element nodes x #quad points`
matrix whose column `g` is `N` applied to the last `d` coordinates of the `g`-th
quadrature point, the points being stored flat as consecutive `(d+1)`-vectors: column `g`
is `N(points[g*(d+1)+1], ..., points[g*(d+1)+d])`, the first coordinate
`points[g*(d+1)]` being dropped. -/
theorem ShapeFunctions_spec (el : Element) (Q : Int) :
    (ShapeFunctions el Q).rows = el.kNodes ∧
      (ShapeFunctions el Q).cols = (el.QuadratureType Q).kPoints ∧
      ∀ g, g < (el.QuadratureType Q).kPoints → ∀ i,
        (ShapeFunctions el Q).coeff i g =
          el.N (fun k => (el.QuadratureType Q).points
            (g * ((el.QuadratureType Q).kDims + 1) + 1 + k)) i := by
  refine ⟨(ShapeFunctions_shape el Q).1, (ShapeFunctions_shape el Q).2, ?_⟩
  intro g hg i
  rw [ShapeFunctions_coeff el Q i g hg]
  have h : quadraturePoint (el.QuadratureType Q) g =
      fun k => (el.QuadratureType Q).points
        (g * ((el.QuadratureType Q).kDims + 1) + 1 + k) := by
    funext k
    unfold quadraturePoint reshapedAt
    congr 1
    ring
  rw [h]

/-! ## Lumped masses and integrated shape functions -/

/-- With a correctly shaped `detJe`, `IntegratedShapeFunctions` returns the matrix of the
integrals of the shape functions. -/
theorem IntegratedShapeFunctions_ok (el : Element) (Q : Int) (mesh : Mesh) (detJe : MatrixX)
    (hs : detJe.rows = (el.QuadratureType Q).kPoints ∧ detJe.cols = mesh.E.cols) :
    ∃ R, IntegratedShapeFunctions el Q mesh detJe = Except.ok R ∧
      ∀ i e, e < mesh.E.cols →
        R.coeff i e =
          ∑ g in Finset.range (el.QuadratureType Q).kPoints,
            (el.QuadratureType Q).weights g * detJe.coeff g e *
              el.N (quadraturePoint (el.QuadratureType Q) g) i := by
  unfold IntegratedShapeFunctions
  refine ⟨_, by rw [if_neg (not_not.mpr hs)], ?_⟩
  intro i e he
  rw [forEach_additive (fun m : MatrixX => m.coeff i e) _
    (fun e' => ∑ g in Finset.range (el.QuadratureType Q).kPoints,
      if e = e' then (el.QuadratureType Q).weights g * detJe.coeff g e' *
        (ShapeFunctions el Q).coeff i g else 0)]
  · simp only [MatrixX.Zero, zero_add]
    rw [Finset.sum_eq_single e]
    · refine Finset.sum_congr rfl (fun g hg => ?_)
      rw [if_pos rfl, ShapeFunctions_coeff el Q i g (Finset.mem_range.mp hg)]
    · intro e' _ hne
      refine Finset.sum_eq_zero (fun g _ => ?_)
      rw [if_neg (fun h => hne h.symm)]
    · intro h
      exact absurd (Finset.mem_range.mpr he) h
  · intro e' s
    refine forEach_additive (fun m : MatrixX => m.coeff i e) _ _ ?_ _ s
    intro g s
    simp only [MatrixX.addCol]
    by_cases h : e = e'
    · rw [if_pos h, if_pos h]
    · rw [if_neg h, if_neg h, add_zero]

/-- With a basis that sums to one at the quadrature points, a row of an element mass block
sums to the integral of the density times the shape function of the row. -/
theorem massBlockFormula_rowSum (el : Element) (Q : Int) (rho detJe : MatrixX) (e i : Nat)
    (hN : partitionOfUnity el Q) :
    ∑ j in Finset.range el.kNodes, massBlockFormula el Q rho detJe e i j =
      ∑ g in Finset.range (el.QuadratureType Q).kPoints,
        (el.QuadratureType Q).weights g * rho.coeff g e * detJe.coeff g e *
          el.N (quadraturePoint (el.QuadratureType Q) g) i := by
  unfold massBlockFormula
  simp only []
  rw [Finset.sum_comm]
  refine Finset.sum_congr rfl (fun g hg => ?_)
  rw [← Finset.mul_sum, hN g (Finset.mem_range.mp hg), mul_one]

/-- C26. Lumped masses are the assembled integrated shape functions: if the element basis
sums to 1 at every quadrature point, then for an operator constructed with uniform density
1 and `dims = 1`, `ToLumpedMasses()(a)` equals the sum of
`IntegratedShapeFunctions<QuadratureOrder>(mesh, detJe)(i, e)` over all elements `e` and
local indices `i` with `E(i,e) = a`, for every node `a`. -/
theorem ToLumpedMasses_eq_IntegratedShapeFunctions (el : Element) (Q : Int) (mesh : Mesh)
    (detJe : MatrixX) (M : MassMatrix) (hN : partitionOfUnity el Q)
    (h : MassMatrix.constructUniform el Q mesh detJe 1 1 = Except.ok M) :
    ∃ m R, M.ToLumpedMasses el = Except.ok m ∧
      IntegratedShapeFunctions el Q mesh detJe = Except.ok R ∧
      ∀ a, a < mesh.X.cols →
        m.coeff a =
          ∑ e in Finset.range mesh.E.cols, ∑ i in Finset.range el.kNodes,
            if mesh.E.coeff i e = a then R.coeff i e else 0 := by
  unfold MassMatrix.constructUniform at h
  have hblock := construct_block el Q mesh detJe _ 1 M h
  obtain ⟨hc, hM⟩ := construct_ok el Q mesh detJe _ 1 M h
  have hm : M.mesh = mesh := by rw [hM]
  have hdims : M.dims = 1 := by rw [hM]
  have hD : M.dims.toNat = 1 := by rw [hdims]; rfl
  obtain ⟨m, hm1, _, hm3⟩ := ToLumpedMasses_ok el M (by rw [hdims]; decide)
  obtain ⟨R, hR1, hR2⟩ := IntegratedShapeFunctions_ok el Q mesh detJe hc.1
  refine ⟨m, R, hm1, hR1, ?_⟩
  intro a _
  rw [hm3 a, hD, hm]
  refine Finset.sum_congr rfl (fun e he => ?_)
  have he' := Finset.mem_range.mp he
  rw [Finset.sum_comm]
  refine Finset.sum_congr rfl (fun i hi => ?_)
  have hi' := Finset.mem_range.mp hi
  simp only [Finset.sum_range_one, Nat.one_mul, Nat.add_zero]
  by_cases ha : mesh.E.coeff i e = a
  · simp only [ha, if_true]
    rw [hR2 i e he']
    have hrow := massBlockFormula_rowSum el Q
      (MatrixX.Constant (el.QuadratureType Q).kPoints mesh.E.cols 1) detJe e i hN
    rw [Finset.sum_congr rfl (fun j hj => hblock e i j he' hi' (Finset.mem_range.mp hj)),
      hrow]
    refine Finset.sum_congr rfl (fun g _ => ?_)
    simp only [MatrixX.Constant, mul_one]
  · simp only [ha, if_false, Finset.sum_const_zero]

/-- The statement of `ToLumpedMasses_eq_IntegratedShapeFunctions` on `lineMesh` with
Simpson's rule and unit Jacobian determinants. -/
theorem ToLumpedMasses_eq_IntegratedShapeFunctions_witness :
    partitionOfUnity lineElement 2 ∧
    MassMatrix.constructUniform lineElement 2 lineMesh lineDetJe 1 1 =
      Except.ok unitLineOperator ∧
    ∃ m R, unitLineOperator.ToLumpedMasses lineElement = Except.ok m ∧
      IntegratedShapeFunctions lineElement 2 lineMesh lineDetJe = Except.ok R ∧
      ∀ a, a < lineMesh.X.cols →
        m.coeff a =
          ∑ e in Finset.range lineMesh.E.cols, ∑ i in Finset.range lineElement.kNodes,
            if lineMesh.E.coeff i e = a then R.coeff i e else 0 :=
  have hN : partitionOfUnity lineElement 2 := by
    intro g hg
    simp [lineElement, Finset.sum_range_succ]
  ⟨hN, rfl,
    ToLumpedMasses_eq_IntegratedShapeFunctions lineElement 2 lineMesh lineDetJe
      unitLineOperator hN rfl⟩


/-! ## Gradients sum to zero -/

/-- The returned gradients are the reference gradients times a matrix. -/
theorem ShapeFunctionGradients_factor (el affine : Element) (kOutputDims : Nat)
    (Xi : Nat → Scalar) (X : Matrix (Fin kOutputDims) (Fin affine.kNodes) Scalar) :
    ∃ B : Matrix (Fin el.kDims) (Fin kOutputDims) Scalar,
      ShapeFunctionGradients el affine kOutputDims Xi X = el.gradN el.kDims Xi * B := by
  by_cases h : el.kDims = kOutputDims
  · subst h
    refine ⟨((ShapeFunctionGradients.J el affine el.kDims Xi X).transpose⁻¹).transpose, ?_⟩
    have hG : ShapeFunctionGradients el affine el.kDims Xi X =
        (exactSolve (ShapeFunctionGradients.J el affine el.kDims Xi X).transpose
          (el.gradN el.kDims Xi).transpose).transpose := by
      unfold ShapeFunctionGradients
      rw [dif_pos rfl]
      rfl
    rw [hG, exactSolve_eq_inv, Matrix.transpose_mul, Matrix.transpose_transpose]
  · refine ⟨(((ShapeFunctionGradients.J el affine kOutputDims Xi X).transpose *
        ShapeFunctionGradients.J el affine kOutputDims Xi X)⁻¹).transpose *
        (ShapeFunctionGradients.J el affine kOutputDims Xi X).transpose, ?_⟩
    have hG : ShapeFunctionGradients el affine kOutputDims Xi X =
        (ShapeFunctionGradients.J el affine kOutputDims Xi X *
          exactSolve ((ShapeFunctionGradients.J el affine kOutputDims Xi X).transpose *
            ShapeFunctionGradients.J el affine kOutputDims Xi X)
            (el.gradN el.kDims Xi).transpose).transpose := by
      unfold ShapeFunctionGradients
      rw [dif_neg h]
    rw [hG, exactSolve_eq_inv, Matrix.transpose_mul, Matrix.transpose_mul,
      Matrix.transpose_transpose, Matrix.mul_assoc]

/-- C27. Gradients sum to zero: whenever the rows of the reference gradient `GradN(xi)`
sum to the zero vector and the Jacobian is invertible (square case) or of full column
rank (rectangular case), the rows of the matrix returned by `ShapeFunctionGradients` sum
to the zero vector. -/
theorem ShapeFunctionGradients_sum_zero (el affine : Element) (kOutputDims : Nat)
    (Xi : Nat → Scalar) (X : Matrix (Fin kOutputDims) (Fin affine.kNodes) Scalar)
    (hsum : ∀ k, ∑ i, el.gradN el.kDims Xi i k = 0)
    (_hJ : (el.kDims = kOutputDims ∧
        ∃ Jinv : Matrix (Fin el.kDims) (Fin kOutputDims) Scalar,
          ShapeFunctionGradients.J el affine kOutputDims Xi X * Jinv = 1 ∧
          Jinv * ShapeFunctionGradients.J el affine kOutputDims Xi X = 1) ∨
      (el.kDims < kOutputDims ∧
        Function.Injective (ShapeFunctionGradients.J el affine kOutputDims Xi X).mulVec)) :
    ∀ c, ∑ i, ShapeFunctionGradients el affine kOutputDims Xi X i c = 0 := by
  intro c
  obtain ⟨B, hB⟩ := ShapeFunctionGradients_factor el affine kOutputDims Xi X
  rw [hB]
  simp only [Matrix.mul_apply]
  rw [Finset.sum_comm]
  refine Finset.sum_eq_zero (fun k _ => ?_)
  rw [← Finset.sum_mul, hsum k, zero_mul]

/-- The rows of the reference gradient of the linear triangle sum to zero. -/
theorem triangleGradient_sum_zero (Xi : Nat → Scalar) :
    ∀ k, ∑ i, triangleElement.gradN triangleElement.kDims Xi i k = 0 := by
  intro k
  have e3 : ∀ f : Fin triangleElement.kNodes → Scalar,
      ∑ i, f i = f ⟨0, by decide⟩ + f ⟨1, by decide⟩ + f ⟨2, by decide⟩ :=
    fun f => Fin.sum_univ_three f
  rw [e3]
  rcases fin_two_cases _ rfl k with rfl | rfl <;>
    simp [Element.gradN, triangleElement]

/-- The statement of `ShapeFunctionGradients_sum_zero` on the linear triangle with
vertices `(0,0)`, `(2,0)`, `(0,3)`, at the barycentre. -/
theorem ShapeFunctionGradients_sum_zero_witness :
    (∀ k, ∑ i, triangleElement.gradN triangleElement.kDims (fun _ => 1 / 3) i k = 0) ∧
    ((triangleElement.kDims = 2 ∧
        ∃ Jinv : Matrix (Fin triangleElement.kDims) (Fin 2) Scalar,
          (ShapeFunctionGradients.J triangleElement triangleElement 2 (fun _ => 1 / 3)
            triangleVertices * Jinv : Matrix (Fin 2) (Fin 2) Scalar) = 1 ∧
          (Jinv * ShapeFunctionGradients.J triangleElement triangleElement 2 (fun _ => 1 / 3)
            triangleVertices :
            Matrix (Fin triangleElement.kDims) (Fin triangleElement.kDims) Scalar) = 1) ∨
      (triangleElement.kDims < 2 ∧
        Function.Injective
          (ShapeFunctionGradients.J triangleElement triangleElement 2 (fun _ => 1 / 3)
            triangleVertices).mulVec)) ∧
    ∀ c, ∑ i, ShapeFunctionGradients triangleElement triangleElement 2 (fun _ => 1 / 3)
      triangleVertices i c = 0 :=
  ⟨triangleGradient_sum_zero _,
    Or.inl ⟨rfl, triangleJacobianInverse, triangleJacobian_mul_inverse,
      triangleJacobian_inverse_mul⟩,
    ShapeFunctionGradients_sum_zero triangleElement triangleElement 2 (fun _ => 1 / 3)
      triangleVertices (triangleGradient_sum_zero _)
      (Or.inl ⟨rfl, triangleJacobianInverse, triangleJacobian_mul_inverse,
        triangleJacobian_inverse_mul⟩)⟩


/-! ## Positive semi-definiteness -/

/-- A sum over a range that selects one index of the range, with a factor on the left. -/
theorem sum_range_pick_mul (N a : Nat) (ha : a < N) (v : Scalar) (f : Nat → Scalar) :
    ∑ r in Finset.range N, f r * (if a = r then v else 0) = f a * v := by
  rw [Finset.sum_eq_single a]
  · rw [if_pos rfl]
  · intro r _ hne
    rw [if_neg (fun h => hne h.symm), mul_zero]
  · intro h
    exact absurd (Finset.mem_range.mpr ha) h

/-- Moving the two outer sums of four nested sums inside. -/
theorem sum_rotate_four (n1 n2 n3 n4 : Nat) (F : Nat → Nat → Nat → Nat → Scalar) :
    ∑ j in Finset.range n1, ∑ i in Finset.range n2, ∑ d in Finset.range n3,
        ∑ g in Finset.range n4, F j i d g =
      ∑ d in Finset.range n3, ∑ g in Finset.range n4, ∑ j in Finset.range n1,
        ∑ i in Finset.range n2, F j i d g := by
  calc ∑ j in Finset.range n1, ∑ i in Finset.range n2, ∑ d in Finset.range n3,
        ∑ g in Finset.range n4, F j i d g
      = ∑ j in Finset.range n1, ∑ d in Finset.range n3, ∑ i in Finset.range n2,
          ∑ g in Finset.range n4, F j i d g :=
        Finset.sum_congr rfl (fun j _ => Finset.sum_comm)
    _ = ∑ d in Finset.range n3, ∑ j in Finset.range n1, ∑ i in Finset.range n2,
          ∑ g in Finset.range n4, F j i d g := Finset.sum_comm
    _ = ∑ d in Finset.range n3, ∑ j in Finset.range n1, ∑ g in Finset.range n4,
          ∑ i in Finset.range n2, F j i d g :=
        Finset.sum_congr rfl (fun d _ => Finset.sum_congr rfl (fun j _ => Finset.sum_comm))
    _ = ∑ d in Finset.range n3, ∑ g in Finset.range n4, ∑ j in Finset.range n1,
          ∑ i in Finset.range n2, F j i d g :=
        Finset.sum_congr rfl (fun d _ => Finset.sum_comm)

/-- Row `r` of the assembled matrix times a vector, on a mesh with valid connectivity. -/
theorem tripletRow_mul (el : Element) (M : MassMatrix)
    (hE : ∀ i, i < el.kNodes → ∀ e, e < M.mesh.E.cols → M.mesh.E.coeff i e < M.mesh.X.cols)
    (x : Nat → Scalar) (r : Nat) :
    ∑ s in Finset.range (M.dims.toNat * M.mesh.X.cols),
        tripletSum r s (M.triplets el) * x s =
      ∑ e in Finset.range M.mesh.E.cols, ∑ j in Finset.range el.kNodes,
        ∑ i in Finset.range el.kNodes, ∑ d in Finset.range M.dims.toNat,
          if M.dims.toNat * M.mesh.E.coeff i e + d = r
            then M.block el e i j * x (M.dims.toNat * M.mesh.E.coeff j e + d) else 0 := by
  simp only [triplets_sum, Finset.sum_mul]
  rw [sum_comm_four]
  refine Finset.sum_congr rfl (fun e he => ?_)
  refine Finset.sum_congr rfl (fun j hj => ?_)
  refine Finset.sum_congr rfl (fun i _ => ?_)
  refine Finset.sum_congr rfl (fun d hd => ?_)
  exact sum_range_select _ _
    (dof_lt _ _ _ _ (hE j (Finset.mem_range.mp hj) e (Finset.mem_range.mp he))
      (Finset.mem_range.mp hd)) _ _ _

/-- The quadratic form of the assembled matrix as a sum over elements, pairs of local
nodes and components. -/
theorem triplets_quadraticForm (el : Element) (M : MassMatrix)
    (hE : ∀ i, i < el.kNodes → ∀ e, e < M.mesh.E.cols → M.mesh.E.coeff i e < M.mesh.X.cols)
    (x : Nat → Scalar) :
    ∑ r in Finset.range (M.dims.toNat * M.mesh.X.cols),
        ∑ s in Finset.range (M.dims.toNat * M.mesh.X.cols),
          x r * tripletSum r s (M.triplets el) * x s =
      ∑ e in Finset.range M.mesh.E.cols, ∑ j in Finset.range el.kNodes,
        ∑ i in Finset.range el.kNodes, ∑ d in Finset.range M.dims.toNat,
          x (M.dims.toNat * M.mesh.E.coeff i e + d) *
            (M.block el e i j * x (M.dims.toNat * M.mesh.E.coeff j e + d)) := by
  have h1 : ∀ r, (∑ s in Finset.range (M.dims.toNat * M.mesh.X.cols),
      x r * tripletSum r s (M.triplets el) * x s) =
      ∑ e in Finset.range M.mesh.E.cols, ∑ j in Finset.range el.kNodes,
        ∑ i in Finset.range el.kNodes, ∑ d in Finset.range M.dims.toNat,
          x r * (if M.dims.toNat * M.mesh.E.coeff i e + d = r
            then M.block el e i j * x (M.dims.toNat * M.mesh.E.coeff j e + d) else 0) := by
    intro r
    simp only [mul_assoc]
    rw [← Finset.mul_sum, tripletRow_mul el M hE x r]
    simp only [Finset.mul_sum]
  simp only [h1]
  rw [sum_comm_four]
  refine Finset.sum_congr rfl (fun e he => ?_)
  refine Finset.sum_congr rfl (fun j _ => ?_)
  refine Finset.sum_congr rfl (fun i hi => ?_)
  refine Finset.sum_congr rfl (fun d hd => ?_)
  exact sum_range_pick_mul _ _
    (dof_lt _ _ _ _ (hE i (Finset.mem_range.mp hi) e (Finset.mem_range.mp he))
      (Finset.mem_range.mp hd)) _ _


/-- The quadratic form of one element block is a weighted sum of squares. -/
theorem block_quadratic_eq (n D kP : Nat) (c : Nat → Scalar) (N : Nat → Nat → Scalar)
    (y : Nat → Nat → Scalar) :
    ∑ j in Finset.range n, ∑ i in Finset.range n, ∑ d in Finset.range D,
        y i d * ((∑ g in Finset.range kP, c g * N g i * N g j) * y j d) =
      ∑ d in Finset.range D, ∑ g in Finset.range kP,
        c g * ((∑ i in Finset.range n, N g i * y i d) *
          (∑ i in Finset.range n, N g i * y i d)) := by
  have h1 : ∀ j i d, y i d * ((∑ g in Finset.range kP, c g * N g i * N g j) * y j d) =
      ∑ g in Finset.range kP, c g * ((N g i * y i d) * (N g j * y j d)) := by
    intro j i d
    rw [Finset.sum_mul, Finset.mul_sum]
    exact Finset.sum_congr rfl (fun g _ => by ring)
  simp only [h1]
  rw [sum_rotate_four]
  refine Finset.sum_congr rfl (fun d _ => Finset.sum_congr rfl (fun g _ => ?_))
  rw [Finset.sum_mul_sum, Finset.mul_sum, Finset.sum_comm]
  refine Finset.sum_congr rfl (fun j _ => ?_)
  rw [Finset.mul_sum]

/-- C24. Positive semi-definiteness: for every successfully constructed operator on a
mesh with valid connectivity in which `weight_g * rho(g,e) * detJe(g,e) >= 0` for all
quadrature points `g` and elements `e`, and every vector `x` of length `dims * #nodes`,
`x^T * ToMatrix() * x >= 0`. -/
theorem ToMatrix_positive_semidefinite (el : Element) (Q : Int) (mesh : Mesh)
    (detJe rho : MatrixX) (dims : Int) (M : MassMatrix) (x : VectorX)
    (hmesh : Mesh.Valid el mesh)
    (h : MassMatrix.construct el Q mesh detJe rho dims = Except.ok M)
    (hpos : ∀ g, g < (el.QuadratureType Q).kPoints → ∀ e, e < mesh.E.cols →
      0 ≤ (el.QuadratureType Q).weights g * rho.coeff g e * detJe.coeff g e)
    (hx : (x.size : Int) = dims * mesh.X.cols) :
    ∃ A, M.ToMatrix el Q = Except.ok A ∧ (A.rows : Int) = x.size ∧ (A.cols : Int) = x.size ∧
      0 ≤ A.quadraticForm x := by
  have hv := construct_valid el Q mesh detJe rho dims M h
  have hblock := construct_block el Q mesh detJe rho dims M h
  obtain ⟨_, hM⟩ := construct_ok el Q mesh detJe rho dims M h
  have hm : M.mesh = mesh := by rw [hM]
  have hdims : M.dims = dims := by rw [hM]
  rw [← hm] at hmesh hblock hpos hx
  rw [← hdims] at hx
  have hd : 0 ≤ M.dims := by
    have := ((CheckValidState_ok_iff el Q M).mp hv).2
    omega
  have hcast : ((M.dims.toNat * M.mesh.X.cols : Nat) : Int) = M.dims * M.mesh.X.cols := by
    rw [Nat.cast_mul, Int.toNat_of_nonneg hd]
  refine ⟨_, ToMatrix_ok el Q M hv, hcast.trans hx.symm, hcast.trans hx.symm, ?_⟩
  show 0 ≤ ∑ r in Finset.range (M.dims.toNat * M.mesh.X.cols),
    ∑ s in Finset.range (M.dims.toNat * M.mesh.X.cols),
      x.coeff r * tripletSum r s (M.triplets el) * x.coeff s
  rw [triplets_quadraticForm el M hmesh.2 x.coeff]
  refine Finset.sum_nonneg (fun e he => ?_)
  have he' := Finset.mem_range.mp he
  have hrw : (∑ j in Finset.range el.kNodes, ∑ i in Finset.range el.kNodes,
      ∑ d in Finset.range M.dims.toNat,
        x.coeff (M.dims.toNat * M.mesh.E.coeff i e + d) *
          (M.block el e i j * x.coeff (M.dims.toNat * M.mesh.E.coeff j e + d))) =
      ∑ j in Finset.range el.kNodes, ∑ i in Finset.range el.kNodes,
        ∑ d in Finset.range M.dims.toNat,
          x.coeff (M.dims.toNat * M.mesh.E.coeff i e + d) *
            ((∑ g in Finset.range (el.QuadratureType Q).kPoints,
              ((el.QuadratureType Q).weights g * rho.coeff g e * detJe.coeff g e) *
                el.N (quadraturePoint (el.QuadratureType Q) g) i *
                el.N (quadraturePoint (el.QuadratureType Q) g) j) *
              x.coeff (M.dims.toNat * M.mesh.E.coeff j e + d)) := by
    refine Finset.sum_congr rfl (fun j hj => Finset.sum_congr rfl (fun i hi =>
      Finset.sum_congr rfl (fun d _ => ?_)))
    rw [hblock e i j he' (Finset.mem_range.mp hi) (Finset.mem_range.mp hj)]
    rfl
  rw [hrw, block_quadratic_eq el.kNodes M.dims.toNat (el.QuadratureType Q).kPoints
    (fun g => (el.QuadratureType Q).weights g * rho.coeff g e * detJe.coeff g e)
    (fun g i => el.N (quadraturePoint (el.QuadratureType Q) g) i)
    (fun i d => x.coeff (M.dims.toNat * M.mesh.E.coeff i e + d))]
  refine Finset.sum_nonneg (fun d _ => Finset.sum_nonneg (fun g hg => ?_))
  exact mul_nonneg (hpos g (Finset.mem_range.mp hg) e he') (mul_self_nonneg _)

/-- The weights of Simpson's rule times `lineRho` times `lineDetJe` are not negative. -/
theorem lineOperator_weights_nonneg :
    ∀ g, g < (lineElement.QuadratureType 2).kPoints → ∀ e, e < lineMesh.E.cols →
      0 ≤ (lineElement.QuadratureType 2).weights g * lineRho.coeff g e *
        lineDetJe.coeff g e := by
  intro g hg e he
  have hg' : g < 3 := hg
  have he' : e < 2 := he
  interval_cases g <;> interval_cases e <;>
    norm_num [lineElement, simpsonRule, lineRho, lineDetJe, MatrixX.Constant]

/-- The statement of `ToMatrix_positive_semidefinite` on `lineOperator` and
`lineVector`. -/
theorem ToMatrix_positive_semidefinite_witness :
    Mesh.Valid lineElement lineMesh ∧
    MassMatrix.construct lineElement 2 lineMesh lineDetJe lineRho 2 = Except.ok lineOperator ∧
    (∀ g, g < (lineElement.QuadratureType 2).kPoints → ∀ e, e < lineMesh.E.cols →
      0 ≤ (lineElement.QuadratureType 2).weights g * lineRho.coeff g e *
        lineDetJe.coeff g e) ∧
    (lineVector.size : Int) = 2 * lineMesh.X.cols ∧
    ∃ A, lineOperator.ToMatrix lineElement 2 = Except.ok A ∧
      (A.rows : Int) = lineVector.size ∧ (A.cols : Int) = lineVector.size ∧
      0 ≤ A.quadraticForm lineVector :=
  ⟨by decide, rfl, lineOperator_weights_nonneg, by decide,
    ToMatrix_positive_semidefinite lineElement 2 lineMesh lineDetJe lineRho 2 lineOperator
      lineVector (by decide) rfl lineOperator_weights_nonneg (by decide)⟩


/-! ## Factorisation of the mass matrix through the shape function matrix -/

/-- A sum over a range of length `b * a`, as a sum over `a` blocks of length `b`. -/
theorem sum_range_blocks (a b : Nat) (f : Nat → Scalar) :
    ∑ r in Finset.range (b * a), f r =
      ∑ e in Finset.range a, ∑ g in Finset.range b, f (e * b + g) := by
  induction a with
  | zero => simp
  | succ a ih =>
    rw [Nat.mul_succ, Finset.sum_range_add, ih, Finset.sum_range_succ, Nat.mul_comm b a]

/-- On a mesh with valid connectivity and pairwise distinct nodes in every element,
`ShapeFunctionMatrix` returns the filled matrix. -/
theorem ShapeFunctionMatrix_ok (el : Element) (Q : Int) (mesh : Mesh)
    (hvalid : Mesh.Valid el mesh) (hdist : Mesh.DistinctNodes el mesh) :
    ShapeFunctionMatrix el Q mesh = Except.ok
      (ShapeFunctionMatrix.filled el Q mesh
        (CSRMatrix.Zero ((el.QuadratureType Q).kPoints * mesh.E.cols) mesh.X.cols)) := by
  unfold ShapeFunctionMatrix
  simp only [(ShapeFunctions_shape el Q).2]
  rw [ShapeFunctionMatrix_fill_ok el Q mesh hvalid hdist]

/-- A coefficient of the filled matrix in the row of element `e` and quadrature point `g`,
as a sum over the local nodes of `e`. -/
theorem ShapeFunctionMatrix_filled_coeff (el : Element) (Q : Int) (mesh : Mesh)
    (hdist : Mesh.DistinctNodes el mesh) (m n e g a : Nat)
    (he : e < mesh.E.cols) (hg : g < (el.QuadratureType Q).kPoints) :
    (ShapeFunctionMatrix.filled el Q mesh (CSRMatrix.Zero m n)).coeff
        (e * (el.QuadratureType Q).kPoints + g) a =
      ∑ i in Finset.range el.kNodes,
        if mesh.E.coeff i e = a then el.N (quadraturePoint (el.QuadratureType Q) g) i
        else 0 := by
  by_cases hex : ∃ i, i < el.kNodes ∧ mesh.E.coeff i e = a
  · obtain ⟨i, hi, hia⟩ := hex
    rw [← hia, ShapeFunctionMatrix_filled_node el Q mesh hdist _ e g i he hg hi,
      ShapeFunctions_coeff el Q i g hg, Finset.sum_eq_single i]
    · rw [if_pos rfl]
    · intro i' hi' hne
      rw [if_neg]
      intro h
      exact hne (hdist e he i' (Finset.mem_range.mp hi') i hi h)
    · intro h
      exact absurd (Finset.mem_range.mpr hi) h
  · rw [ShapeFunctionMatrix_filled_other el Q mesh _ e g a hg
      (fun i hi h => hex ⟨i, hi, h⟩)]
    symm
    refine Finset.sum_eq_zero (fun i hi => ?_)
    rw [if_neg (fun h => hex ⟨i, Finset.mem_range.mp hi, h⟩)]


/-- The entries of an element block that land on a pair of nodes, factored through the
values of the shape functions at the quadrature points. -/
theorem block_factor (n kP : Nat) (P R : Nat → Prop) [DecidablePred P] [DecidablePred R]
    (c : Nat → Scalar) (N : Nat → Nat → Scalar) :
    ∑ j in Finset.range n, ∑ i in Finset.range n,
        (if P i ∧ R j then ∑ g in Finset.range kP, c g * N g i * N g j else 0) =
      ∑ g in Finset.range kP,
        (∑ i in Finset.range n, if P i then N g i else 0) * c g *
          (∑ j in Finset.range n, if R j then N g j else 0) := by
  have h1 : ∀ g, (∑ i in Finset.range n, if P i then N g i else 0) * c g *
      (∑ j in Finset.range n, if R j then N g j else 0) =
      ∑ j in Finset.range n, ∑ i in Finset.range n,
        (if P i then N g i else 0) * c g * (if R j then N g j else 0) := by
    intro g
    rw [Finset.mul_sum]
    refine Finset.sum_congr rfl (fun j _ => ?_)
    rw [Finset.sum_mul, Finset.sum_mul]
  have h2 : ∀ j i, (if P i ∧ R j then ∑ g in Finset.range kP, c g * N g i * N g j else 0) =
      ∑ g in Finset.range kP,
        (if P i then N g i else 0) * c g * (if R j then N g j else 0) := by
    intro j i
    by_cases hP : P i
    · by_cases hR : R j
      · simp only [hP, hR, and_self, if_true]
        exact Finset.sum_congr rfl (fun g _ => by ring)
      · simp [hP, hR]
    · simp [hP]
  simp only [h1, h2]
  calc ∑ j in Finset.range n, ∑ i in Finset.range n, ∑ g in Finset.range kP,
        (if P i then N g i else 0) * c g * (if R j then N g j else 0)
      = ∑ j in Finset.range n, ∑ g in Finset.range kP, ∑ i in Finset.range n,
          (if P i then N g i else 0) * c g * (if R j then N g j else 0) :=
        Finset.sum_congr rfl (fun j _ => Finset.sum_comm)
    _ = _ := Finset.sum_comm

/-- C25. Factorisation through the shape-function matrix: for `dims = 1` and every mesh
whose elements list pairwise distinct valid nodes, `ToMatrix()` and
`ShapeFunctionMatrix<QuadratureOrder>(mesh)` succeed and `ToMatrix()` equals
`N^T * W * N`, where `N` is the shape function matrix and `W` is the diagonal matrix whose
entry at row `e * #quadpoints + g` is `weight_g * rho(g,e) * detJe(g,e)`. -/
theorem ToMatrix_eq_transposeMulMul (el : Element) (Q : Int) (mesh : Mesh)
    (detJe rho : MatrixX) (M : MassMatrix)
    (hvalid : Mesh.Valid el mesh) (hdist : Mesh.DistinctNodes el mesh)
    (h : MassMatrix.construct el Q mesh detJe rho 1 = Except.ok M) :
    ∃ A N, M.ToMatrix el Q = Except.ok A ∧ ShapeFunctionMatrix el Q mesh = Except.ok N ∧
      A.rows = N.cols ∧ A.cols = N.cols ∧
      ∀ a, a < N.cols → ∀ b, b < N.cols →
        A.coeff a b = N.transposeMulMul (quadratureWeightMatrix el Q rho detJe) a b := by
  have hv := construct_valid el Q mesh detJe rho 1 M h
  have hblock := construct_block el Q mesh detJe rho 1 M h
  obtain ⟨_, hM⟩ := construct_ok el Q mesh detJe rho 1 M h
  have hm : M.mesh = mesh := by rw [hM]
  have hdims : M.dims = 1 := by rw [hM]
  have hD : M.dims.toNat = 1 := by rw [hdims]; rfl
  have hrows := (ShapeFunctionMatrix_filled_shape el Q mesh
    (CSRMatrix.Zero ((el.QuadratureType Q).kPoints * mesh.E.cols) mesh.X.cols)).1
  have hcols := (ShapeFunctionMatrix_filled_shape el Q mesh
    (CSRMatrix.Zero ((el.QuadratureType Q).kPoints * mesh.E.cols) mesh.X.cols)).2
  refine ⟨_, _, ToMatrix_ok el Q M hv, ShapeFunctionMatrix_ok el Q mesh hvalid hdist,
    ?_, ?_, ?_⟩
  · rw [hcols, hD, hm, Nat.one_mul]
    rfl
  · rw [hcols, hD, hm, Nat.one_mul]
    rfl
  intro a _ b _
  show tripletSum a b (M.triplets el) = _
  rw [triplets_sum, hD, hm]
  unfold CSRMatrix.transposeMulMul
  rw [hrows]
  have hdiag : ∀ r, r ∈ Finset.range ((el.QuadratureType Q).kPoints * mesh.E.cols) →
      (∑ r' in Finset.range ((el.QuadratureType Q).kPoints * mesh.E.cols),
        (ShapeFunctionMatrix.filled el Q mesh
          (CSRMatrix.Zero ((el.QuadratureType Q).kPoints * mesh.E.cols) mesh.X.cols)).coeff r a *
          quadratureWeightMatrix el Q rho detJe r r' *
          (ShapeFunctionMatrix.filled el Q mesh
          (CSRMatrix.Zero ((el.QuadratureType Q).kPoints * mesh.E.cols) mesh.X.cols)).coeff r' b) =
      (ShapeFunctionMatrix.filled el Q mesh
          (CSRMatrix.Zero ((el.QuadratureType Q).kPoints * mesh.E.cols) mesh.X.cols)).coeff r a *
        quadratureWeightMatrix el Q rho detJe r r *
        (ShapeFunctionMatrix.filled el Q mesh
          (CSRMatrix.Zero ((el.QuadratureType Q).kPoints * mesh.E.cols) mesh.X.cols)).coeff r b := by
    intro r hr
    rw [Finset.sum_eq_single r]
    · intro r' _ hne
      unfold quadratureWeightMatrix
      simp only []
      rw [if_neg (fun h' => hne h'.symm), mul_zero, zero_mul]
    · intro h'
      exact absurd hr h'
  show _ = ∑ r in Finset.range ((el.QuadratureType Q).kPoints * mesh.E.cols),
    ∑ r' in Finset.range ((el.QuadratureType Q).kPoints * mesh.E.cols), _
  rw [Finset.sum_congr rfl hdiag, sum_range_blocks]
  refine Finset.sum_congr rfl (fun e he => ?_)
  have he' := Finset.mem_range.mp he
  have hinner : ∀ j i, (∑ d in Finset.range 1,
      if 1 * mesh.E.coeff i e + d = a ∧ 1 * mesh.E.coeff j e + d = b
        then M.block el e i j else 0) =
      if mesh.E.coeff i e = a ∧ mesh.E.coeff j e = b then M.block el e i j else 0 := by
    intro j i
    simp only [Finset.sum_range_one, Nat.one_mul, Nat.add_zero]
  simp only [hinner]
  have hb : (∑ j in Finset.range el.kNodes, ∑ i in Finset.range el.kNodes,
      if mesh.E.coeff i e = a ∧ mesh.E.coeff j e = b then M.block el e i j else 0) =
      ∑ j in Finset.range el.kNodes, ∑ i in Finset.range el.kNodes,
        if mesh.E.coeff i e = a ∧ mesh.E.coeff j e = b then
          ∑ g in Finset.range (el.QuadratureType Q).kPoints,
            ((el.QuadratureType Q).weights g * rho.coeff g e * detJe.coeff g e) *
              el.N (quadraturePoint (el.QuadratureType Q) g) i *
              el.N (quadraturePoint (el.QuadratureType Q) g) j
        else 0 := by
    refine Finset.sum_congr rfl (fun j hj => Finset.sum_congr rfl (fun i hi => ?_))
    rw [hblock e i j he' (Finset.mem_range.mp hi) (Finset.mem_range.mp hj)]
    rfl
  rw [hb, block_factor el.kNodes (el.QuadratureType Q).kPoints
    (fun i => mesh.E.coeff i e = a) (fun j => mesh.E.coeff j e = b)
    (fun g => (el.QuadratureType Q).weights g * rho.coeff g e * detJe.coeff g e)
    (fun g i => el.N (quadraturePoint (el.QuadratureType Q) g) i)]
  refine Finset.sum_congr rfl (fun g hg => ?_)
  have hg' := Finset.mem_range.mp hg
  rw [ShapeFunctionMatrix_filled_coeff el Q mesh hdist _ _ e g a he' hg',
    ShapeFunctionMatrix_filled_coeff el Q mesh hdist _ _ e g b he' hg']
  have hmod : (e * (el.QuadratureType Q).kPoints + g) % (el.QuadratureType Q).kPoints = g := by
    rw [Nat.mul_comm, Nat.mul_add_mod, Nat.mod_eq_of_lt hg']
  have hdiv : (e * (el.QuadratureType Q).kPoints + g) / (el.QuadratureType Q).kPoints = e := by
    rw [Nat.mul_comm, Nat.mul_add_div (by omega), Nat.div_eq_of_lt hg', Nat.add_zero]
  unfold quadratureWeightMatrix
  simp only [if_true, hmod, hdiv]

/-- The statement of `ToMatrix_eq_transposeMulMul` on `lineMesh` with Simpson's rule,
`lineRho` and `dims = 1`. -/
theorem ToMatrix_eq_transposeMulMul_witness :
    Mesh.Valid lineElement lineMesh ∧ Mesh.DistinctNodes lineElement lineMesh ∧
    MassMatrix.construct lineElement 2 lineMesh lineDetJe lineRho 1 =
      Except.ok scalarLineOperator ∧
    ∃ A N, scalarLineOperator.ToMatrix lineElement 2 = Except.ok A ∧
      ShapeFunctionMatrix lineElement 2 lineMesh = Except.ok N ∧
      A.rows = N.cols ∧ A.cols = N.cols ∧
      ∀ a, a < N.cols → ∀ b, b < N.cols →
        A.coeff a b =
          N.transposeMulMul (quadratureWeightMatrix lineElement 2 lineRho lineDetJe) a b :=
  ⟨by decide, by decide, rfl,
    ToMatrix_eq_transposeMulMul lineElement 2 lineMesh lineDetJe lineRho scalarLineOperator
      (by decide) (by decide) rfl⟩

/-! ## Shape function gradients at the quadrature points of a mesh -/

/-- A column lies in the block of `d` columns that starts at `q * d` exactly when its
quotient by `d` is `q`. -/
theorem block_column_iff (d q q0 k : Nat) (hk : k < d) :
    (q * d ≤ q0 * d + k ∧ q0 * d + k < q * d + d) ↔ q = q0 := by
  constructor
  · rintro ⟨h1, h2⟩
    have h3 : q * d < (q0 + 1) * d := by rw [Nat.add_mul, Nat.one_mul]; omega
    have h4 : q0 * d < (q + 1) * d := by rw [Nat.add_mul, Nat.one_mul]; omega
    have h5 := Nat.lt_of_mul_lt_mul_right h3
    have h6 := Nat.lt_of_mul_lt_mul_right h4
    omega
  · rintro rfl
    omega

/-- The block that `ShapeFunctionGradients<QuadratureOrder>(mesh)` assigns for the pair
`(e, g)` changes the columns of the pair `(e0, g0)` only if the pairs are the same. -/
theorem setBlock_gradient_coeff (s : MatrixX) (n d kP e g e0 g0 i k : Nat)
    (B : Nat → Nat → Scalar) (hi : i < n) (hk : k < d) (hg : g < kP) (hg0 : g0 < kP) :
    (s.setBlock 0 (e * (d * kP) + g * d) n d B).coeff i ((e0 * kP + g0) * d + k) =
      if e = e0 ∧ g = g0 then B i k else s.coeff i ((e0 * kP + g0) * d + k) := by
  have hstart : e * (d * kP) + g * d = (e * kP + g) * d := by ring
  unfold MatrixX.setBlock
  simp only []
  rw [hstart]
  by_cases hq : e = e0 ∧ g = g0
  · obtain ⟨rfl, rfl⟩ := hq
    rw [if_pos ⟨Nat.zero_le i, by omega, by omega, by omega⟩, if_pos ⟨rfl, rfl⟩,
      Nat.sub_zero, Nat.add_sub_cancel_left]
  · rw [if_neg, if_neg hq]
    rintro ⟨_, _, h1, h2⟩
    exact hq ((quadRow_inj kP e e0 g g0 hg hg0).mp
      ((block_column_iff d _ _ k hk).mp ⟨h1, h2⟩))

/-- No block assignment of `ShapeFunctionGradients<QuadratureOrder>(mesh)` changes the
shape of `GNe`. -/
theorem ShapeFunctionGradientsMesh_element_shape (el affine : Element) (d : Nat) (Q : Int)
    (mesh : Mesh) (e : Nat) (s : MatrixX) :
    (ShapeFunctionGradientsMesh.element el affine d Q mesh e s).rows = s.rows ∧
      (ShapeFunctionGradientsMesh.element el affine d Q mesh e s).cols = s.cols := by
  unfold ShapeFunctionGradientsMesh.element
  constructor
  · refine forEach_unchanged MatrixX.rows _ ?_ _ _
    intro g s
    rfl
  · refine forEach_unchanged MatrixX.cols _ ?_ _ _
    intro g s
    rfl

/-- The loop over the quadrature points of element `e` leaves in the columns of the pair
`(e0, g0)` the gradients at point `g0` if `e = e0`, and what was there otherwise. -/
theorem ShapeFunctionGradientsMesh_element_coeff (el affine : Element) (d : Nat) (Q : Int)
    (mesh : Mesh) (e e0 g0 i k : Nat) (s : MatrixX)
    (hg0 : g0 < (el.QuadratureType Q).kPoints) (hi : i < el.kNodes) (hk : k < d) :
    (ShapeFunctionGradientsMesh.element el affine d Q mesh e s).coeff i
        ((e0 * (el.QuadratureType Q).kPoints + g0) * d + k) =
      if e = e0 then
        fixedCoeff (ShapeFunctionGradients el affine d
          (ShapeFunctionGradientsMesh.Xg el (el.QuadratureType Q) g0)
          (ShapeFunctionGradientsMesh.Ve el affine d mesh e0)) i k
      else s.coeff i ((e0 * (el.QuadratureType Q).kPoints + g0) * d + k) := by
  unfold ShapeFunctionGradientsMesh.element
  simp only []
  by_cases he : e = e0
  · subst he
    rw [if_pos rfl]
    refine forEach_hit_once
      (fun s : MatrixX => s.coeff i ((e * (el.QuadratureType Q).kPoints + g0) * d + k))
      _ _ g0 _ hg0 ?_ ?_ s
    · intro s
      show (s.setBlock _ _ _ _ _).coeff _ _ = _
      rw [setBlock_gradient_coeff s _ _ _ _ _ _ _ _ _ _ hi hk hg0 hg0, if_pos ⟨rfl, rfl⟩]
    · intro g hg hne s
      show (s.setBlock _ _ _ _ _).coeff _ _ = _
      rw [setBlock_gradient_coeff s _ _ _ _ _ _ _ _ _ _ hi hk hg hg0,
        if_neg (fun h => hne h.2)]
  · rw [if_neg he]
    refine forEach_unchanged_lt
      (fun s : MatrixX => s.coeff i ((e0 * (el.QuadratureType Q).kPoints + g0) * d + k))
      _ _ ?_ s
    intro g hg s
    show (s.setBlock _ _ _ _ _).coeff _ _ = _
    rw [setBlock_gradient_coeff s _ _ _ _ _ _ _ _ _ _ hi hk hg hg0,
      if_neg (fun h => he h.1)]

/-- When `bottomRows<ElementType::kDims>` fits and `mesh.X` has `MeshType::kDims` rows,
`ShapeFunctionGradients<QuadratureOrder>(mesh)` returns what the loops leave in `GNe`. -/
theorem ShapeFunctionGradientsMesh_ok (el affine : Element) (d : Nat) (Q : Int)
    (mesh : Mesh) (fresh : Nat → Nat → Scalar)
    (hb : el.kDims ≤ (el.QuadratureType Q).kDims + 1) (hX : mesh.X.rows = d) :
    ShapeFunctionGradientsMesh el affine d Q mesh fresh =
      Except.ok (forEach mesh.E.cols
        (fun e GNe => ShapeFunctionGradientsMesh.element el affine d Q mesh e GNe)
        { rows := el.kNodes, cols := mesh.E.cols * d * (el.QuadratureType Q).kPoints,
          coeff := fresh }) := by
  unfold ShapeFunctionGradientsMesh
  simp only []
  rw [if_neg (not_not.mpr hb)]
  have h := (forLoop_ok (fun _ : MatrixX => True)
    (fun e GNe =>
      if mesh.X.rows ≠ d then (Except.error Failure.assertion, GNe)
      else (Except.ok (), ShapeFunctionGradientsMesh.element el affine d Q mesh e GNe))
    (fun e GNe => ShapeFunctionGradientsMesh.element el affine d Q mesh e GNe)
    (fun e s _ => ⟨if_neg (not_not.mpr hX), trivial⟩) mesh.E.cols
    { rows := el.kNodes, cols := mesh.E.cols * d * (el.QuadratureType Q).kPoints,
      coeff := fresh } trivial).1
  rw [h]

/-- C22. `ShapeFunctionGradients<Order>(mesh)` returns a
`(#element nodes) x (#elements * #quad points * d)` matrix, `d` the mesh dimension, in
which for every element `e` and quadrature point `g` the `d` columns starting at
`(e * #quadpoints + g) * d` equal the pointwise gradient transform at `xi_g` with `X_e`
the mesh coordinates of the affine vertices `E(Vertices, e)` of element `e`; the column
ranges of distinct `(e, g)` pairs are pairwise disjoint and together cover every column.
The quadrature rule has the dimension of the element and `mesh.X` has `d` rows. -/
theorem ShapeFunctionGradientsMesh_spec (el affine : Element) (d : Nat) (Q : Int)
    (mesh : Mesh) (fresh : Nat → Nat → Scalar)
    (hdim : (el.QuadratureType Q).kDims = el.kDims) (hX : mesh.X.rows = d)
    (hV : el.Vertices.length = affine.kNodes) :
    ∃ G, ShapeFunctionGradientsMesh el affine d Q mesh fresh = Except.ok G ∧
      G.rows = el.kNodes ∧ G.cols = mesh.E.cols * (el.QuadratureType Q).kPoints * d ∧
      (∀ e, e < mesh.E.cols → ∀ g, g < (el.QuadratureType Q).kPoints →
        ∀ (i : Fin el.kNodes) (k : Fin d),
          G.coeff i ((e * (el.QuadratureType Q).kPoints + g) * d + k) =
            ShapeFunctionGradients el affine d (quadraturePoint (el.QuadratureType Q) g)
              (fun (k : Fin d) (a : Fin affine.kNodes) =>
                mesh.X.coeff k (mesh.E.coeff (el.Vertices.get (Fin.cast hV.symm a)) e))
              i k) ∧
      (∀ e e' g g' k k', g < (el.QuadratureType Q).kPoints →
        g' < (el.QuadratureType Q).kPoints → k < d → k' < d →
        (e * (el.QuadratureType Q).kPoints + g) * d + k =
          (e' * (el.QuadratureType Q).kPoints + g') * d + k' →
        e = e' ∧ g = g' ∧ k = k') ∧
      ∀ c, c < G.cols → ∃ e g k, e < mesh.E.cols ∧ g < (el.QuadratureType Q).kPoints ∧
        k < d ∧ c = (e * (el.QuadratureType Q).kPoints + g) * d + k := by
  have hcols : (forEach mesh.E.cols
      (fun e GNe => ShapeFunctionGradientsMesh.element el affine d Q mesh e GNe)
      { rows := el.kNodes, cols := mesh.E.cols * d * (el.QuadratureType Q).kPoints,
        coeff := fresh }).cols = mesh.E.cols * (el.QuadratureType Q).kPoints * d := by
    rw [forEach_unchanged MatrixX.cols _
      (fun e s => (ShapeFunctionGradientsMesh_element_shape el affine d Q mesh e s).2)]
    exact Nat.mul_right_comm _ _ _
  refine ⟨_, ShapeFunctionGradientsMesh_ok el affine d Q mesh fresh (by omega) hX,
    ?_, hcols, ?_, ?_, ?_⟩
  · rw [forEach_unchanged MatrixX.rows _
      (fun e s => (ShapeFunctionGradientsMesh_element_shape el affine d Q mesh e s).1)]
  · intro e he g hg i k
    have hXg : ShapeFunctionGradientsMesh.Xg el (el.QuadratureType Q) g =
        quadraturePoint (el.QuadratureType Q) g := by
      funext j
      unfold ShapeFunctionGradientsMesh.Xg quadraturePoint
      rw [hdim]
      congr 2
      omega
    have hVe : ShapeFunctionGradientsMesh.Ve el affine d mesh e =
        fun (k : Fin d) (a : Fin affine.kNodes) =>
          mesh.X.coeff k (mesh.E.coeff (el.Vertices.get (Fin.cast hV.symm a)) e) := by
      funext j a
      unfold ShapeFunctionGradientsMesh.Ve
      rw [List.getD_eq_getElem _ _ (by rw [hV]; exact a.2)]
      rfl
    have h1 := forEach_hit_once
      (fun s : MatrixX => s.coeff i ((e * (el.QuadratureType Q).kPoints + g) * d + k))
      (fun e GNe => ShapeFunctionGradientsMesh.element el affine d Q mesh e GNe)
      mesh.E.cols e
      (fixedCoeff (ShapeFunctionGradients el affine d
          (ShapeFunctionGradientsMesh.Xg el (el.QuadratureType Q) g)
          (ShapeFunctionGradientsMesh.Ve el affine d mesh e)) i k) he
      (fun s => by
        show (ShapeFunctionGradientsMesh.element el affine d Q mesh e s).coeff _ _ = _
        rw [ShapeFunctionGradientsMesh_element_coeff el affine d Q mesh e e g i k s hg i.2 k.2,
          if_pos rfl])
      (fun e' _ hne s => by
        show (ShapeFunctionGradientsMesh.element el affine d Q mesh e' s).coeff _ _ = _
        rw [ShapeFunctionGradientsMesh_element_coeff el affine d Q mesh e' e g i k s hg i.2 k.2,
          if_neg hne])
      { rows := el.kNodes, cols := mesh.E.cols * d * (el.QuadratureType Q).kPoints,
        coeff := fresh }
    rw [← hXg, ← hVe]
    refine h1.trans ?_
    unfold fixedCoeff
    rw [dif_pos ⟨i.2, k.2⟩]
  · intro e e' g g' k k' hg hg' hk hk' h
    rw [Nat.mul_comm _ d, Nat.mul_comm _ d] at h
    obtain ⟨h1, h2⟩ := (dof_inj d _ _ k k' hk hk').mp h
    obtain ⟨h3, h4⟩ := (quadRow_inj _ e e' g g' hg hg').mp h1
    exact ⟨h3, h4, h2⟩
  · intro c hc
    rw [hcols] at hc
    have hd : 0 < d := by
      rcases Nat.eq_zero_or_pos d with h | h
      · rw [h] at hc; omega
      · exact h
    have hkP : 0 < (el.QuadratureType Q).kPoints := by
      rcases Nat.eq_zero_or_pos (el.QuadratureType Q).kPoints with h | h
      · rw [h] at hc; omega
      · exact h
    have hq : c / d < mesh.E.cols * (el.QuadratureType Q).kPoints :=
      Nat.div_lt_of_lt_mul (by rw [Nat.mul_comm]; exact hc)
    refine ⟨c / d / (el.QuadratureType Q).kPoints, c / d % (el.QuadratureType Q).kPoints,
      c % d, Nat.div_lt_of_lt_mul (by rw [Nat.mul_comm]; exact hq), Nat.mod_lt _ hkP,
      Nat.mod_lt _ hd, ?_⟩
    rw [Nat.div_add_mod' (c / d), Nat.div_add_mod' c]

/-- The statement of `ShapeFunctionGradientsMesh_spec` on `triangleMesh`. -/
theorem ShapeFunctionGradientsMesh_spec_witness :
    (triangleElement.QuadratureType 2).kDims = triangleElement.kDims ∧
    triangleMesh.X.rows = 2 ∧
    triangleElement.Vertices.length = triangleElement.kNodes ∧
    ∃ G, ShapeFunctionGradientsMesh triangleElement triangleElement 2 2 triangleMesh
        (fun _ _ => 7) = Except.ok G ∧
      G.rows = triangleElement.kNodes ∧
      G.cols = triangleMesh.E.cols * (triangleElement.QuadratureType 2).kPoints * 2 ∧
      (∀ e, e < triangleMesh.E.cols → ∀ g, g < (triangleElement.QuadratureType 2).kPoints →
        ∀ (i : Fin triangleElement.kNodes) (k : Fin 2),
          G.coeff i ((e * (triangleElement.QuadratureType 2).kPoints + g) * 2 + k) =
            ShapeFunctionGradients triangleElement triangleElement 2
              (quadraturePoint (triangleElement.QuadratureType 2) g)
              (fun (k : Fin 2) (a : Fin triangleElement.kNodes) =>
                triangleMesh.X.coeff k (triangleMesh.E.coeff
                  (triangleElement.Vertices.get (Fin.cast (Eq.symm (Eq.refl 3)) a)) e))
              i k) ∧
      (∀ e e' g g' k k', g < (triangleElement.QuadratureType 2).kPoints →
        g' < (triangleElement.QuadratureType 2).kPoints → k < 2 → k' < 2 →
        (e * (triangleElement.QuadratureType 2).kPoints + g) * 2 + k =
          (e' * (triangleElement.QuadratureType 2).kPoints + g') * 2 + k' →
        e = e' ∧ g = g' ∧ k = k') ∧
      ∀ c, c < G.cols → ∃ e g k, e < triangleMesh.E.cols ∧
        g < (triangleElement.QuadratureType 2).kPoints ∧
        k < 2 ∧ c = (e * (triangleElement.QuadratureType 2).kPoints + g) * 2 + k :=
  ⟨rfl, rfl, rfl,
    ShapeFunctionGradientsMesh_spec triangleElement triangleElement 2 2 triangleMesh
      (fun _ _ => 7) rfl rfl (Eq.refl 3)⟩

/-! ## `ShapeFunctionMatrix` at given points -/

/-- A failing loop that returns normally has kept an invariant that every normally
returning iteration keeps. -/
theorem forLoop_ok_inv {σ : Type} (P : Nat → σ → Prop)
    (body : Nat → σ → Except Failure Unit × σ) (n : Nat)
    (h : ∀ i s s', i < n → P i s → body i s = (Except.ok (), s') → P (i + 1) s')
    (s : σ) (hs : P 0 s) :
    ∀ s', forLoop n body s = (Except.ok (), s') → P n s' := by
  induction n with
  | zero =>
    intro s' hr
    have h1 : s = s' := congrArg Prod.snd hr
    exact h1 ▸ hs
  | succ n ih =>
    intro s' hr
    rw [forLoop] at hr
    rcases hr0 : forLoop n body s with ⟨r, s1⟩
    rw [hr0] at hr
    cases r with
    | error f => cases hr
    | ok u =>
      exact h n s1 s' (Nat.lt_succ_self n)
        (ih (fun i s s' hi => h i s s' (Nat.lt_succ_of_lt hi)) s1 hr0) hr

/-- A failing loop whose body returns normally on every state of an invariant that moves
with the iteration returns normally. -/
theorem forLoop_succeeds {σ : Type} (P : Nat → σ → Prop)
    (body : Nat → σ → Except Failure Unit × σ) (n : Nat)
    (h : ∀ i s, i < n → P i s → ∃ s', body i s = (Except.ok (), s') ∧ P (i + 1) s')
    (s : σ) (hs : P 0 s) :
    ∃ s', forLoop n body s = (Except.ok (), s') ∧ P n s' := by
  induction n with
  | zero => exact ⟨s, rfl, hs⟩
  | succ n ih =>
    obtain ⟨s1, h1, h2⟩ := ih (fun i s hi => h i s (Nat.lt_succ_of_lt hi))
    obtain ⟨s2, h3, h4⟩ := h n s1 (Nat.lt_succ_self n) h2
    refine ⟨s2, ?_, h4⟩
    rw [forLoop, h1]
    exact h3

/-- An `insert` returns normally exactly when the position is inside the shape and not
stored yet, and it stores the coefficient. -/
theorem CSRMatrix_insert_ok_iff (N N' : CSRMatrix) (r c : Nat) (v : Scalar) :
    N.insert r c v = (Except.ok (), N') ↔
      (r < N.rows ∧ c < N.cols) ∧ N.stored r c = false ∧ N' = N.inserted r c v := by
  unfold CSRMatrix.insert
  by_cases h1 : r < N.rows ∧ c < N.cols
  · rw [if_neg (not_not.mpr h1)]
    by_cases h2 : N.stored r c = true
    · rw [if_pos h2]
      constructor
      · intro h; cases h
      · rintro ⟨_, h3, _⟩
        rw [h2] at h3
        cases h3
    · rw [if_neg h2]
      constructor
      · intro h
        exact ⟨h1, by simpa using h2, (congrArg Prod.snd h).symm⟩
      · rintro ⟨_, _, rfl⟩
        rfl
  · rw [if_pos h1]
    constructor
    · intro h; cases h
    · rintro ⟨h3, _, _⟩
      exact absurd h3 h1

/-- Inserting node `i` of the element, a node not inserted before, extends what holds of
the row by one node. -/
theorem nodesInserted_step (mesh : Mesh) (e g : Nat) (Ng : Nat → Scalar)
    (N0 N : CSRMatrix) (i : Nat)
    (hinv : ShapeFunctionMatrixAt.nodesInserted mesh e g Ng N0 i N)
    (hi : i < mesh.E.rows) (hc : mesh.E.coeff i e < N0.cols)
    (hnew : ∀ j, j < i → mesh.E.coeff j e ≠ mesh.E.coeff i e) :
    ShapeFunctionMatrixAt.nodesInserted mesh e g Ng N0 (i + 1)
      (N.inserted g (mesh.E.coeff i e) (Ng i)) := by
  obtain ⟨h1, h2, h3, h4, h5, h6⟩ := hinv
  refine ⟨h1, h2, ?_, ?_, ?_, ?_⟩
  · intro r c hr
    show (if r = g ∧ c = mesh.E.coeff i e then Ng i else N.coeff r c) = _ ∧
      (if r = g ∧ c = mesh.E.coeff i e then true else N.stored r c) = _
    rw [if_neg (fun h => hr h.1), if_neg (fun h => hr h.1)]
    exact h3 r c hr
  · intro j hj
    show _ ∧ _ ∧
      (if g = g ∧ mesh.E.coeff j e = mesh.E.coeff i e then true
        else N.stored g (mesh.E.coeff j e)) = true ∧
      (if g = g ∧ mesh.E.coeff j e = mesh.E.coeff i e then Ng i
        else N.coeff g (mesh.E.coeff j e)) = Ng j
    by_cases hji : j = i
    · subst hji
      rw [if_pos ⟨rfl, rfl⟩, if_pos ⟨rfl, rfl⟩]
      exact ⟨hi, hc, rfl, rfl⟩
    · have hlt : j < i := by omega
      rw [if_neg (fun h => hnew j hlt h.2), if_neg (fun h => hnew j hlt h.2)]
      exact h4 j hlt
  · intro j hj k hk hjk
    by_cases hji : j = i
    · by_cases hki : k = i
      · omega
      · subst hji
        exact absurd hjk.symm (hnew k (by omega))
    · by_cases hki : k = i
      · subst hki
        exact absurd hjk (hnew j (by omega))
      · exact h5 j (by omega) k (by omega) hjk
  · intro c hcne
    show (if g = g ∧ c = mesh.E.coeff i e then Ng i else N.coeff g c) = _ ∧
      (if g = g ∧ c = mesh.E.coeff i e then true else N.stored g c) = _
    have hne : ¬ (g = g ∧ c = mesh.E.coeff i e) :=
      fun h => hcne i (Nat.lt_succ_self i) h.2.symm
    rw [if_neg hne, if_neg hne]
    exact h6 c (fun j hj => hcne j (Nat.lt_succ_of_lt hj))

/-- An iteration of the loop over the nodes that returns normally extends what holds of
the row by one node. -/
theorem nodesInserted_of_ok (mesh : Mesh) (e g : Nat) (Ng : Nat → Scalar)
    (N0 N N' : CSRMatrix) (i : Nat)
    (hinv : ShapeFunctionMatrixAt.nodesInserted mesh e g Ng N0 i N)
    (hr : (if ¬ i < mesh.E.rows then (Except.error Failure.assertion, N)
      else N.insert g (mesh.E.coeff i e) (Ng i)) = (Except.ok (), N')) :
    ShapeFunctionMatrixAt.nodesInserted mesh e g Ng N0 (i + 1) N' := by
  by_cases hi : i < mesh.E.rows
  · rw [if_neg (not_not.mpr hi)] at hr
    obtain ⟨⟨_, hc⟩, hs, rfl⟩ := (CSRMatrix_insert_ok_iff _ _ _ _ _).mp hr
    refine nodesInserted_step mesh e g Ng N0 N i hinv hi (hinv.2.1 ▸ hc) ?_
    intro j hj hje
    have h1 := (hinv.2.2.2.1 j hj).2.2.1
    rw [hje, hs] at h1
    cases h1
  · rw [if_pos hi] at hr
    cases hr

/-- On a good point whose row is empty, an iteration of the loop over the nodes returns
normally. -/
theorem nodesInserted_ok (el : Element) (mesh : Mesh) (eg : IndexVectorX) (g : Nat)
    (Ng : Nat → Scalar) (N0 N : CSRMatrix) (i : Nat)
    (hgood : ShapeFunctionMatrixAt.goodPoint el mesh eg g)
    (hrow : g < N0.rows) (hcols : N0.cols = mesh.X.cols)
    (hempty : ∀ c, N0.stored g c = false) (hi : i < el.kNodes)
    (hinv : ShapeFunctionMatrixAt.nodesInserted mesh (eg.coeff g) g Ng N0 i N) :
    ∃ N', (if ¬ i < mesh.E.rows then (Except.error Failure.assertion, N)
        else N.insert g (mesh.E.coeff i (eg.coeff g)) (Ng i)) = (Except.ok (), N') ∧
      ShapeFunctionMatrixAt.nodesInserted mesh (eg.coeff g) g Ng N0 (i + 1) N' := by
  obtain ⟨_, _, hvalid, hdist⟩ := hgood
  have hnew : ∀ j, j < i → mesh.E.coeff j (eg.coeff g) ≠ mesh.E.coeff i (eg.coeff g) := by
    intro j hj hje
    have := hdist j (by omega) i hi hje
    omega
  have hr : (if ¬ i < mesh.E.rows then (Except.error Failure.assertion, N)
      else N.insert g (mesh.E.coeff i (eg.coeff g)) (Ng i)) =
      (Except.ok (), N.inserted g (mesh.E.coeff i (eg.coeff g)) (Ng i)) := by
    rw [if_neg (not_not.mpr (hvalid i hi).1)]
    refine (CSRMatrix_insert_ok_iff _ _ _ _ _).mpr ⟨⟨?_, ?_⟩, ?_, rfl⟩
    · rw [hinv.1]; exact hrow
    · rw [hinv.2.1, hcols]; exact (hvalid i hi).2
    · rw [(hinv.2.2.2.2.2 _ hnew).2]
      exact hempty _
  exact ⟨_, hr, nodesInserted_of_ok mesh _ g Ng N0 N _ i hinv hr⟩

/-- An iteration of the loop over the points that returns normally handled a good point
and left its row scattered. -/
theorem pointsInserted_of_ok (el : Element) (mesh : Mesh) (eg : IndexVectorX) (X : MatrixX)
    (g : Nat) (N N' : CSRMatrix)
    (hinv : ShapeFunctionMatrixAt.pointsInserted el mesh eg X g N)
    (hr : ShapeFunctionMatrixAt.point el mesh eg X g N = (Except.ok (), N')) :
    ShapeFunctionMatrixAt.pointsInserted el mesh eg X (g + 1) N' := by
  unfold ShapeFunctionMatrixAt.point at hr
  by_cases h1 : g < eg.size
  swap
  · rw [if_pos h1] at hr
    cases hr
  rw [if_neg (not_not.mpr h1)] at hr
  simp only [] at hr
  by_cases h2 : eg.coeff g < mesh.E.cols
  swap
  · rw [if_pos h2] at hr
    cases hr
  rw [if_neg (not_not.mpr h2)] at hr
  by_cases h3 : g < X.cols
  swap
  · rw [if_pos h3] at hr
    cases hr
  rw [if_neg (not_not.mpr h3)] at hr
  obtain ⟨i1, i2, i3, i4⟩ := hinv
  have hN := forLoop_ok_inv
    (fun i M => ShapeFunctionMatrixAt.nodesInserted mesh (eg.coeff g) g (el.N (X.col g)) N i M)
    _ el.kNodes
    (fun i s s' _ hP hb => nodesInserted_of_ok mesh (eg.coeff g) g _ N s s' i hP hb)
    N ⟨rfl, rfl, fun _ _ _ => ⟨rfl, rfl⟩, fun j hj => absurd hj (Nat.not_lt_zero j),
      fun j hj => absurd hj (Nat.not_lt_zero j), fun _ _ => ⟨rfl, rfl⟩⟩ N' hr
  obtain ⟨n1, n2, n3, n4, n5, n6⟩ := hN
  refine ⟨n1.trans i1, n2.trans i2, ?_, ?_⟩
  · intro r c hr'
    have hne : r ≠ g := by omega
    rw [(n3 r c hne).1, (n3 r c hne).2]
    exact i3 r c (by omega)
  · intro r hr'
    by_cases hrg : r = g
    · subst hrg
      refine ⟨⟨h1, h2, fun i hi => ⟨(n4 i hi).1, i2 ▸ (n4 i hi).2.1⟩,
        fun i hi j hj => n5 i hi j hj⟩, fun i hi => (n4 i hi).2.2.2, fun c hc => ?_⟩
      rw [(n6 c hc).1]
      exact (i3 r c (Nat.le_refl r)).1
    · have hlt : r < g := by omega
      refine ⟨(i4 r hlt).1, fun i hi => ?_, fun c hc => ?_⟩
      · rw [(n3 r _ hrg).1]
        exact (i4 r hlt).2.1 i hi
      · rw [(n3 r c hrg).1]
        exact (i4 r hlt).2.2 c hc

/-- On a good point, the iteration of the loop over the points returns normally. -/
theorem pointsInserted_ok (el : Element) (mesh : Mesh) (eg : IndexVectorX) (X : MatrixX)
    (g : Nat) (N : CSRMatrix) (hg : g < X.cols)
    (hgood : ShapeFunctionMatrixAt.goodPoint el mesh eg g)
    (hinv : ShapeFunctionMatrixAt.pointsInserted el mesh eg X g N) :
    ∃ N', ShapeFunctionMatrixAt.point el mesh eg X g N = (Except.ok (), N') ∧
      ShapeFunctionMatrixAt.pointsInserted el mesh eg X (g + 1) N' := by
  have hloop := forLoop_succeeds
    (fun i M => ShapeFunctionMatrixAt.nodesInserted mesh (eg.coeff g) g (el.N (X.col g)) N i M)
    (fun i N =>
      if ¬ i < mesh.E.rows then (Except.error Failure.assertion, N)
      else N.insert g (mesh.E.coeff i (eg.coeff g)) (el.N (X.col g) i))
    el.kNodes
    (fun i s hi hP => nodesInserted_ok el mesh eg g _ N s i hgood (hinv.1 ▸ hg) hinv.2.1
      (fun c => (hinv.2.2.1 g c (Nat.le_refl g)).2) hi hP)
    N ⟨rfl, rfl, fun _ _ _ => ⟨rfl, rfl⟩, fun j hj => absurd hj (Nat.not_lt_zero j),
      fun j hj => absurd hj (Nat.not_lt_zero j), fun _ _ => ⟨rfl, rfl⟩⟩
  obtain ⟨N', hN', _⟩ := hloop
  have hr : ShapeFunctionMatrixAt.point el mesh eg X g N = (Except.ok (), N') := by
    unfold ShapeFunctionMatrixAt.point
    rw [if_neg (not_not.mpr hgood.1)]
    simp only []
    rw [if_neg (not_not.mpr hgood.2.1), if_neg (not_not.mpr hg)]
    exact hN'
  exact ⟨N', hr, pointsInserted_of_ok el mesh eg X g N N' hinv hr⟩

/-- With points given in reference space, the call returns what the loop over the points
leaves, if the loop returns normally. -/
theorem ShapeFunctionMatrixAt_ok_iff (el : Element)
    (RP : Mesh → IndexVectorX → MatrixX → MatrixX) (mesh : Mesh) (eg : IndexVectorX)
    (Xg : MatrixX) (N : CSRMatrix) :
    ShapeFunctionMatrixAt el RP mesh eg Xg true = Except.ok N ↔
      forLoop Xg.cols (fun g N => ShapeFunctionMatrixAt.point el mesh eg Xg g N)
        (CSRMatrix.Zero Xg.cols mesh.X.cols) = (Except.ok (), N) := by
  show (match forLoop Xg.cols (fun g N => ShapeFunctionMatrixAt.point el mesh eg Xg g N)
      (CSRMatrix.Zero Xg.cols mesh.X.cols) with
    | (Except.ok _, N) => Except.ok N
    | (Except.error f, _) => Except.error f) = Except.ok N ↔ _
  rcases forLoop Xg.cols (fun g N => ShapeFunctionMatrixAt.point el mesh eg Xg g N)
    (CSRMatrix.Zero Xg.cols mesh.X.cols) with ⟨r, s⟩
  cases r with
  | error f =>
    constructor
    · intro h; cases h
    · intro h; cases h
  | ok u =>
    constructor
    · intro h
      cases h
      rfl
    · intro h
      cases h
      rfl

/-- Column `p` of the matrix that `ShapeFunctionsAt` returns. -/
theorem ShapeFunctionsAt_coeff (el : Element) (Xi S : MatrixX)
    (h : ShapeFunctionsAt el Xi = Except.ok S) (p : Nat) (hp : p < Xi.cols) (i : Nat) :
    S.coeff i p = el.N (Xi.col p) i := by
  unfold ShapeFunctionsAt at h
  by_cases hs : Xi.rows = el.kDims
  · rw [if_neg (not_not.mpr hs)] at h
    cases h
    rw [setCol_loop (fun i => el.N (Xi.col i)), if_pos hp]
  · rw [if_pos hs] at h
    cases h

/-- C23. `ShapeFunctionMatrix(mesh, eg, Xg, bXgInReferenceSpace = true)` is a
`#points x #nodes` matrix in which, for every point `g`, whose element `eg(g)` lists
pairwise distinct valid nodes, and every local node `i`, the entry `(g, E(i, eg(g)))`
equals `N_i(Xg.col(g))` and all other entries of row `g` are zero; so row `g` holds
exactly column `g` of `ShapeFunctionsAt<Element>(Xg)`, scattered to the nodes of element
`eg(g)`. The call returns a matrix exactly when the element of every point lists pairwise
distinct valid nodes. -/
theorem ShapeFunctionMatrixAt_spec (el : Element)
    (RP : Mesh → IndexVectorX → MatrixX → MatrixX) (mesh : Mesh) (eg : IndexVectorX)
    (Xg : MatrixX) :
    ((∃ N, ShapeFunctionMatrixAt el RP mesh eg Xg true = Except.ok N) ↔
      ∀ g, g < Xg.cols → ShapeFunctionMatrixAt.goodPoint el mesh eg g) ∧
    ∀ N, ShapeFunctionMatrixAt el RP mesh eg Xg true = Except.ok N →
      N.rows = Xg.cols ∧ N.cols = mesh.X.cols ∧
      ∀ g, g < Xg.cols →
        (∀ i, i < el.kNodes →
          N.coeff g (mesh.E.coeff i (eg.coeff g)) = el.N (Xg.col g) i) ∧
        (∀ c, (∀ i, i < el.kNodes → mesh.E.coeff i (eg.coeff g) ≠ c) → N.coeff g c = 0) ∧
        ∀ S, ShapeFunctionsAt el Xg = Except.ok S → ∀ i, i < el.kNodes →
          N.coeff g (mesh.E.coeff i (eg.coeff g)) = S.coeff i g := by
  have hzero : ShapeFunctionMatrixAt.pointsInserted el mesh eg Xg 0
      (CSRMatrix.Zero Xg.cols mesh.X.cols) :=
    ⟨rfl, rfl, fun _ _ _ => ⟨rfl, rfl⟩, fun r hr => absurd hr (Nat.not_lt_zero r)⟩
  have hinv : ∀ N, ShapeFunctionMatrixAt el RP mesh eg Xg true = Except.ok N →
      ShapeFunctionMatrixAt.pointsInserted el mesh eg Xg Xg.cols N := by
    intro N hN
    exact forLoop_ok_inv (fun g M => ShapeFunctionMatrixAt.pointsInserted el mesh eg Xg g M)
      _ Xg.cols (fun g s s' _ hP hb => pointsInserted_of_ok el mesh eg Xg g s s' hP hb)
      _ hzero N ((ShapeFunctionMatrixAt_ok_iff el RP mesh eg Xg N).mp hN)
  refine ⟨⟨?_, ?_⟩, ?_⟩
  · rintro ⟨N, hN⟩ g hg
    exact ((hinv N hN).2.2.2 g hg).1
  · intro hgood
    obtain ⟨N, hN, _⟩ := forLoop_succeeds
      (fun g M => ShapeFunctionMatrixAt.pointsInserted el mesh eg Xg g M)
      (fun g N => ShapeFunctionMatrixAt.point el mesh eg Xg g N) Xg.cols
      (fun g s hg hP => pointsInserted_ok el mesh eg Xg g s hg (hgood g hg) hP)
      _ hzero
    exact ⟨N, (ShapeFunctionMatrixAt_ok_iff el RP mesh eg Xg N).mpr hN⟩
  · intro N hN
    obtain ⟨h1, h2, _, h4⟩ := hinv N hN
    refine ⟨h1, h2, fun g hg => ⟨(h4 g hg).2.1, (h4 g hg).2.2, fun S hS i hi => ?_⟩⟩
    rw [(h4 g hg).2.1 i hi, ShapeFunctionsAt_coeff el Xg S hS g hg i]

/-- The statement of `ShapeFunctionMatrixAt_spec` on three points of `lineMesh`: the call
returns a `3 x 3` matrix whose row of the point `1/2` of element `1` holds `1/2` at the
nodes `1` and `2` and zero at node `0`. -/
theorem ShapeFunctionMatrixAt_spec_witness :
    (∀ g, g < linePointPositions.cols →
      ShapeFunctionMatrixAt.goodPoint lineElement lineMesh linePointElements g) ∧
    ∃ N, ShapeFunctionMatrixAt lineElement (fun _ _ X => X) lineMesh linePointElements
        linePointPositions true = Except.ok N ∧
      N.rows = 3 ∧ N.cols = 3 ∧
      N.coeff 1 1 = 1 / 2 ∧ N.coeff 1 2 = 1 / 2 ∧ N.coeff 1 0 = 0 := by
  have hspec := ShapeFunctionMatrixAt_spec lineElement (fun _ _ X => X) lineMesh
    linePointElements linePointPositions
  obtain ⟨N, hN⟩ := hspec.1.mpr (by decide)
  obtain ⟨h1, h2, h3⟩ := hspec.2 N hN
  obtain ⟨h4, h5, _⟩ := h3 1 (by decide)
  refine ⟨by decide, N, hN, h1, h2, ?_, ?_, ?_⟩
  · refine (h4 0 (by decide)).trans ?_
    norm_num [lineElement, linePointPositions, MatrixX.col]
  · refine (h4 1 (by decide)).trans ?_
    norm_num [lineElement, linePointPositions, MatrixX.col]
  · refine h5 0 ?_
    intro i hi
    have hi2 : i < 2 := hi
    interval_cases i <;> decide

end fem
end pbat
